import Mathlib

/-!
Visionaray: multi-hit accumulator and top-down BVH construction.

A shallow embedding of

* `include/visionaray/detail/multi_hit.h` (`algo::insert_sorted`, `update_if`, `is_closer`)
* `include/visionaray/detail/bvh/build_top_down.h` (`build_top_down_impl`,
  `build_top_down_work`, `build_top_down`)

together with theorems about the embedded definitions.

Modelling conventions

* A SIMD value of `W` lanes whose scalar type is `α` is a function `Fin W → α`
  (`Packet W α`); a SIMD mask is `Fin W → Bool`.  A SIMD hit record is viewed through
  `unpack` / `simd::pack`, i.e. as a packet of scalar hit records.
* A random access range `[first, last)` is a `List`; an access outside of the range has no
  defined behaviour and is modelled by the result `none`.
* `int` values that hold container sizes are natural numbers (sizes are assumed to stay
  below `2^31`, so that `static_cast<int>` is the identity).
-/

namespace visionaray

/-! ## SIMD packets -/

/-- A SIMD vector with `W` lanes over the scalar type `α`. -/
abbrev Packet (W : Nat) (α : Type) : Type := Fin W → α

/-- A SIMD mask with `W` lanes. -/
abbrev Mask (W : Nat) : Type := Fin W → Bool

namespace simd

/-- Horizontal reduction `any(m)`: some lane is set. -/
def any {W : Nat} (m : Mask W) : Bool := (List.finRange W).any m

/-- Horizontal reduction `all(m)`: every lane is set. -/
def all {W : Nat} (m : Mask W) : Bool := (List.finRange W).all m

/-- Lane-wise `select(m, a, b)`: `a` where the mask is set, `b` elsewhere. -/
def select {W : Nat} {α : Type} (m : Mask W) (a b : Packet W α) : Packet W α :=
  fun l => if m l then a l else b l

/-- Broadcast of a scalar to all lanes, `I(i)` or `M(false)`. -/
def splat {W : Nat} {α : Type} (a : α) : Packet W α := fun _ => a

end simd

/-! ## Hit records -/

/-- Modelled from the spec: the hit record type (`hit_record`, not part of the sources at
hand).  §3: distance along a ray, validity flag, and implementation-defined payload. -/
structure HitRecord (T P : Type) where
  hit : Bool
  t : T
  payload : P
deriving DecidableEq

/-- Modelled from the spec: the functor `is_closer_t` applied to two hit records (its
definition is not part of the sources at hand).  §4.4: the candidate is closer than an
existing entry when that entry is farther or invalid; a candidate that is no valid hit is
closer than nothing.  Evaluated lane by lane. -/
def is_closer_t {W : Nat} {T P : Type} [LinearOrder T]
    (query reference : Packet W (HitRecord T P)) : Mask W :=
  fun l => (query l).hit && (!(reference l).hit || decide ((query l).t < (reference l).t))

namespace algo

/-- The search loop of `insert_sorted` (multi_hit.h, lines 77-89).  The first argument
counts the iterations that remain until `i < length` fails, the second is `i`.
Returns the final `pos` and `active`. -/
def insert_sorted_search {W : Nat} {HR : Type}
    (cond : Packet W HR → Packet W HR → Mask W) (item : Packet W HR)
    (first : List (Packet W HR)) :
    Nat → Nat → Packet W Nat → Mask W → Option (Packet W Nat × Mask W)
  | 0, _, pos, active => some (pos, active)
  | n + 1, i, pos, active =>
    match first[i]? with
    | none => none
    | some e =>
      let insert : Mask W := fun l => cond item e l && active l
      let pos := simd.select insert (simd.splat i) pos
      let active := simd.select insert (simd.splat false) active
      if !simd.any active then
        some (pos, active)
      else
        insert_sorted_search cond item first n (i + 1) pos active

/-- The lambda `update` of `insert_sorted` (multi_hit.h, lines 98-119) applied at index `i`:
`src` is the referenced source record (`none` when the reference points outside of the
range), which is only read in the two branches that store. -/
def insert_sorted_update {W : Nat} {HR : Type}
    (first : List (Packet W HR)) (i : Nat) (condition : Mask W)
    (src : Option (Packet W HR)) : Option (List (Packet W HR)) :=
  if simd.all condition then
    match src with
    | none => none
    | some item => if i < first.length then some (first.set i item) else none
  else if simd.any condition then
    match src, first[i]? with
    | some item, some dst => some (first.set i (fun j => if condition j then item j else dst j))
    | _, _ => none
  else
    some first

/-- The shift loop of `insert_sorted` (multi_hit.h, lines 93-130).  The first argument is
`i + 1`, so that `0` stands for `i = -1`, where `i >= 0` fails. -/
def insert_sorted_shift {W : Nat} {HR : Type} (item : Packet W HR) (pos : Packet W Nat) :
    Nat → List (Packet W HR) → Option (List (Packet W HR))
  | 0, first => some first
  | i + 1, first =>
    let must_shift : Mask W := fun l => decide (i > pos l)
    let must_insert : Mask W := fun l => decide (i = pos l)
    match insert_sorted_update first i must_shift (if i = 0 then none else first[i - 1]?) with
    | none => none
    | some first1 =>
      match insert_sorted_update first1 i must_insert (some item) with
      | none => none
      | some first2 =>
        if !simd.any must_shift && !simd.any must_insert then
          some first2
        else
          insert_sorted_shift item pos i first2

/-- SIMD version of `algo::insert_sorted(item, first, last, cond)` (multi_hit.h, lines
64-131).  The range `[first, last)` is the list `first`; the result is the range after the
call, or `none` when an entry outside of the range is accessed. -/
def insert_sorted {W : Nat} {HR : Type}
    (item : Packet W HR) (first : List (Packet W HR))
    (cond : Packet W HR → Packet W HR → Mask W) : Option (List (Packet W HR)) :=
  let length := first.length
  match insert_sorted_search cond item first length 0 (simd.splat length) (simd.splat true) with
  | none => none
  | some (pos, active) =>
    -- `i = any(!active) ? length - 1 : 0`, passed on as `i + 1`
    let start := if simd.any (fun l => !active l) then length else 1
    insert_sorted_shift item pos start first

end algo

/-- `update_if(dst, src, cond)` for a multi-hit `dst` and a single hit record `src`
(multi_hit.h, lines 148-153); `cond` is unused. -/
def update_if {W : Nat} {T P : Type} [LinearOrder T]
    (dst : List (Packet W (HitRecord T P))) (src : Packet W (HitRecord T P))
    (_cond : Packet W (HitRecord T P) → Packet W (HitRecord T P) → Mask W) :
    Option (List (Packet W (HitRecord T P))) :=
  algo.insert_sorted src dst is_closer_t

/-- The range-based for loop of the multi-hit `update_if` (multi_hit.h, lines 170-178). -/
def update_if_multi_loop {W : Nat} {T P : Type} [LinearOrder T] :
    List (Packet W (HitRecord T P)) → List (Packet W (HitRecord T P)) →
    Option (List (Packet W (HitRecord T P)))
  | dst, [] => some dst
  | dst, hr :: rest =>
    if !simd.any (fun l => (hr l).hit) then
      some dst
    else
      match algo.insert_sorted hr dst is_closer_t with
      | none => none
      | some dst1 => update_if_multi_loop dst1 rest

/-- `update_if(dst, src, cond)` for two multi-hit records of the same capacity
(multi_hit.h, lines 157-180); `cond` is unused. -/
def update_if_multi {W : Nat} {T P : Type} [LinearOrder T]
    (dst src : List (Packet W (HitRecord T P)))
    (_cond : Packet W (HitRecord T P) → Packet W (HitRecord T P) → Mask W) :
    Option (List (Packet W (HitRecord T P))) :=
  match dst[0]? with
  | none => none
  | some d0 =>
    if !simd.any (fun l => (d0 l).hit) then
      some src
    else
      update_if_multi_loop dst src

/-! ## Vocabulary for the search loop of `insert_sorted` -/

/-- In the lane list `lane`, the comparator fails for `x` at every index below `p`. -/
def NoneBefore {HR : Type} (c : HR → HR → Bool) (x : HR) (lane : List HR) (p : Nat) : Prop :=
  ∀ j e, j < p → lane[j]? = some e → c x e = false

/-- In the lane list `lane`, `p` is the first index at which the comparator holds for `x`. -/
def FirstAt {HR : Type} (c : HR → HR → Bool) (x : HR) (lane : List HR) (p : Nat) : Prop :=
  (∃ e, lane[p]? = some e ∧ c x e = true) ∧ NoneBefore c x lane p

/-- Lane `l` of a range of packets. -/
def laneOf {W : Nat} {HR : Type} (l : Fin W) (first : List (Packet W HR)) : List HR :=
  first.map (fun e => e l)

/-- What the search loop has established for one lane: either the lane is still active,
`pos` is the length and the comparator failed everywhere, or the lane is resolved and `pos`
is the first index at which the comparator holds. -/
def LaneResolved {HR : Type} (c : HR → HR → Bool) (x : HR) (lane : List HR)
    (p : Nat) (active : Bool) : Prop :=
  (active = true → p = lane.length ∧ NoneBefore c x lane lane.length) ∧
  (active = false → FirstAt c x lane p)

/-- The outcomes of the comparator in lane `l`, position by position. -/
def cond_lane {W : Nat} {HR : Type} (cond : Packet W HR → Packet W HR → Mask W)
    (item : Packet W HR) (first : List (Packet W HR)) (l : Fin W) : List Bool :=
  first.map (fun e => cond item e l)

/-- Reads an outcome of the comparator: used with `NoneBefore` and `FirstAt` on a
`cond_lane`. -/
def outcome (_ : Bool) (b : Bool) : Bool := b

/-! ## Vocabulary for the shift loop of `insert_sorted` -/

/-- The packet found at index `j` once every lane `l` has shifted its entries from `pos l`
on by one slot and stored `item` at `pos l`. -/
def shifted {W : Nat} {HR : Type} (item : Packet W HR) (pos : Packet W Nat)
    (first : List (Packet W HR)) (j : Nat) : Option (Packet W HR) :=
  match first[j]?, (item :: first)[j]? with
  | some e, some prev =>
    some (fun l => if j < pos l then e l else if j = pos l then item l else prev l)
  | _, _ => none

/-! ## Insertion on a single lane -/

/-- One lane after an insertion at position `p`: the entries from `p` on move one slot
towards the tail, the last one is dropped, and `x` is stored at `p`.  For `p` equal to the
length nothing changes. -/
def insert_at {α : Type} (p : Nat) (x : α) (es : List α) : List α :=
  (es.take p ++ x :: es.drop p).take es.length

/-- The scalar single-record insertion in the words of §4.4: locate the first position at
which the comparator holds for the candidate, shift the entries from that position on one
slot towards the tail (the last entry is dropped), write the candidate there; without such
a position the candidate is discarded. -/
def scalar_insert {HR : Type} (c : HR → HR → Bool) (x : HR) : List HR → List HR
  | [] => []
  | e :: rest => if c x e then x :: (e :: rest).dropLast else e :: scalar_insert c x rest

/-- The position that the search loop computes for a lane whose comparator is `c`: the
first index at which `c` holds, or the length. -/
def PosOf {HR : Type} (c : HR → HR → Bool) (x : HR) (lane : List HR) (p : Nat) : Prop :=
  FirstAt c x lane p ∨ (p = lane.length ∧ NoneBefore c x lane lane.length)

/-! ## The closer-than comparator and the invariant on one lane -/

/-- One lane of `is_closer_t`. -/
def closer {T P : Type} [LinearOrder T] (q e : HitRecord T P) : Bool :=
  q.hit && (!e.hit || decide (q.t < e.t))

/-- Invariant of one lane of a multi-hit record, as a relation between every entry `a` and
every later entry `b`: if `b` is valid then so is `a`, and `a` is not farther than `b`. -/
def LaneInv {T P : Type} [LinearOrder T] (lane : List (HitRecord T P)) : Prop :=
  lane.Pairwise (fun a b => b.hit = true → a.hit = true ∧ a.t ≤ b.t)

/-- Invariant of one lane of a multi-hit record, spelled out: the valid entries are exactly
the first `v` ones, for some `v` not above the capacity, and their distances ascend. -/
def SortedPrefix {T P : Type} [LinearOrder T] (lane : List (HitRecord T P)) : Prop :=
  ∃ v, v ≤ lane.length ∧
    (∀ j e, lane[j]? = some e → (e.hit = true ↔ j < v)) ∧
    (∀ i j ei ej, i ≤ j → j < v → lane[i]? = some ei → lane[j]? = some ej → ei.t ≤ ej.t)

/-! ## Sequences of `update_if` calls -/

/-- One call of `update_if` on a multi-hit accumulator: with a single hit record or with a
second multi-hit record as candidate, together with the `cond` argument of the call. -/
inductive Update (W : Nat) (T P : Type) where
  | single (src : Packet W (HitRecord T P))
      (cond : Packet W (HitRecord T P) → Packet W (HitRecord T P) → Mask W)
  | multi (src : List (Packet W (HitRecord T P)))
      (cond : Packet W (HitRecord T P) → Packet W (HitRecord T P) → Mask W)

/-- The overload of `update_if` selected by the candidate. -/
def apply_update {W : Nat} {T P : Type} [LinearOrder T]
    (dst : List (Packet W (HitRecord T P))) :
    Update W T P → Option (List (Packet W (HitRecord T P)))
  | Update.single src cond => update_if dst src cond
  | Update.multi src cond => update_if_multi dst src cond

/-- A finite sequence of `update_if` calls on the accumulator `dst`. -/
def apply_updates {W : Nat} {T P : Type} [LinearOrder T] :
    List (Packet W (HitRecord T P)) → List (Update W T P) →
    Option (List (Packet W (HitRecord T P)))
  | dst, [] => some dst
  | dst, u :: us =>
    match apply_update dst u with
    | none => none
    | some dst1 => apply_updates dst1 us

/-- The distances of the valid entries at the head of a lane. -/
def validDists {T P : Type} (lane : List (HitRecord T P)) : List T :=
  (lane.takeWhile (fun e => e.hit)).map (fun e => e.t)

/-- Insertion of a distance into an ascending list, behind the entries that are not
farther. -/
def insert_dist {T : Type} [LinearOrder T] (d : T) : List T → List T
  | [] => [d]
  | e :: rest => if d < e then d :: e :: rest else e :: insert_dist d rest

/-! ## Examples used by the witnesses -/

/-- A two-lane hit record: lane 0 and lane 1 each hold a valid hit at the given distance,
or no hit. -/
def hit2 (d0 d1 : Option Nat) : Packet 2 (HitRecord Nat Unit) :=
  fun l =>
    match (if l = 0 then d0 else d1) with
    | some d => ⟨true, d, ()⟩
    | none => ⟨false, 0, ()⟩

/-- A one-lane valid hit at distance `d`. -/
def hit1 (d : Nat) : Packet 1 (HitRecord Nat Unit) := fun _ => ⟨true, d, ()⟩

/-- A one-lane record without a hit. -/
def miss1 : Packet 1 (HitRecord Nat Unit) := fun _ => ⟨false, 0, ()⟩

/-! ## Top-down BVH construction: data model -/

/-- A slot of the Node Store.  `empty` is a slot as `emplace_back()` creates it, before
`set_inner` or `set_leaf` has been called on it.  An inner node holds its bounds and the
index of its first child (the second child is the next slot); a leaf holds its bounds, the
offset of its first index and the number of its primitives. -/
inductive Node (Bnd : Type) where
  | empty
  | inner (bounds : Bnd) (first_child : Nat)
  | leaf (bounds : Bnd) (first : Nat) (count : Nat)
deriving DecidableEq

/-- The Builder object: its public member `use_spatial_splits` and the rest of its
state. -/
structure BuilderState (S : Type) where
  use_spatial_splits : Bool
  state : S
deriving DecidableEq

/-- The member functions of a Builder (§4.1), each with the Builder object threaded
through.  `split` answers `none` for `false` and the two filled child infos for `true`;
`insert_indices` receives the index sequence and answers the sequence after the call
together with the returned count.  `prim_bounds` is the member of the same name of a
`LeafInfo`. -/
structure Builder (S LI Prim Bnd : Type) where
  init : BuilderState S → List Prim → LI × BuilderState S
  split : BuilderState S → LI → List Prim → Int → Option (LI × LI) × BuilderState S
  insert_indices : BuilderState S → List Nat → LI → (List Nat × Nat) × BuilderState S
  prim_bounds : LI → Bnd

/-- Log of the calls that the driver makes on its collaborators, in the order of the calls
(ghost state, not present in the program). -/
inductive Event where
  | init
  | clear (capacity : Int)
  | emplace_back
  | split (index : Nat) (use_spatial_splits : Bool) (max_leaf_size : Int) (result : Bool)
  | set_inner (index first_child : Nat)
  | insert_indices (index : Nat)
  | set_leaf (index first count : Nat)
  | reorder_n (indices : List Nat)
deriving DecidableEq

/-- What `build_top_down_impl` works on: the Node Store, the index sequence, the Builder
object, and the log. -/
structure BuildState (S Bnd : Type) where
  nodes : List (Node Bnd)
  indices : List Nat
  builder : BuilderState S
  trace : List Event

/-- Why a run of the model yields no tree: the recursion is deeper than the given bound, a
node outside of the Node Store is accessed, or an `assert` fails. -/
inductive BuildError where
  | out_of_fuel
  | out_of_range
  | assertion_failed
deriving DecidableEq

/-- A tree: Node Store, index sequence (index-mode), primitive storage (soup-mode). -/
structure Tree (Bnd Prim : Type) where
  nodes : List (Node Bnd)
  indices : List Nat
  primitives : List Prim

/-- Modelled from the spec: `Tree::clear(capacity)` (the tree classes are not part of the
sources at hand).  §6: the tree exposes `clear(estimatedCapacity)`; the Node Store and the
index sequence are emptied (the root is at position 0 afterwards), the capacity is a hint
only, the primitives stay. -/
def Tree.clear {Bnd Prim : Type} (tree : Tree Bnd Prim) (_capacity : Int) : Tree Bnd Prim :=
  { tree with nodes := [], indices := [] }

namespace algo

/-- Modelled from the spec: `algo::reorder_n(indices, primitives, n)` (`algorithm.h` is not
part of the sources at hand).  §4.3: position `i` holds the element originally at position
`p[i]`, for the first `n` positions. -/
def reorder_n {Prim : Type} (p : List Nat) (primitives : List Prim) (n : Nat) : List Prim :=
  (List.range n).filterMap (fun i => (p[i]?).bind (fun j => primitives[j]?)) ++
    primitives.drop n

end algo

namespace detail

/-- `build_top_down_impl(index, nodes, indices, builder, leaf, data, max_leaf_size)`
(build_top_down.h, lines 26-79).  The first argument bounds the depth of the recursion. -/
def build_top_down_impl {S LI Prim Bnd : Type} (builder : Builder S LI Prim Bnd)
    (data : List Prim) (max_leaf_size : Int) :
    Nat → Nat → BuildState S Bnd → LI → Except BuildError (BuildState S Bnd)
  | 0, _, _, _ => Except.error BuildError.out_of_fuel
  | fuel + 1, index, st, leaf =>
    match builder.split st.builder leaf data max_leaf_size with
    | (some childs, b1) =>
      let first_child_index := st.nodes.length
      if index < st.nodes.length then
        let st1 : BuildState S Bnd :=
          { nodes := st.nodes.set index (Node.inner (builder.prim_bounds leaf) first_child_index)
              ++ [Node.empty] ++ [Node.empty]
            indices := st.indices
            builder := b1
            trace := st.trace ++
              [Event.split index st.builder.use_spatial_splits max_leaf_size true,
               Event.set_inner index first_child_index,
               Event.emplace_back, Event.emplace_back] }
        -- Construct right subtree
        match build_top_down_impl builder data max_leaf_size fuel
            (first_child_index + 1) st1 childs.2 with
        | Except.error e => Except.error e
        | Except.ok st2 =>
          -- Construct left subtree
          build_top_down_impl builder data max_leaf_size fuel
            (first_child_index + 0) st2 childs.1
      else
        Except.error BuildError.out_of_range
    | (none, b1) =>
      let first := st.indices.length
      match builder.insert_indices b1 st.indices leaf with
      | ((indices1, count), b2) =>
        if index < st.nodes.length then
          Except.ok
            { nodes := st.nodes.set index (Node.leaf (builder.prim_bounds leaf) first count)
              indices := indices1
              builder := b2
              trace := st.trace ++
                [Event.split index st.builder.use_spatial_splits max_leaf_size false,
                 Event.insert_indices index,
                 Event.set_leaf index first count] }
        else
          Except.error BuildError.out_of_range

/-- What a build returns: the tree, the Builder object, and the log. -/
structure BuildResult (S Bnd Prim : Type) where
  tree : Tree Bnd Prim
  builder : BuilderState S
  trace : List Event

/-- `build_top_down_work` (build_top_down.h, lines 86-146).  The tag argument
`is_index_bvh` selects the overload: `true` builds into the index sequence of the tree,
`false` collects the indices in a local sequence and reorders the primitives. -/
def build_top_down_work {S LI Prim Bnd : Type} (fuel : Nat) (tree : Tree Bnd Prim)
    (builder : Builder S LI Prim Bnd) (b : BuilderState S) (root : LI) (first : List Prim)
    (max_leaf_size : Int) (trace : List Event) (is_index_bvh : Bool) :
    Except BuildError (BuildResult S Bnd Prim) :=
  if is_index_bvh then
    match build_top_down_impl builder first max_leaf_size fuel 0
        { nodes := tree.nodes, indices := tree.indices, builder := b, trace := trace } root with
    | Except.error e => Except.error e
    | Except.ok st =>
      Except.ok
        { tree := { tree with nodes := st.nodes, indices := st.indices }
          builder := st.builder
          trace := st.trace }
  else
    let indices : List Nat := []
    let uss := b.use_spatial_splits
    let b1 : BuilderState S := { b with use_spatial_splits := false }
    match build_top_down_impl builder first max_leaf_size fuel 0
        { nodes := tree.nodes, indices := indices, builder := b1, trace := trace } root with
    | Except.error e => Except.error e
    | Except.ok st =>
      let b2 : BuilderState S := { st.builder with use_spatial_splits := uss }
      if st.indices.length = tree.primitives.length then
        -- Reorder the primitives according to the indices.
        Except.ok
          { tree := { tree with
              nodes := st.nodes
              primitives := algo.reorder_n st.indices tree.primitives st.indices.length }
            builder := b2
            trace := st.trace ++ [Event.reorder_n st.indices] }
      else
        Except.error BuildError.assertion_failed

/-- `build_top_down(tree, builder, first, last, max_leaf_size)` (build_top_down.h, lines
148-173).  The range `[first, last)` is the list `first`; the default argument of
`max_leaf_size` is `-1`. -/
def build_top_down {S LI Prim Bnd : Type} (fuel : Nat) (is_index_bvh : Bool)
    (tree : Tree Bnd Prim) (builder : Builder S LI Prim Bnd) (b : BuilderState S)
    (first : List Prim) (max_leaf_size : Int) :
    Except BuildError (BuildResult S Bnd Prim) :=
  let max_leaf_size := if max_leaf_size ≤ 0 then 4 else max_leaf_size
  -- Precompute primitive data needed by the builder
  match builder.init b first with
  | (root, b1) =>
    let count : Int := first.length
    let tree1 := tree.clear (2 * (count.tdiv max_leaf_size))
    -- Create root node
    let tree2 : Tree Bnd Prim := { tree1 with nodes := tree1.nodes ++ [Node.empty] }
    build_top_down_work fuel tree2 builder b1 root first max_leaf_size
      [Event.init, Event.clear (2 * (count.tdiv max_leaf_size)), Event.emplace_back]
      is_index_bvh

/-- The normalised leaf size that `build_top_down` works with. -/
def normalized_leaf_size (max_leaf_size : Int) : Int :=
  if max_leaf_size ≤ 0 then 4 else max_leaf_size

end detail

/-! ## Example Builder used by the witnesses -/

/-- Leaf info of the example Builder: a range `[first, last)` of primitive indices; the
bounds of a leaf are the same range. -/
structure RangeInfo where
  first : Nat
  last : Nat
deriving DecidableEq

/-- Example Builder: a leaf is a range of primitive indices, split in half while it holds
more than `max_leaf_size` primitives; `insert_indices` appends the indices of the range. -/
def median_builder : Builder Unit RangeInfo Nat (Nat × Nat) where
  init := fun b prims => (⟨0, prims.length⟩, b)
  split := fun b leaf _ max_leaf_size =>
    if ((leaf.last - leaf.first : Nat) : Int) ≤ max_leaf_size then (none, b)
    else
      let mid := leaf.first + (leaf.last - leaf.first) / 2
      (some (⟨leaf.first, mid⟩, ⟨mid, leaf.last⟩), b)
  insert_indices := fun b indices leaf =>
    ((indices ++ List.range' leaf.first (leaf.last - leaf.first),
      leaf.last - leaf.first), b)
  prim_bounds := fun leaf => (leaf.first, leaf.last)

/-! ## Big-step description of the recursion of `build_top_down_impl` -/

/-- One call of `build_top_down_impl` at node `index`, described without the rest of the
store: `Run builder data m index s b idx leaf X N b' idx' T` says that the call, started
with `s` slots in the Node Store, the Builder object `b` and the index sequence `idx`,
returns after storing `X` in slot `index` and appending the slots `N`, with the Builder
object `b'`, the index sequence `idx'`, and the calls `T` added to the log. -/
inductive Run {S LI Prim Bnd : Type} (builder : Builder S LI Prim Bnd) (data : List Prim)
    (m : Int) :
    Nat → Nat → BuilderState S → List Nat → LI →
    Node Bnd → List (Node Bnd) → BuilderState S → List Nat → List Event → Prop
  | leaf (index s : Nat) (b : BuilderState S) (idx : List Nat) (leaf : LI)
      (b1 : BuilderState S) (idx1 : List Nat) (count : Nat) (b2 : BuilderState S) :
      builder.split b leaf data m = (none, b1) →
      builder.insert_indices b1 idx leaf = ((idx1, count), b2) →
      Run builder data m index s b idx leaf
        (Node.leaf (builder.prim_bounds leaf) idx.length count) [] b2 idx1
        [Event.split index b.use_spatial_splits m false,
         Event.insert_indices index,
         Event.set_leaf index idx.length count]
  | inner (index s : Nat) (b : BuilderState S) (idx : List Nat) (leaf c0 c1 : LI)
      (b1 : BuilderState S)
      (X1 : Node Bnd) (N1 : List (Node Bnd)) (b2 : BuilderState S) (idx2 : List Nat)
      (T1 : List Event)
      (X0 : Node Bnd) (N0 : List (Node Bnd)) (b3 : BuilderState S) (idx3 : List Nat)
      (T0 : List Event) :
      builder.split b leaf data m = (some (c0, c1), b1) →
      Run builder data m (s + 1) (s + 2) b1 idx c1 X1 N1 b2 idx2 T1 →
      Run builder data m s (s + 2 + N1.length) b2 idx2 c0 X0 N0 b3 idx3 T0 →
      Run builder data m index s b idx leaf
        (Node.inner (builder.prim_bounds leaf) s) (X0 :: X1 :: (N1 ++ N0)) b3 idx3
        ([Event.split index b.use_spatial_splits m true,
          Event.set_inner index s, Event.emplace_back, Event.emplace_back] ++ T1 ++ T0)

/-! ## Vocabulary for the shape of the Node Store -/

/-- The node is a leaf. -/
def Node.isLeaf {Bnd : Type} : Node Bnd → Bool
  | Node.leaf _ _ _ => true
  | _ => false

/-- The node is an inner node. -/
def Node.isInner {Bnd : Type} : Node Bnd → Bool
  | Node.inner _ _ => true
  | _ => false

/-- The slot has not been set. -/
def Node.isEmpty {Bnd : Type} : Node Bnd → Bool
  | Node.empty => true
  | _ => false

/-- The bounds stored in a node. -/
def Node.bounds {Bnd : Type} : Node Bnd → Option Bnd
  | Node.empty => none
  | Node.inner b _ => some b
  | Node.leaf b _ _ => some b

/-- The primitive count stored in a leaf; `0` for the other nodes. -/
def Node.count {Bnd : Type} : Node Bnd → Nat
  | Node.leaf _ _ c => c
  | _ => 0

/-- The range `(first, count)` stored in a leaf. -/
def Node.range {Bnd : Type} : Node Bnd → Option (Nat × Nat)
  | Node.leaf _ f c => some (f, c)
  | _ => none

/-- The call is a `set_leaf`. -/
def Event.isSetLeaf : Event → Bool
  | Event.set_leaf _ _ _ => true
  | _ => false

/-- The call is a `set_inner`. -/
def Event.isSetInner : Event → Bool
  | Event.set_inner _ _ => true
  | _ => false

/-- The index of the slot that a `set_inner` or `set_leaf` call writes. -/
def Event.setIndex : Event → Option Nat
  | Event.set_inner i _ => some i
  | Event.set_leaf i _ _ => some i
  | _ => none

/-- The node found at position `j` when `X` sits at position `i` and the slots `N` start at
position `s`. -/
def lookup {Bnd : Type} (i s : Nat) (X : Node Bnd) (N : List (Node Bnd)) (j : Nat) :
    Option (Node Bnd) :=
  if j = i then some X else if s ≤ j then N[j - s]? else none

/-! ## Vocabulary for the entry point `build_top_down` -/

/-- The Builder object with which the recursion starts: the one returned by `init`, in
soup-mode with spatial splits disabled. -/
def start_builder {S LI Prim Bnd : Type} (builder : Builder S LI Prim Bnd)
    (b : BuilderState S) (first : List Prim) (is_index_bvh : Bool) : BuilderState S :=
  if is_index_bvh then (builder.init b first).2
  else { (builder.init b first).2 with use_spatial_splits := false }

/-! ## Vocabulary for leaf ranges and the index sequence -/

/-- The ranges `(first, count)` follow each other without gap or overlap: the first one
starts at `a`, each next one starts where its predecessor ends, and the last one ends at
`z`. -/
def Chained : Nat → List (Nat × Nat) → Nat → Prop
  | a, [], z => a = z
  | a, fc :: rest, z => fc.1 = a ∧ Chained (a + fc.2) rest z

/-- The position `k` of the index sequence lies in the range `(first, count)`. -/
def covers (k : Nat) (fc : Nat × Nat) : Bool := decide (fc.1 ≤ k ∧ k < fc.1 + fc.2)

/-- The leaf ranges of a Node Store tile `[0, n)`: in a suitable order they follow each
other from `0` to `n` without gap or overlap, and hence every position below `n` lies in
exactly one leaf range and no position from `n` on lies in any. -/
def LeafRangesTile {Bnd : Type} (nodes : List (Node Bnd)) (n : Nat) : Prop :=
  (∃ order : List (Nat × Nat),
      order.Perm (nodes.filterMap Node.range) ∧ Chained 0 order n) ∧
    ∀ k, ((nodes.filterMap Node.range).filter (covers k)).length = if k < n then 1 else 0

/-- Contract of a Builder that hands every primitive of a leaf to exactly one child, in the
Builder states that satisfy `Good`: `prims_of` names the primitives of a leaf info, `split`
distributes them over the two children, `insert_indices` appends them and returns their
number, and both keep `Good`. -/
structure Partitions {S LI Prim Bnd : Type} (builder : Builder S LI Prim Bnd)
    (data : List Prim) (m : Int) (Good : BuilderState S → Prop)
    (prims_of : LI → List Nat) : Prop where
  split_some : ∀ b leaf c0 c1 b1, Good b →
    builder.split b leaf data m = (some (c0, c1), b1) →
    (prims_of c0 ++ prims_of c1).Perm (prims_of leaf) ∧ Good b1
  split_none : ∀ b leaf b1, Good b → builder.split b leaf data m = (none, b1) → Good b1
  insert : ∀ b idx leaf idx1 count b1, Good b →
    builder.insert_indices b idx leaf = ((idx1, count), b1) →
    (∃ new, idx1 = idx ++ new ∧ new.Perm (prims_of leaf) ∧ count = new.length) ∧ Good b1

/-! ## `is_closer` for multi-hit records -/

/-- The loop of the single-vs-multi `is_closer` (multi_hit.h, lines 203-211) over the
entries of `reference` that are still to be visited.  `single` is the overload
`is_closer(query, reference[i], tmin, tmax)` for two single hit records, which the loop
calls. -/
def is_closer_loop {W : Nat} {HR T : Type}
    (single : Packet W HR → Packet W HR → Packet W T → Packet W T → Mask W)
    (query : Packet W HR) (tmin tmax : Packet W T) :
    List (Packet W HR) → Mask W → Mask W
  | [], result => result
  | e :: rest, result =>
    let result : Mask W := fun l => result l || single query e tmin tmax l
    if simd.all result then
      result
    else
      is_closer_loop single query tmin tmax rest result

/-- Single-vs-multi `is_closer(query, reference, tmin, tmax)` (multi_hit.h, lines
197-214). -/
def is_closer {W : Nat} {HR T : Type}
    (single : Packet W HR → Packet W HR → Packet W T → Packet W T → Mask W)
    (query : Packet W HR) (reference : List (Packet W HR)) (tmin tmax : Packet W T) :
    Mask W :=
  is_closer_loop single query tmin tmax reference (simd.splat false)

/-- Multi-vs-multi `is_closer(query, reference, tmin, tmax)` (multi_hit.h, lines
225-233). -/
def is_closer_multi {W : Nat} {HR T : Type}
    (_query _reference : List (Packet W HR)) (_tmin _tmax : Packet W T) : Mask W :=
  simd.splat true

/-- Modelled from the spec: `is_closer(query, reference, tmin, tmax)` for two single hit
records (its definition is not part of the sources at hand).  §3 and §4.4: a closer-than
comparison against the bounds `tmin` and `tmax`; the query is closer than a valid entry at
a larger distance, and closer than no invalid entry. -/
def is_closer_single {W : Nat} {T P : Type} [LinearOrder T]
    (query reference : Packet W (HitRecord T P)) (tmin tmax : Packet W T) : Mask W :=
  fun l => (query l).hit && (reference l).hit && decide ((query l).t < (reference l).t) &&
    decide (tmin l ≤ (query l).t) && decide ((query l).t ≤ tmax l)

/-- The number of valid entries of a lane. -/
def validCount {T P : Type} (lane : List (HitRecord T P)) : Nat :=
  (lane.filter (fun e => e.hit)).length

/-! ## Vocabulary for the soup-mode check -/

/-- The state with which `build_top_down` enters `build_top_down_impl`: the cleared Node
Store with the root slot, the empty index sequence, the Builder object returned by `init`
(in soup-mode with spatial splits disabled), and the log of the calls made so far. -/
def start_state {S LI Prim Bnd : Type} (builder : Builder S LI Prim Bnd)
    (b : BuilderState S) (first : List Prim) (max_leaf_size : Int) (is_index_bvh : Bool) :
    BuildState S Bnd :=
  { nodes := [Node.empty]
    indices := []
    builder := start_builder builder b first is_index_bvh
    trace := [Event.init,
      Event.clear (2 * ((first.length : Int).tdiv (detail.normalized_leaf_size max_leaf_size))),
      Event.emplace_back] }

/-- Example Builder that breaks the contract: the leaf info is the number of primitives,
`split` always refuses, and `insert_indices` appends the index `0` once per primitive. -/
def repeat_builder : Builder Unit Nat Nat Unit where
  init := fun b prims => (prims.length, b)
  split := fun b _ _ _ => (none, b)
  insert_indices := fun b indices leaf => ((indices ++ List.replicate leaf 0, leaf), b)
  prim_bounds := fun _ => ()

/-! ## Variants without the early exits -/

/-- The single-vs-multi `is_closer` without the early stop: the OR-reduction over all
entries of `reference`, every entry being evaluated. -/
def is_closer_all {W : Nat} {HR T : Type}
    (single : Packet W HR → Packet W HR → Packet W T → Packet W T → Mask W)
    (query : Packet W HR) (reference : List (Packet W HR)) (tmin tmax : Packet W T) :
    Mask W :=
  reference.foldl (fun result e => fun l => result l || single query e tmin tmax l)
    (simd.splat false)

/-- A comparator that never holds. -/
def never_closer {W : Nat} {HR : Type} (_query _reference : Packet W HR) : Mask W :=
  simd.splat false

/-! ## Vocabulary for one split step -/

/-- The state in which `build_top_down_impl` starts its first recursive call when `split`
has returned `true` with the Builder object `b1` (build_top_down.h, lines 43-50): node
`index` is set to an inner node whose first child is the old size of the Node Store, and
two fresh slots are appended. -/
def split_state {S LI Prim Bnd : Type} (builder : Builder S LI Prim Bnd)
    (max_leaf_size : Int) (index : Nat) (st : BuildState S Bnd) (leaf : LI)
    (b1 : BuilderState S) : BuildState S Bnd :=
  { nodes := st.nodes.set index (Node.inner (builder.prim_bounds leaf) st.nodes.length)
      ++ [Node.empty] ++ [Node.empty]
    indices := st.indices
    builder := b1
    trace := st.trace ++
      [Event.split index st.builder.use_spatial_splits max_leaf_size true,
       Event.set_inner index st.nodes.length,
       Event.emplace_back, Event.emplace_back] }

namespace algo

/-- The search loop of `insert_sorted` without its early exit: the variant that scans all
positions, whether or not a lane is still active. -/
def insert_sorted_search_all {W : Nat} {HR : Type}
    (cond : Packet W HR → Packet W HR → Mask W) (item : Packet W HR)
    (first : List (Packet W HR)) :
    Nat → Nat → Packet W Nat → Mask W → Option (Packet W Nat × Mask W)
  | 0, _, pos, active => some (pos, active)
  | n + 1, i, pos, active =>
    match first[i]? with
    | none => none
    | some e =>
      let insert : Mask W := fun l => cond item e l && active l
      let pos := simd.select insert (simd.splat i) pos
      let active := simd.select insert (simd.splat false) active
      insert_sorted_search_all cond item first n (i + 1) pos active

/-- The shift loop of `insert_sorted` without its early exit: the variant that walks all
the way down to index 0, whether or not a lane shifts or inserts. -/
def insert_sorted_shift_all {W : Nat} {HR : Type} (item : Packet W HR) (pos : Packet W Nat) :
    Nat → List (Packet W HR) → Option (List (Packet W HR))
  | 0, first => some first
  | i + 1, first =>
    let must_shift : Mask W := fun l => decide (i > pos l)
    let must_insert : Mask W := fun l => decide (i = pos l)
    match insert_sorted_update first i must_shift (if i = 0 then none else first[i - 1]?) with
    | none => none
    | some first1 =>
      match insert_sorted_update first1 i must_insert (some item) with
      | none => none
      | some first2 => insert_sorted_shift_all item pos i first2

/-- The variant of `insert_sorted` without the two early exits: the search loop scans all
positions and the shift loop walks from `length - 1` down to 0. -/
def insert_sorted_all {W : Nat} {HR : Type}
    (item : Packet W HR) (first : List (Packet W HR))
    (cond : Packet W HR → Packet W HR → Mask W) : Option (List (Packet W HR)) :=
  let length := first.length
  match insert_sorted_search_all cond item first length 0 (simd.splat length)
      (simd.splat true) with
  | none => none
  | some (pos, _) => insert_sorted_shift_all item pos length first

end algo

/-! ## Vocabulary for the inverse of a reordering -/

/-- The inverse of a permutation `p` of `[0, n)`, as an index sequence: position `i` holds
the position at which `p` holds `i`. -/
def inverse_permutation (p : List Nat) : List Nat :=
  (List.range p.length).map (fun i => p.indexOf i)

/-! ## Vocabulary for the calls to `split` and `insert_indices` -/

/-- The index of the node for which a `split` call is made. -/
def Event.splitIndex : Event → Option Nat
  | Event.split i _ _ _ => some i
  | _ => none

/-- The index of the node for which a `split` call is made that returns `false`. -/
def Event.refusedIndex : Event → Option Nat
  | Event.split i _ _ false => some i
  | _ => none

/-- The index of the node for which an `insert_indices` call is made. -/
def Event.insertIndex : Event → Option Nat
  | Event.insert_indices i => some i
  | _ => none

/-! ## Vocabulary for the bounds of the leaves -/

/-- The bounds of the leaf nodes of a Node Store, in the order of the store. -/
def leaf_bounds {Bnd : Type} (nodes : List (Node Bnd)) : List Bnd :=
  nodes.filterMap (fun n => if n.isLeaf then n.bounds else none)

/-- The Builder `builder` with another bounds member for its leaf infos. -/
def with_bounds {S LI Prim Bnd Bnd1 : Type} (builder : Builder S LI Prim Bnd)
    (prim_bounds : LI → Bnd1) : Builder S LI Prim Bnd1 where
  init := builder.init
  split := builder.split
  insert_indices := builder.insert_indices
  prim_bounds := prim_bounds

/-- Example Builder whose bounds can be united: `median_builder` with the set of the
positions of a range as the bounds of the range. -/
def median_cover_builder : Builder Unit RangeInfo Nat (Finset Nat) :=
  with_bounds median_builder (fun leaf => Finset.Ico leaf.first leaf.last)

/-! ## The order of the two recursive calls -/

namespace detail

/-- The variant of `build_top_down_impl` that recurses into the first child first: the
two recursive calls of build_top_down.h, lines 52-70, in the other order, everything else
as in `build_top_down_impl`. -/
def build_top_down_impl_first_child_first {S LI Prim Bnd : Type}
    (builder : Builder S LI Prim Bnd) (data : List Prim) (max_leaf_size : Int) :
    Nat → Nat → BuildState S Bnd → LI → Except BuildError (BuildState S Bnd)
  | 0, _, _, _ => Except.error BuildError.out_of_fuel
  | fuel + 1, index, st, leaf =>
    match builder.split st.builder leaf data max_leaf_size with
    | (some childs, b1) =>
      let first_child_index := st.nodes.length
      if index < st.nodes.length then
        let st1 : BuildState S Bnd :=
          { nodes := st.nodes.set index (Node.inner (builder.prim_bounds leaf) first_child_index)
              ++ [Node.empty] ++ [Node.empty]
            indices := st.indices
            builder := b1
            trace := st.trace ++
              [Event.split index st.builder.use_spatial_splits max_leaf_size true,
               Event.set_inner index first_child_index,
               Event.emplace_back, Event.emplace_back] }
        -- Construct left subtree
        match build_top_down_impl_first_child_first builder data max_leaf_size fuel
            (first_child_index + 0) st1 childs.1 with
        | Except.error e => Except.error e
        | Except.ok st2 =>
          -- Construct right subtree
          build_top_down_impl_first_child_first builder data max_leaf_size fuel
            (first_child_index + 1) st2 childs.2
      else
        Except.error BuildError.out_of_range
    | (none, b1) =>
      let first := st.indices.length
      match builder.insert_indices b1 st.indices leaf with
      | ((indices1, count), b2) =>
        if index < st.nodes.length then
          Except.ok
            { nodes := st.nodes.set index (Node.leaf (builder.prim_bounds leaf) first count)
              indices := indices1
              builder := b2
              trace := st.trace ++
                [Event.split index st.builder.use_spatial_splits max_leaf_size false,
                 Event.insert_indices index,
                 Event.set_leaf index first count] }
        else
          Except.error BuildError.out_of_range

end detail

/-- The binary tree that a Node Store represents, without the positions of the nodes and
the offsets of the leaves: every node with its bounds, a leaf with the list of its
primitive indices, an inner node with its first and its second child. -/
inductive ATree (Bnd : Type) where
  | leaf (bounds : Bnd) (prims : List Nat)
  | node (bounds : Bnd) (first second : ATree Bnd)

/-- The number of nodes of a tree. -/
def ATree.size {Bnd : Type} : ATree Bnd → Nat
  | ATree.leaf _ _ => 1
  | ATree.node _ t0 t1 => 1 + t0.size + t1.size

/-- The number of levels of a tree. -/
def ATree.depth {Bnd : Type} : ATree Bnd → Nat
  | ATree.leaf _ _ => 1
  | ATree.node _ t0 t1 => 1 + max t0.depth t1.depth

/-- The tree found at position `j` of the Node Store `nodes` by following the child
offsets over at most the given number of levels, the primitive indices of a leaf
`(first, count)` being read from the index sequence `indices`. -/
def abstract_tree {Bnd : Type} (nodes : List (Node Bnd)) (indices : List Nat) :
    Nat → Nat → Option (ATree Bnd)
  | 0, _ => none
  | fuel + 1, j =>
    match nodes[j]? with
    | some (Node.leaf bnd first count) =>
      some (ATree.leaf bnd ((indices.drop first).take count))
    | some (Node.inner bnd c) =>
      match abstract_tree nodes indices fuel c, abstract_tree nodes indices fuel (c + 1) with
      | some t0, some t1 => some (ATree.node bnd t0 t1)
      | _, _ => none
    | _ => none

/-- The tree that a state-free Builder describes for a leaf info: `f` is the answer of
`split` and `g` the list of indices that `insert_indices` appends. -/
inductive TreeOf {LI Bnd : Type} (f : LI → Option (LI × LI)) (g : LI → List Nat)
    (prim_bounds : LI → Bnd) : LI → ATree Bnd → Prop
  | leaf (leaf : LI) : f leaf = none →
      TreeOf f g prim_bounds leaf (ATree.leaf (prim_bounds leaf) (g leaf))
  | node (leaf c0 c1 : LI) (t0 t1 : ATree Bnd) : f leaf = some (c0, c1) →
      TreeOf f g prim_bounds c0 t0 → TreeOf f g prim_bounds c1 t1 →
      TreeOf f g prim_bounds leaf (ATree.node (prim_bounds leaf) t0 t1)

/-- The node that a call started in the state `st` stores for the tree `t`. -/
def root_node {S Bnd : Type} (st : BuildState S Bnd) : ATree Bnd → Node Bnd
  | ATree.leaf bnd prims => Node.leaf bnd st.indices.length prims.length
  | ATree.node bnd _ _ => Node.inner bnd st.nodes.length

/-- A call for node `index` that leads from the state `st` to the state `st1` has built
the tree `t`: it has appended one slot for every node of `t` but the first, left the other
old slots and the old indices alone, stored the root of `t` at `index`, and `t` is read at
`index` from every store and index sequence that agree with `st1` on the slots and the
indices of the call. -/
def Built {S Bnd : Type} (st st1 : BuildState S Bnd) (index : Nat) (t : ATree Bnd) : Prop :=
  index < st.nodes.length ∧
  st1.nodes.length + 1 = st.nodes.length + t.size ∧
  (∀ j : Nat, j < st.nodes.length → j ≠ index → st1.nodes[j]? = st.nodes[j]?) ∧
  (∃ new, st1.indices = st.indices ++ new) ∧
  st1.nodes[index]? = some (root_node st t) ∧
  ∀ (F : List (Node Bnd)) (I : List Nat),
    (∀ j : Nat, j = index ∨ (st.nodes.length ≤ j ∧ j < st1.nodes.length) →
      F[j]? = st1.nodes[j]?) →
    (∃ rest, I = st1.indices ++ rest) →
    ∀ fu, t.depth ≤ fu → abstract_tree F I fu index = some t

/-! ## The meta data of an included data file (vsnray_loader.cpp) -/

namespace data_file

/-- `data_file::meta_data::encoding_t` (vsnray_loader.cpp, lines 46-50). -/
inductive encoding_t where
  | Ascii
  | Binary
deriving DecidableEq

/-- `data_file::meta_data::data_type_t` (vsnray_loader.cpp, lines 53-66). -/
inductive data_type_t where
  | U8
  | Float
  | Vec2u8
  | Vec2f
  | Vec2
  | Vec3u8
  | Vec3f
  | Vec3
  | Vec4u8
  | Vec4f
  | Vec4
deriving DecidableEq

/-- `data_file::meta_data::compression_t` (vsnray_loader.cpp, lines 68-71). -/
inductive compression_t where
  | Raw
deriving DecidableEq

/-- `data_file::meta_data` (vsnray_loader.cpp, lines 44-79), with its default member
initialisers; the `char separator` is a byte, `' '` is 32. -/
structure meta_data where
  path : String := ""
  encoding : encoding_t := encoding_t.Binary
  data_type : data_type_t := data_type_t.U8
  num_items : Int := 0
  compression : compression_t := compression_t.Raw
  separator : UInt8 := 32
deriving DecidableEq

end data_file

/-- A member value of the JSON object handed to `parse_file_meta_data`: a string or an
integer. -/
inductive JsonValue where
  | str (s : String)
  | int (n : Int)
deriving DecidableEq

/-- Why `parse_file_meta_data` yields no meta data: it throws `std::runtime_error`, or a
member is read with the getter of the other type. -/
inductive ParseError where
  | runtime_error
  | wrong_type
deriving DecidableEq

/-- The string that a `const char*` denotes: the characters before the first NUL. -/
def c_string (s : String) : String :=
  String.mk (s.toList.takeWhile (fun c => c ≠ Char.ofNat 0))

/-- `obj[name].GetString()` for a member that is present.  The getter answers a
`const char*`, which the caller assigns to a `std::string`: what arrives there are the
characters before the first NUL. -/
def JsonValue.GetString : JsonValue → Except ParseError String
  | JsonValue.str s => Except.ok (c_string s)
  | JsonValue.int _ => Except.error ParseError.wrong_type

/-- `obj[name].GetInt()` for a member that is present. -/
def JsonValue.GetInt : JsonValue → Except ParseError Int
  | JsonValue.int n => Except.ok n
  | JsonValue.str _ => Except.error ParseError.wrong_type

/-- `vsnray_parser::parse_file_meta_data(obj)` (vsnray_loader.cpp, lines 1339-1457).  The
object is the list of its members; `obj.HasMember(name)` is a successful lookup. -/
def parse_file_meta_data (obj : List (String × JsonValue)) :
    Except ParseError data_file.meta_data := do
  let result : data_file.meta_data := {}
  let result ←
    match obj.lookup "path" with
    | some v => do
      let path ← v.GetString
      pure { result with path := path }
    | none => throw ParseError.runtime_error
  let result ←
    match obj.lookup "encoding" with
    | some v => do
      let encoding ← v.GetString
      if encoding = "ascii" then
        pure { result with encoding := data_file.encoding_t.Ascii }
      else if encoding = "binary" then
        pure { result with encoding := data_file.encoding_t.Binary }
      else
        throw ParseError.runtime_error
    | none => throw ParseError.runtime_error
  let result ←
    match obj.lookup "data_type" with
    | some v => do
      let data_type ← v.GetString
      if data_type = "float" then
        pure { result with data_type := data_file.data_type_t.Float }
      else if data_type = "vec2u8" then
        pure { result with data_type := data_file.data_type_t.Vec2u8 }
      else if data_type = "vec2f" then
        pure { result with data_type := data_file.data_type_t.Vec2u8 }
      else if data_type = "vec2" then
        pure { result with data_type := data_file.data_type_t.Vec2 }
      else if data_type = "vec3u8" then
        pure { result with data_type := data_file.data_type_t.Vec3u8 }
      else if data_type = "vec3f" then
        pure { result with data_type := data_file.data_type_t.Vec3u8 }
      else if data_type = "vec3" then
        pure { result with data_type := data_file.data_type_t.Vec3 }
      else if data_type = "vec4u8" then
        pure { result with data_type := data_file.data_type_t.Vec4u8 }
      else if data_type = "vec4f" then
        pure { result with data_type := data_file.data_type_t.Vec4u8 }
      else if data_type = "vec4" then
        pure { result with data_type := data_file.data_type_t.Vec4 }
      else
        throw ParseError.runtime_error
    | none => throw ParseError.runtime_error
  let result ←
    match obj.lookup "num_items" with
    | some v => do
      let num_items ← v.GetInt
      pure { result with num_items := num_items }
    | none => throw ParseError.runtime_error
  let result ←
    match obj.lookup "compression" with
    | some v => do
      let compression ← v.GetString
      if compression = "none" ∨ compression = "raw" then
        pure { result with compression := data_file.compression_t.Raw }
      else
        throw ParseError.runtime_error
    | none => pure result
  let result ←
    match obj.lookup "separator" with
    | some v => do
      let separator ← v.GetString
      -- `separator[0]`: the first byte, the terminating NUL for the empty string
      pure { result with separator := (separator.toUTF8.data[0]?).getD 0 }
    | none => pure result
  return result

/-- The members of a meta data object with the given `data_type` string; the other members
are a path, the binary encoding and one item. -/
def meta_data_object (data_type : String) : List (String × JsonValue) :=
  [("path", JsonValue.str "mesh.bin"), ("encoding", JsonValue.str "binary"),
   ("data_type", JsonValue.str data_type), ("num_items", JsonValue.int 1)]

/-! ## Lane-wise transcendental functions (math/simd/trans.h) -/

namespace simd

/-- The constructor `float4(a, b, c, d)` from four lanes. -/
def float4 {F : Type} (a b c d : F) : Packet 4 F :=
  fun i => if i = 0 then a else if i = 1 then b else if i = 2 then c else d

/-- The constructor of `float8` from eight lanes. -/
def float8 {F : Type} (a0 a1 a2 a3 a4 a5 a6 a7 : F) : Packet 8 F :=
  fun i =>
    if i = 0 then a0 else if i = 1 then a1 else if i = 2 then a2 else if i = 3 then a3
    else if i = 4 then a4 else if i = 5 then a5 else if i = 6 then a6 else a7

/-- `simd::atan(float4 const& x)` (trans.h, lines 430-442).  The functions `atanf` and
`asinf` of the C library are parameters; `store(tmp, x)` copies the lanes. -/
def atan_float4 {F : Type} (atanf asinf : F → F) (x : Packet 4 F) : Packet 4 F :=
  let tmp : Fin 4 → F := x
  float4 (atanf (tmp 0)) (atanf (tmp 1)) (atanf (tmp 2)) (asinf (tmp 3))

/-- `simd::atan(float8 const& x)` (trans.h, lines 536-552). -/
def atan_float8 {F : Type} (atanf : F → F) (x : Packet 8 F) : Packet 8 F :=
  let tmp : Fin 8 → F := x
  float8 (atanf (tmp 0)) (atanf (tmp 1)) (atanf (tmp 2)) (atanf (tmp 3))
    (atanf (tmp 4)) (atanf (tmp 5)) (atanf (tmp 6)) (atanf (tmp 7))

end simd

/-! ## The accesses of `insert_sorted` to the entries of the range -/

/-- An access of `insert_sorted` to an entry of the range `[first, last)`: `first[i]` is
read, `first[i]` is written, or the predecessor `first[i - 1]` is read in the iteration `i`
of the shift loop. -/
inductive Access where
  | read (i : Nat)
  | write (i : Nat)
  | read_predecessor (i : Nat)
deriving DecidableEq

/-- The index of the entry that is accessed. -/
def Access.index : Access → Int
  | Access.read i => i
  | Access.write i => i
  | Access.read_predecessor i => (i : Int) - 1

namespace algo

/-- The search loop of `insert_sorted` (multi_hit.h, lines 77-89) together with the log of
its accesses and the number of its iterations. -/
def insert_sorted_search_traced {W : Nat} {HR : Type}
    (cond : Packet W HR → Packet W HR → Mask W) (item : Packet W HR)
    (first : List (Packet W HR)) :
    Nat → Nat → Packet W Nat → Mask W → Option (Packet W Nat × Mask W) × List Access × Nat
  | 0, _, pos, active => (some (pos, active), [], 0)
  | n + 1, i, pos, active =>
    match first[i]? with
    | none => (none, [Access.read i], 1)
    | some e =>
      let insert : Mask W := fun l => cond item e l && active l
      let pos := simd.select insert (simd.splat i) pos
      let active := simd.select insert (simd.splat false) active
      if !simd.any active then
        (some (pos, active), [Access.read i], 1)
      else
        let rest := insert_sorted_search_traced cond item first n (i + 1) pos active
        (rest.1, Access.read i :: rest.2.1, rest.2.2 + 1)

/-- The lambda `update` of `insert_sorted` (multi_hit.h, lines 98-119) applied at index `i`,
together with the log of its accesses; `predecessor` tells whether the source record is the
entry `first[i - 1]` or the candidate (which is no entry of the range). -/
def insert_sorted_update_traced {W : Nat} {HR : Type}
    (first : List (Packet W HR)) (i : Nat) (condition : Mask W)
    (src : Option (Packet W HR)) (predecessor : Bool) :
    Option (List (Packet W HR)) × List Access :=
  let src_log : List Access := if predecessor then [Access.read_predecessor i] else []
  if simd.all condition then
    match src with
    | none => (none, src_log)
    | some item =>
      if i < first.length then (some (first.set i item), src_log ++ [Access.write i])
      else (none, src_log ++ [Access.write i])
  else if simd.any condition then
    match first[i]? with
    | none => (none, [Access.read i])
    | some dst =>
      match src with
      | none => (none, Access.read i :: src_log)
      | some item =>
        (some (first.set i (fun j => if condition j then item j else dst j)),
          Access.read i :: (src_log ++ [Access.write i]))
  else
    (some first, [])

/-- The shift loop of `insert_sorted` (multi_hit.h, lines 93-130) together with the log of
its accesses and the number of its iterations.  The first argument is `i + 1`. -/
def insert_sorted_shift_traced {W : Nat} {HR : Type} (item : Packet W HR)
    (pos : Packet W Nat) :
    Nat → List (Packet W HR) → Option (List (Packet W HR)) × List Access × Nat
  | 0, first => (some first, [], 0)
  | i + 1, first =>
    let must_shift : Mask W := fun l => decide (i > pos l)
    let must_insert : Mask W := fun l => decide (i = pos l)
    let u1 := insert_sorted_update_traced first i must_shift
      (if i = 0 then none else first[i - 1]?) true
    match u1.1 with
    | none => (none, u1.2, 1)
    | some first1 =>
      let u2 := insert_sorted_update_traced first1 i must_insert (some item) false
      match u2.1 with
      | none => (none, u1.2 ++ u2.2, 1)
      | some first2 =>
        if !simd.any must_shift && !simd.any must_insert then
          (some first2, u1.2 ++ u2.2, 1)
        else
          let rest := insert_sorted_shift_traced item pos i first2
          (rest.1, u1.2 ++ u2.2 ++ rest.2.1, rest.2.2 + 1)

/-- What a traced call of `insert_sorted` yields: the range after the call (`none` when an
entry outside of the range is accessed), the log of the accesses to entries of the range,
and the numbers of iterations of the two loops. -/
structure InsertTrace (W : Nat) (HR : Type) where
  result : Option (List (Packet W HR))
  accesses : List Access
  search_iterations : Nat
  shift_iterations : Nat

/-- SIMD version of `algo::insert_sorted(item, first, last, cond)` (multi_hit.h, lines
64-131) together with the log of its accesses and the numbers of iterations of its two
loops. -/
def insert_sorted_traced {W : Nat} {HR : Type}
    (item : Packet W HR) (first : List (Packet W HR))
    (cond : Packet W HR → Packet W HR → Mask W) : InsertTrace W HR :=
  let length := first.length
  let s := insert_sorted_search_traced cond item first length 0 (simd.splat length)
    (simd.splat true)
  match s.1 with
  | none => ⟨none, s.2.1, s.2.2, 0⟩
  | some (pos, active) =>
    let start := if simd.any (fun l => !active l) then length else 1
    let t := insert_sorted_shift_traced item pos start first
    ⟨t.1, s.2.1 ++ t.2.1, s.2.2, t.2.2⟩

end algo

/-! ## Vocabulary for ties -/

/-- The number of valid entries of a lane that are not farther than `x`, ties included. -/
def count_not_farther {T P : Type} [LinearOrder T] (x : HitRecord T P)
    (lane : List (HitRecord T P)) : Nat :=
  (lane.filter (fun e => e.hit && decide (e.t ≤ x.t))).length

/-! ## Vocabulary for merging -/

/-- The distances of the valid entries of a lane, in the order of the lane. -/
def validEntryDists {T P : Type} (lane : List (HitRecord T P)) : List T :=
  (lane.filter (fun e => e.hit)).map (fun e => e.t)

/-! ## Vocabulary for subtrees -/

/-- Node `k` lies in the subtree of node `j` of the Node Store: it is `j` itself or lies in
the subtree of the first child `c` or of the second child `c + 1` of the inner node `j`. -/
inductive InSubtree {Bnd : Type} (nodes : List (Node Bnd)) : Nat → Nat → Prop
  | root (j : Nat) : InSubtree nodes j j
  | first (j c k : Nat) (bnd : Bnd) : nodes[j]? = some (Node.inner bnd c) →
      InSubtree nodes c k → InSubtree nodes j k
  | second (j c k : Nat) (bnd : Bnd) : nodes[j]? = some (Node.inner bnd c) →
      InSubtree nodes (c + 1) k → InSubtree nodes j k

theorem simd_any_eq_true {W : Nat} (m : Mask W) : simd.any m = true ↔ ∃ l, m l = true := by
  simp [simd.any, List.any_eq_true, List.mem_finRange]

theorem simd_any_eq_false {W : Nat} (m : Mask W) : simd.any m = false ↔ ∀ l, m l = false := by
  rw [← Bool.not_eq_true, simd_any_eq_true]
  simp

theorem simd_all_eq_true {W : Nat} (m : Mask W) : simd.all m = true ↔ ∀ l, m l = true := by
  simp [simd.all, List.all_eq_true, List.mem_finRange]

theorem laneOf_getElem? {W : Nat} {HR : Type} (l : Fin W) (first : List (Packet W HR))
    (j : Nat) : (laneOf l first)[j]? = (first[j]?).map (fun e => e l) := by
  simp [laneOf]

theorem laneOf_length {W : Nat} {HR : Type} (l : Fin W) (first : List (Packet W HR)) :
    (laneOf l first).length = first.length := by
  simp [laneOf]

/-! ## Lemmas on the search loop -/

theorem FirstAt_unique {HR : Type} {c : HR → HR → Bool} {x : HR} {lane : List HR} {p q : Nat}
    (hp : FirstAt c x lane p) (hq : FirstAt c x lane q) : p = q := by
  obtain ⟨⟨e, he, hce⟩, hnp⟩ := hp
  obtain ⟨⟨e', he', hce'⟩, hnq⟩ := hq
  rcases Nat.lt_trichotomy p q with h | h | h
  · have := hnq p e h he
    simp [hce] at this
  · exact h
  · have := hnp q e' h he'
    simp [hce'] at this

theorem FirstAt_lt_length {HR : Type} {c : HR → HR → Bool} {x : HR} {lane : List HR} {p : Nat}
    (hp : FirstAt c x lane p) : p < lane.length := by
  obtain ⟨⟨e, he, _⟩, _⟩ := hp
  by_contra hcon
  rw [List.getElem?_eq_none (by omega)] at he
  cases he

theorem cond_lane_getElem? {W : Nat} {HR : Type} (cond : Packet W HR → Packet W HR → Mask W)
    (item : Packet W HR) (first : List (Packet W HR)) (l : Fin W) (j : Nat) :
    (cond_lane cond item first l)[j]? = (first[j]?).map (fun e => cond item e l) := by
  simp [cond_lane]

theorem cond_lane_length {W : Nat} {HR : Type} (cond : Packet W HR → Packet W HR → Mask W)
    (item : Packet W HR) (first : List (Packet W HR)) (l : Fin W) :
    (cond_lane cond item first l).length = first.length := by
  simp [cond_lane]

theorem insert_sorted_search_spec {W : Nat} {HR : Type}
    (cond : Packet W HR → Packet W HR → Mask W)
    (item : Packet W HR) (first : List (Packet W HR)) :
    ∀ (n i : Nat) (pos : Packet W Nat) (active : Mask W), n + i = first.length →
      (∀ l, (active l = true → pos l = first.length ∧
                NoneBefore outcome true (cond_lane cond item first l) i) ∧
            (active l = false → FirstAt outcome true (cond_lane cond item first l) (pos l))) →
      ∃ pos1 active1,
        algo.insert_sorted_search cond item first n i pos active = some (pos1, active1) ∧
        ∀ l, LaneResolved outcome true (cond_lane cond item first l) (pos1 l) (active1 l) := by
  intro n
  induction n with
  | zero =>
    intro i pos active hi hinv
    refine ⟨pos, active, rfl, fun l => ⟨fun ha => ?_, fun ha => (hinv l).2 ha⟩⟩
    have h := (hinv l).1 ha
    rw [cond_lane_length]
    have hi2 : i = first.length := by omega
    exact ⟨h.1, hi2 ▸ h.2⟩
  | succ n ih =>
    intro i pos active hi hinv
    have hilt : i < first.length := by omega
    have hget : first[i]? = some first[i] := List.getElem?_eq_getElem hilt
    simp only [algo.insert_sorted_search, hget]
    -- the state after the two selects
    have hnew : ∀ l,
        (simd.select (fun l => cond item first[i] l && active l)
            (simd.splat false) active l = true →
          simd.select (fun l => cond item first[i] l && active l) (simd.splat i) pos l
              = first.length ∧
            NoneBefore outcome true (cond_lane cond item first l) (i + 1)) ∧
        (simd.select (fun l => cond item first[i] l && active l)
            (simd.splat false) active l = false →
          FirstAt outcome true (cond_lane cond item first l)
            (simd.select (fun l => cond item first[i] l && active l) (simd.splat i) pos l)) := by
      intro l
      simp only [simd.select, simd.splat]
      by_cases hins : (cond item first[i] l && active l) = true
      · simp only [hins, if_true]
        refine ⟨fun h => Bool.noConfusion h, fun _ => ?_⟩
        simp only [Bool.and_eq_true] at hins
        refine ⟨⟨cond item first[i] l, by simp [cond_lane_getElem?, hget], hins.1⟩,
          ((hinv l).1 hins.2).2⟩
      · simp only [hins, if_false, Bool.false_eq_true]
        refine ⟨fun ha => ?_, fun ha => (hinv l).2 ha⟩
        have h := (hinv l).1 ha
        refine ⟨h.1, ?_⟩
        intro j e hj hje
        rcases Nat.lt_succ_iff_lt_or_eq.mp hj with hlt | heq
        · exact h.2 j e hlt hje
        · subst heq
          simp [cond_lane_getElem?, hget] at hje
          subst hje
          simpa [ha, outcome] using hins
    by_cases hany : simd.any (simd.select (fun l => cond item first[i] l && active l)
        (simd.splat false) active) = true
    · simp only [hany, Bool.not_true, Bool.false_eq_true, if_false]
      exact ih (i + 1) _ _ (by omega) hnew
    · simp only [hany, Bool.not_false, if_true]
      refine ⟨_, _, rfl, fun l => ⟨fun ha => ?_, fun ha => (hnew l).2 ha⟩⟩
      exfalso
      exact hany ((simd_any_eq_true _).2 ⟨l, ha⟩)

/-! ## Lemmas on the shift loop -/

theorem set_getElem?_same {α : Type} (xs : List α) (i : Nat) (d : α) (hd : xs[i]? = some d) :
    xs.set i d = xs := by
  apply List.ext_getElem?
  intro j
  rw [List.getElem?_set]
  by_cases hij : i = j
  · subst hij
    have : i < xs.length := by
      by_contra hcon
      rw [List.getElem?_eq_none (by omega)] at hd
      cases hd
    simp [this, hd]
  · simp [hij]

theorem lt_length_of_getElem? {α : Type} {xs : List α} {i : Nat} {d : α}
    (hd : xs[i]? = some d) : i < xs.length := by
  by_contra hcon
  rw [List.getElem?_eq_none (by omega)] at hd
  cases hd

theorem insert_sorted_update_spec {W : Nat} {HR : Type} (hW : 0 < W)
    (cur : List (Packet W HR)) (i : Nat) (condition : Mask W) (src : Option (Packet W HR))
    (d s : Packet W HR) (hd : cur[i]? = some d)
    (hsrc : src = some s ∨ ∀ l, condition l = false) :
    algo.insert_sorted_update cur i condition src =
      some (cur.set i (fun l => if condition l then s l else d l)) := by
  have hi : i < cur.length := lt_length_of_getElem? hd
  unfold algo.insert_sorted_update
  by_cases hall : simd.all condition = true
  · have hall2 := (simd_all_eq_true condition).1 hall
    rcases hsrc with hs | hnone
    · have hfun : (fun l => if condition l = true then s l else d l) = s := by
        funext l
        simp [hall2 l]
      simp [hall, hs, hi, hfun]
    · have h1 := hall2 ⟨0, hW⟩
      have h2 := hnone ⟨0, hW⟩
      rw [h1] at h2
      cases h2
  · simp only [hall, Bool.false_eq_true, if_false]
    by_cases hany : simd.any condition = true
    · rcases hsrc with hs | hnone
      · simp [hany, hs, hd]
      · obtain ⟨l, hl⟩ := (simd_any_eq_true condition).1 hany
        rw [hnone l] at hl
        cases hl
    · have hnone : ∀ l, condition l = false := by
        intro l
        by_contra hcon
        exact hany ((simd_any_eq_true condition).2 ⟨l, by simpa using hcon⟩)
      have hfun : (fun l => if condition l = true then s l else d l) = d := by
        funext l
        simp [hnone l]
      simp only [hany, Bool.false_eq_true, if_false, hfun]
      rw [set_getElem?_same cur i d hd]

theorem shifted_eq_of_lt {W : Nat} {HR : Type} (item : Packet W HR) (pos : Packet W Nat)
    (first : List (Packet W HR)) (j : Nat) (h : ∀ l, j < pos l) :
    shifted item pos first j = first[j]? := by
  unfold shifted
  cases hj : first[j]? with
  | none => rfl
  | some e =>
    have hlt : j < first.length := lt_length_of_getElem? hj
    have hprev : ∃ prev, (item :: first)[j]? = some prev := by
      have : j < (item :: first).length := by simp; omega
      exact ⟨_, List.getElem?_eq_getElem this⟩
    obtain ⟨prev, hprev⟩ := hprev
    simp only [hprev]
    congr 1
    funext l
    simp [h l]

theorem insert_sorted_shift_spec {W : Nat} {HR : Type} (hW : 0 < W)
    (item : Packet W HR) (pos : Packet W Nat) (first : List (Packet W HR)) :
    ∀ (n : Nat) (cur : List (Packet W HR)), n ≤ first.length →
      cur.length = first.length →
      (∀ j, j < n → cur[j]? = first[j]?) →
      (∀ j, n ≤ j → cur[j]? = shifted item pos first j) →
      ∃ r, algo.insert_sorted_shift item pos n cur = some r ∧
        r.length = first.length ∧ ∀ j, r[j]? = shifted item pos first j := by
  intro n
  induction n with
  | zero =>
    intro cur _ hlen _ hhi
    exact ⟨cur, rfl, hlen, fun j => hhi j (Nat.zero_le j)⟩
  | succ i ih =>
    intro cur hn hlen hlo hhi
    have hilt : i < first.length := by omega
    have hcur : cur[i]? = some first[i] := by
      rw [hlo i (by omega)]
      exact List.getElem?_eq_getElem hilt
    -- the predecessor entry, read only when some lane shifts
    have hprev : ∃ prev, (item :: first)[i]? = some prev ∧
        ((if i = 0 then none else cur[i - 1]?) = some prev ∨
          ∀ l : Fin W, decide (i > pos l) = false) := by
      by_cases hi0 : i = 0
      · subst hi0
        exact ⟨item, List.getElem?_cons_zero, Or.inr (fun l => by simp)⟩
      · have h1 : i - 1 < first.length := by omega
        refine ⟨first[i - 1], ?_, Or.inl ?_⟩
        · rw [List.getElem?_cons, if_neg hi0]
          exact List.getElem?_eq_getElem h1
        · rw [if_neg hi0, hlo (i - 1) (by omega)]
          exact List.getElem?_eq_getElem h1
    obtain ⟨prev, hprev, hsrc⟩ := hprev
    have hstep1 := insert_sorted_update_spec hW cur i (fun l => decide (i > pos l))
      (if i = 0 then none else cur[i - 1]?) first[i] prev hcur hsrc
    have hcur1 : (cur.set i (fun l => if (fun l => decide (i > pos l)) l = true
        then prev l else first[i] l))[i]? =
        some (fun l => if (fun l => decide (i > pos l)) l = true then prev l else first[i] l) :=
      List.getElem?_set_self (by omega)
    have hstep2 := insert_sorted_update_spec hW _ i (fun l => decide (i = pos l))
      (some item) _ item hcur1 (Or.inl rfl)
    simp only [algo.insert_sorted_shift, hstep1, hstep2]
    -- the entry stored at index `i`
    have hnew : some (fun l => if (fun l => decide (i = pos l)) l = true then item l
        else (fun l => if (fun l => decide (i > pos l)) l = true then prev l
          else first[i] l) l) = shifted item pos first i := by
      unfold shifted
      simp only [List.getElem?_eq_getElem hilt, hprev]
      congr 1
      funext l
      simp only [decide_eq_true_eq]
      by_cases h1 : i < pos l
      · have h2 : ¬ i = pos l := by omega
        have h3 : ¬ i > pos l := by omega
        simp [h1, h2, h3]
      · by_cases h2 : i = pos l
        · simp [h2]
        · have h3 : i > pos l := by omega
          simp [h1, h2, h3]
    have hlen2 : ((cur.set i (fun l => if (fun l => decide (i > pos l)) l = true
        then prev l else first[i] l)).set i
          (fun l => if (fun l => decide (i = pos l)) l = true then item l
            else (fun l => if (fun l => decide (i > pos l)) l = true then prev l
              else first[i] l) l)).length = first.length := by
      simp [hlen]
    have hget2 : ∀ j, ((cur.set i (fun l => if (fun l => decide (i > pos l)) l = true
        then prev l else first[i] l)).set i
          (fun l => if (fun l => decide (i = pos l)) l = true then item l
            else (fun l => if (fun l => decide (i > pos l)) l = true then prev l
              else first[i] l) l))[j]? =
        if j = i then shifted item pos first i else cur[j]? := by
      intro j
      by_cases hji : j = i
      · subst hji
        rw [if_pos rfl, List.getElem?_set_self (by simp; omega)]
        exact hnew
      · have hne : i ≠ j := fun h => hji h.symm
        rw [if_neg hji, List.getElem?_set_ne hne, List.getElem?_set_ne hne]
    by_cases hbrk : (!simd.any (fun l => decide (i > pos l)) &&
        !simd.any (fun l => decide (i = pos l))) = true
    · simp only [hbrk, if_true]
      refine ⟨_, rfl, hlen2, ?_⟩
      intro j
      rw [hget2 j]
      by_cases hji : j = i
      · simp [hji]
      · rw [if_neg hji]
        by_cases hlt : j < i
        · rw [hlo j (by omega)]
          symm
          apply shifted_eq_of_lt
          intro l
          simp only [Bool.and_eq_true, Bool.not_eq_true', simd_any_eq_false,
            decide_eq_false_iff_not] at hbrk
          have h1 := hbrk.1 l
          have h2 := hbrk.2 l
          omega
        · exact hhi j (by omega)
    · simp only [hbrk, Bool.false_eq_true, if_false]
      apply ih _ (by omega) hlen2
      · intro j hj
        rw [hget2 j, if_neg (by omega)]
        exact hlo j (by omega)
      · intro j hj
        rw [hget2 j]
        by_cases hji : j = i
        · simp [hji]
        · rw [if_neg hji]
          exact hhi j (by omega)

/-! ## Lemmas on `insert_sorted`, lane by lane -/

theorem insert_at_length {α : Type} (p : Nat) (x : α) (es : List α) :
    (insert_at p x es).length = es.length := by
  simp [insert_at]
  omega

theorem insert_at_getElem? {α : Type} (p : Nat) (x : α) (es : List α) (j : Nat) :
    (insert_at p x es)[j]? =
      if j < es.length then
        (if j < p then es[j]? else if j = p then some x else es[j - 1]?)
      else none := by
  unfold insert_at
  rw [List.getElem?_take]
  by_cases hj : j < es.length
  · rw [if_pos hj, if_pos hj]
    by_cases hjp : j < p
    · rw [if_pos hjp, List.getElem?_append_left (by simp; omega),
        List.getElem?_take_of_lt hjp]
    · rw [if_neg hjp, List.getElem?_append_right (by simp; omega)]
      have hmin : (List.take p es).length = p := by simp; omega
      rw [hmin]
      by_cases hjp2 : j = p
      · subst hjp2
        simp
      · rw [if_neg hjp2]
        obtain ⟨k, hk⟩ : ∃ k, j - p = k + 1 := ⟨j - p - 1, by omega⟩
        rw [hk, List.getElem?_cons_succ, List.getElem?_drop]
        congr 1
        omega
  · rw [if_neg hj, if_neg hj]

theorem insert_at_length_self {α : Type} (x : α) (es : List α) :
    insert_at es.length x es = es := by
  simp [insert_at]

theorem scalar_insert_of_none {HR : Type} (c : HR → HR → Bool) (x : HR) :
    ∀ es : List HR, NoneBefore c x es es.length → scalar_insert c x es = es := by
  intro es
  induction es with
  | nil => intro _; rfl
  | cons e rest ih =>
    intro h
    have he : c x e = false := h 0 e (by simp) (by simp)
    have hrest : NoneBefore c x rest rest.length := by
      intro j e' hj hje
      exact h (j + 1) e' (by simp; omega) (by simpa using hje)
    simp [scalar_insert, he, ih hrest]

theorem scalar_insert_of_first {HR : Type} (c : HR → HR → Bool) (x : HR) :
    ∀ (es : List HR) (p : Nat), FirstAt c x es p → scalar_insert c x es = insert_at p x es := by
  intro es
  induction es with
  | nil =>
    intro p hp
    have := FirstAt_lt_length hp
    simp at this
  | cons e rest ih =>
    intro p hp
    obtain ⟨⟨e', he', hce'⟩, hnone⟩ := hp
    by_cases he : c x e = true
    · have hp0 : p = 0 := by
        by_contra hcon
        have := hnone 0 e (by omega) (by simp)
        rw [he] at this
        cases this
      subst hp0
      simp [scalar_insert, he, insert_at, List.dropLast_eq_take]
    · have hef : c x e = false := by simpa using he
      obtain ⟨q, hq⟩ : ∃ q, p = q + 1 := by
        rcases p with _ | q
        · simp at he'
          subst he'
          rw [hce'] at hef
          cases hef
        · exact ⟨q, rfl⟩
      subst hq
      have hrest : FirstAt c x rest q := by
        refine ⟨⟨e', by simpa using he', hce'⟩, ?_⟩
        intro j e2 hj hje
        exact hnone (j + 1) e2 (by omega) (by simpa using hje)
      simp [scalar_insert, hef, ih q hrest, insert_at]

theorem shifted_eq_none {W : Nat} {HR : Type} (item : Packet W HR) (pos : Packet W Nat)
    (first : List (Packet W HR)) (j : Nat) (h : first.length ≤ j) :
    shifted item pos first j = none := by
  unfold shifted
  rw [List.getElem?_eq_none h]

theorem laneOf_shifted {W : Nat} {HR : Type} (item : Packet W HR) (pos : Packet W Nat)
    (first r : List (Packet W HR)) (hr : ∀ j, r[j]? = shifted item pos first j) (l : Fin W) :
    laneOf l r = insert_at (pos l) (item l) (laneOf l first) := by
  apply List.ext_getElem?
  intro j
  rw [laneOf_getElem?, hr j, insert_at_getElem?, laneOf_length]
  by_cases hj : j < first.length
  · rw [if_pos hj]
    have hj2 : j < (item :: first).length := by simp; omega
    obtain ⟨prev, hprev⟩ : ∃ prev, (item :: first)[j]? = some prev :=
      ⟨_, List.getElem?_eq_getElem hj2⟩
    unfold shifted
    simp only [List.getElem?_eq_getElem hj, hprev, Option.map_some']
    by_cases h1 : j < pos l
    · simp [h1, laneOf_getElem?, List.getElem?_eq_getElem hj]
    · by_cases h2 : j = pos l
      · simp [h2]
      · have hj0 : j ≠ 0 := by omega
        have hj1 : j - 1 < first.length := by omega
        have hp2 : prev = first[j - 1] := by
          have := hprev
          rw [List.getElem?_cons, if_neg hj0, List.getElem?_eq_getElem hj1] at this
          exact (Option.some.inj this).symm
        simp [h1, h2, laneOf_getElem?, List.getElem?_eq_getElem hj1, hp2]
  · rw [if_neg hj, shifted_eq_none item pos first j (by omega)]
    rfl

theorem insert_sorted_spec {W : Nat} {HR : Type} (hW : 0 < W)
    (cond : Packet W HR → Packet W HR → Mask W)
    (item : Packet W HR) (first : List (Packet W HR)) (hK : 0 < first.length) :
    ∃ (r : List (Packet W HR)) (pos : Packet W Nat),
      algo.insert_sorted item first cond = some r ∧ r.length = first.length ∧
      (∀ l, PosOf outcome true (cond_lane cond item first l) (pos l)) ∧
      ∀ l, laneOf l r = insert_at (pos l) (item l) (laneOf l first) := by
  obtain ⟨pos, active, hsearch, hres⟩ :=
    insert_sorted_search_spec cond item first first.length 0
      (simd.splat first.length) (simd.splat true) (by omega)
      (fun l => ⟨fun _ => ⟨rfl, fun j e hj _ => absurd hj (Nat.not_lt_zero j)⟩,
        fun h => Bool.noConfusion h⟩)
  have hpos : ∀ l, PosOf outcome true (cond_lane cond item first l) (pos l) := by
    intro l
    cases ha : active l with
    | true => exact Or.inr ((hres l).1 ha)
    | false => exact Or.inl ((hres l).2 ha)
  have hshift : ∃ r, algo.insert_sorted_shift item pos
      (if simd.any (fun l => !active l) then first.length else 1) first = some r ∧
      r.length = first.length ∧ ∀ j, r[j]? = shifted item pos first j := by
    apply insert_sorted_shift_spec hW item pos first _ first
    · split <;> omega
    · rfl
    · intro j _; rfl
    · intro j hj
      by_cases hjlen : first.length ≤ j
      · rw [shifted_eq_none item pos first j hjlen, List.getElem?_eq_none hjlen]
      · by_cases hany : simd.any (fun l => !active l) = true
        · rw [if_pos hany] at hj
          omega
        · symm
          apply shifted_eq_of_lt
          intro l
          have hact : active l = true := by
            by_contra hcon
            exact hany ((simd_any_eq_true _).2 ⟨l, by simpa using hcon⟩)
          have := ((hres l).1 hact).1
          rw [cond_lane_length] at this
          omega
  obtain ⟨r, hr, hlen, hget⟩ := hshift
  refine ⟨r, pos, ?_, hlen, hpos, fun l => laneOf_shifted item pos first r hget l⟩
  simp only [algo.insert_sorted, hsearch]
  exact hr

theorem NoneBefore_of_cond_lane {W : Nat} {HR : Type}
    (cond : Packet W HR → Packet W HR → Mask W) (c : HR → HR → Bool)
    (hc : ∀ a b l, cond a b l = c (a l) (b l))
    (item : Packet W HR) (first : List (Packet W HR)) (l : Fin W) (p : Nat)
    (h : NoneBefore outcome true (cond_lane cond item first l) p) :
    NoneBefore c (item l) (laneOf l first) p := by
  intro j e hj hje
  rw [laneOf_getElem?] at hje
  cases hfj : first[j]? with
  | none => rw [hfj] at hje; cases hje
  | some E =>
    rw [hfj] at hje
    simp only [Option.map_some', Option.some.injEq] at hje
    have := h j (cond item E l) hj (by rw [cond_lane_getElem?, hfj]; rfl)
    rw [← hje, ← hc]
    exact this

theorem FirstAt_of_cond_lane {W : Nat} {HR : Type}
    (cond : Packet W HR → Packet W HR → Mask W) (c : HR → HR → Bool)
    (hc : ∀ a b l, cond a b l = c (a l) (b l))
    (item : Packet W HR) (first : List (Packet W HR)) (l : Fin W) (p : Nat)
    (h : FirstAt outcome true (cond_lane cond item first l) p) :
    FirstAt c (item l) (laneOf l first) p := by
  obtain ⟨⟨b, hb, hcb⟩, hnone⟩ := h
  refine ⟨?_, NoneBefore_of_cond_lane cond c hc item first l p hnone⟩
  rw [cond_lane_getElem?] at hb
  cases hfp : first[p]? with
  | none => rw [hfp] at hb; cases hb
  | some E =>
    rw [hfp] at hb
    simp only [Option.map_some', Option.some.injEq] at hb
    refine ⟨E l, by rw [laneOf_getElem?, hfp]; rfl, ?_⟩
    rw [← hc, hb]
    exact hcb

/-- Lane `l` of `insert_sorted` in terms of the scalar insertion. -/
theorem insert_sorted_lane {W : Nat} {HR : Type} (hW : 0 < W)
    (cond : Packet W HR → Packet W HR → Mask W) (c : HR → HR → Bool)
    (hc : ∀ a b l, cond a b l = c (a l) (b l))
    (item : Packet W HR) (first : List (Packet W HR)) (hK : 0 < first.length) :
    ∃ r, algo.insert_sorted item first cond = some r ∧ r.length = first.length ∧
      ∀ l, laneOf l r = scalar_insert c (item l) (laneOf l first) := by
  obtain ⟨r, pos, hr, hlen, hpos, hlane⟩ := insert_sorted_spec hW cond item first hK
  refine ⟨r, hr, hlen, fun l => ?_⟩
  rw [hlane l]
  rcases hpos l with h | ⟨h1, h2⟩
  · exact (scalar_insert_of_first c (item l) _ _
      (FirstAt_of_cond_lane cond c hc item first l _ h)).symm
  · have h3 := NoneBefore_of_cond_lane cond c hc item first l _ h2
    rw [cond_lane_length] at h1 h3
    rw [h1, ← laneOf_length l first, insert_at_length_self]
    rw [← laneOf_length l first] at h3
    exact (scalar_insert_of_none c (item l) _ h3).symm

/-! ## Lemmas on the invariant of a lane -/

theorem is_closer_t_lane {W : Nat} {T P : Type} [LinearOrder T]
    (a b : Packet W (HitRecord T P)) (l : Fin W) : is_closer_t a b l = closer (a l) (b l) :=
  rfl

theorem SortedPrefix_of_LaneInv {T P : Type} [LinearOrder T] :
    ∀ lane : List (HitRecord T P), LaneInv lane → SortedPrefix lane := by
  intro lane
  induction lane with
  | nil =>
    intro _
    exact ⟨0, Nat.le_refl _, fun j e h => by simp at h, fun i j ei ej _ hj => by omega⟩
  | cons e rest ih =>
    intro h
    rw [LaneInv, List.pairwise_cons] at h
    obtain ⟨v, hv, hhit, hsort⟩ := ih h.2
    by_cases he : e.hit = true
    · refine ⟨v + 1, by simp; omega, ?_, ?_⟩
      · intro j e' hj
        rcases j with _ | j
        · simp at hj
          subst hj
          simp [he]
        · simp at hj
          rw [hhit j e' hj]
          omega
      · intro i j ei ej hij hjv hi hj
        rcases j with _ | j
        · have : i = 0 := by omega
          subst this
          simp at hi hj
          subst hi hj
          exact le_refl _
        · simp at hj
          have hejhit : ej.hit = true := (hhit j ej hj).2 (by omega)
          rcases i with _ | i
          · simp at hi
            subst hi
            exact (h.1 ej (List.getElem?_mem hj) hejhit).2
          · simp at hi
            exact hsort i j ei ej (by omega) (by omega) hi hj
    · refine ⟨0, Nat.zero_le _, ?_, fun i j ei ej _ hj => by omega⟩
      intro j e' hj
      constructor
      · intro he'
        exfalso
        rcases j with _ | j
        · simp at hj
          subst hj
          exact he he'
        · simp at hj
          exact he (h.1 e' (List.getElem?_mem hj) he').1
      · intro hlt
        omega

theorem LaneInv_of_SortedPrefix {T P : Type} [LinearOrder T]
    (lane : List (HitRecord T P)) (h : SortedPrefix lane) : LaneInv lane := by
  obtain ⟨v, _, hhit, hsort⟩ := h
  rw [LaneInv, List.pairwise_iff_getElem]
  intro i j hi hj hij hb
  have hgi : lane[i]? = some lane[i] := List.getElem?_eq_getElem hi
  have hgj : lane[j]? = some lane[j] := List.getElem?_eq_getElem hj
  have hjv : j < v := (hhit j _ hgj).1 hb
  exact ⟨(hhit i _ hgi).2 (by omega), hsort i j _ _ (by omega) hjv hgi hgj⟩

theorem mem_scalar_insert {HR : Type} (c : HR → HR → Bool) (x : HR) :
    ∀ (es : List HR) (b : HR), b ∈ scalar_insert c x es → b = x ∨ b ∈ es := by
  intro es
  induction es with
  | nil => intro b hb; simp [scalar_insert] at hb
  | cons e rest ih =>
    intro b hb
    by_cases hc : c x e = true
    · simp only [scalar_insert, hc, if_true, List.mem_cons] at hb
      rcases hb with hb | hb
      · exact Or.inl hb
      · exact Or.inr (List.mem_of_mem_dropLast hb)
    · simp only [scalar_insert, hc, if_false, List.mem_cons, Bool.false_eq_true] at hb
      rcases hb with hb | hb
      · exact Or.inr (by simp [hb])
      · rcases ih b hb with h | h
        · exact Or.inl h
        · exact Or.inr (List.mem_cons_of_mem _ h)

theorem scalar_insert_length {HR : Type} (c : HR → HR → Bool) (x : HR) :
    ∀ es : List HR, (scalar_insert c x es).length = es.length := by
  intro es
  induction es with
  | nil => rfl
  | cons e rest ih =>
    by_cases hc : c x e = true
    · simp [scalar_insert, hc]
    · simp [scalar_insert, hc, ih]

theorem scalar_insert_invalid {T P : Type} [LinearOrder T] (x : HitRecord T P)
    (hx : x.hit = false) : ∀ es : List (HitRecord T P), scalar_insert closer x es = es := by
  intro es
  induction es with
  | nil => rfl
  | cons e rest ih => simp [scalar_insert, closer, hx, ih]

theorem LaneInv_scalar_insert {T P : Type} [LinearOrder T] (x : HitRecord T P) :
    ∀ es : List (HitRecord T P), LaneInv es → LaneInv (scalar_insert closer x es) := by
  intro es
  induction es with
  | nil => intro h; exact h
  | cons e rest ih =>
    intro h
    have h0 := h
    rw [LaneInv, List.pairwise_cons] at h
    by_cases hc : closer x e = true
    · simp only [scalar_insert, hc, if_true]
      rw [LaneInv, List.pairwise_cons]
      refine ⟨?_, List.Pairwise.sublist (List.dropLast_sublist _) h0⟩
      intro b hb hbhit
      have hb2 : b ∈ e :: rest := List.mem_of_mem_dropLast hb
      simp only [closer, Bool.and_eq_true, Bool.or_eq_true, Bool.not_eq_true',
        decide_eq_true_eq] at hc
      refine ⟨hc.1, ?_⟩
      rcases List.mem_cons.1 hb2 with hbe | hbr
      · subst hbe
        rcases hc.2 with h1 | h1
        · rw [h1] at hbhit
          cases hbhit
        · exact le_of_lt h1
      · have hb3 := h.1 b hbr hbhit
        rcases hc.2 with h1 | h1
        · rw [h1] at hb3
          cases hb3.1
        · exact le_trans (le_of_lt h1) hb3.2
    · simp only [scalar_insert, hc, if_false, Bool.false_eq_true]
      rw [LaneInv, List.pairwise_cons]
      refine ⟨?_, ih h.2⟩
      intro b hb hbhit
      rcases mem_scalar_insert closer x rest b hb with hbx | hbr
      · subst hbx
        simp only [closer, hbhit, Bool.true_and, Bool.or_eq_true, Bool.not_eq_true',
          decide_eq_true_eq, not_or, Bool.not_eq_false, not_lt] at hc
        exact hc
      · exact h.1 b hbr hbhit

/-! ## Lemmas on sequences of `update_if` calls -/

theorem LaneInv_of_all_invalid {T P : Type} [LinearOrder T] (lane : List (HitRecord T P))
    (h : ∀ e ∈ lane, e.hit = false) : LaneInv lane := by
  rw [LaneInv, List.pairwise_iff_getElem]
  intro i j _ hj _ hb
  rw [h _ (List.getElem_mem hj)] at hb
  cases hb

theorem update_if_inv {W : Nat} {T P : Type} [LinearOrder T] (hW : 0 < W)
    (dst : List (Packet W (HitRecord T P))) (src : Packet W (HitRecord T P))
    (cond : Packet W (HitRecord T P) → Packet W (HitRecord T P) → Mask W)
    (hK : 0 < dst.length) (hinv : ∀ l, LaneInv (laneOf l dst)) :
    ∃ r, update_if dst src cond = some r ∧ r.length = dst.length ∧
      ∀ l, LaneInv (laneOf l r) := by
  obtain ⟨r, hr, hlen, hlane⟩ :=
    insert_sorted_lane hW is_closer_t closer is_closer_t_lane src dst hK
  refine ⟨r, hr, hlen, fun l => ?_⟩
  rw [hlane l]
  exact LaneInv_scalar_insert (src l) _ (hinv l)

theorem update_if_multi_loop_inv {W : Nat} {T P : Type} [LinearOrder T] (hW : 0 < W) :
    ∀ (src dst : List (Packet W (HitRecord T P))), 0 < dst.length →
      (∀ l, LaneInv (laneOf l dst)) →
      ∃ r, update_if_multi_loop dst src = some r ∧ r.length = dst.length ∧
        ∀ l, LaneInv (laneOf l r) := by
  intro src
  induction src with
  | nil =>
    intro dst _ hinv
    exact ⟨dst, rfl, rfl, hinv⟩
  | cons hr rest ih =>
    intro dst hK hinv
    by_cases hany : simd.any (fun l => (hr l).hit) = true
    · obtain ⟨r1, hr1, hlen1, hinv1⟩ := update_if_inv hW dst hr is_closer_t hK hinv
      obtain ⟨r, hr2, hlen2, hinv2⟩ := ih r1 (by omega) hinv1
      refine ⟨r, ?_, by omega, hinv2⟩
      simp only [update_if] at hr1
      simp only [update_if_multi_loop, hany, Bool.not_true, Bool.false_eq_true, if_false, hr1]
      exact hr2
    · refine ⟨dst, ?_, rfl, hinv⟩
      simp [update_if_multi_loop, hany]

theorem update_if_multi_inv {W : Nat} {T P : Type} [LinearOrder T] (hW : 0 < W)
    (dst src : List (Packet W (HitRecord T P)))
    (cond : Packet W (HitRecord T P) → Packet W (HitRecord T P) → Mask W)
    (hK : 0 < dst.length) (hinv : ∀ l, LaneInv (laneOf l dst))
    (hlen : src.length = dst.length) (hsrc : ∀ l, LaneInv (laneOf l src)) :
    ∃ r, update_if_multi dst src cond = some r ∧ r.length = dst.length ∧
      ∀ l, LaneInv (laneOf l r) := by
  have h0 : dst[0]? = some dst[0] := List.getElem?_eq_getElem hK
  by_cases hany : simd.any (fun l => (dst[0] l).hit) = true
  · obtain ⟨r, hr, hlen2, hinv2⟩ := update_if_multi_loop_inv hW src dst hK hinv
    refine ⟨r, ?_, hlen2, hinv2⟩
    simp only [update_if_multi, h0, hany, Bool.not_true, Bool.false_eq_true, if_false]
    exact hr
  · refine ⟨src, ?_, hlen, hsrc⟩
    simp [update_if_multi, h0, hany]

theorem apply_updates_inv {W : Nat} {T P : Type} [LinearOrder T] (hW : 0 < W) :
    ∀ (calls : List (Update W T P)) (dst : List (Packet W (HitRecord T P))),
      0 < dst.length → (∀ l, LaneInv (laneOf l dst)) →
      (∀ src cond, Update.multi src cond ∈ calls →
        src.length = dst.length ∧ ∀ l, LaneInv (laneOf l src)) →
      ∃ r, apply_updates dst calls = some r ∧ r.length = dst.length ∧
        ∀ l, LaneInv (laneOf l r) := by
  intro calls
  induction calls with
  | nil =>
    intro dst _ hinv _
    exact ⟨dst, rfl, rfl, hinv⟩
  | cons u us ih =>
    intro dst hK hinv hmulti
    have hstep : ∃ r1, apply_update dst u = some r1 ∧ r1.length = dst.length ∧
        ∀ l, LaneInv (laneOf l r1) := by
      cases u with
      | single src cond => exact update_if_inv hW dst src cond hK hinv
      | multi src cond =>
        have := hmulti src cond (List.mem_cons_self _ _)
        exact update_if_multi_inv hW dst src cond hK hinv this.1 this.2
    obtain ⟨r1, hr1, hlen1, hinv1⟩ := hstep
    obtain ⟨r, hr, hlen, hinv2⟩ := ih r1 (by omega) hinv1
      (fun src cond hmem => by
        rw [hlen1]
        exact hmulti src cond (List.mem_cons_of_mem _ hmem))
    refine ⟨r, ?_, by omega, hinv2⟩
    simp only [apply_updates, hr1]
    exact hr

/-! ## Lemmas on the `K` closest hits -/

theorem validDists_take {T P : Type} (lane : List (HitRecord T P)) (n : Nat) :
    validDists (lane.take n) = (validDists lane).take n := by
  unfold validDists
  rw [← List.map_take, List.take_takeWhile]

theorem validDists_dropLast {T P : Type} (lane : List (HitRecord T P)) :
    validDists lane.dropLast = (validDists lane).take (lane.length - 1) := by
  rw [List.dropLast_eq_take, validDists_take]

theorem validDists_scalar_insert {T P : Type} [LinearOrder T] (x : HitRecord T P)
    (hx : x.hit = true) :
    ∀ lane : List (HitRecord T P),
      validDists (scalar_insert closer x lane) =
        (insert_dist x.t (validDists lane)).take lane.length := by
  intro lane
  induction lane with
  | nil => simp [scalar_insert, validDists]
  | cons e rest ih =>
    by_cases hc : closer x e = true
    · simp only [scalar_insert, hc, if_true]
      have hd := validDists_dropLast (e :: rest)
      simp only [List.length_cons, Nat.add_sub_cancel] at hd
      have hcons : validDists (x :: (e :: rest).dropLast) =
          x.t :: validDists (e :: rest).dropLast := by
        simp [validDists, hx]
      rw [hcons, hd]
      by_cases he : e.hit = true
      · have hlt : x.t < e.t := by
          simpa [closer, hx, he] using hc
        have hv : validDists (e :: rest) = e.t :: validDists rest := by
          simp [validDists, he]
        rw [hv]
        simp [insert_dist, hlt]
      · have hv : validDists (e :: rest) = [] := by
          simp [validDists, he]
        rw [hv]
        simp [insert_dist]
    · have he : e.hit = true ∧ ¬ x.t < e.t := by
        simpa [closer, hx] using hc
      have hv : validDists (e :: rest) = e.t :: validDists rest := by
        simp [validDists, he.1]
      have hv2 : validDists (e :: scalar_insert closer x rest) =
          e.t :: validDists (scalar_insert closer x rest) := by
        simp [validDists, he.1]
      simp only [scalar_insert, hc, if_false, Bool.false_eq_true]
      rw [hv2, hv, ih]
      simp [insert_dist, he.2]

theorem insert_dist_take {T : Type} [LinearOrder T] (d : T) :
    ∀ (K : Nat) (s : List T),
      (insert_dist d (s.take K)).take K = (insert_dist d s).take K := by
  intro K
  induction K with
  | zero => intro s; simp
  | succ k ih =>
    intro s
    cases s with
    | nil => simp
    | cons e r =>
      by_cases hlt : d < e
      · simp only [List.take_succ_cons, insert_dist, hlt, if_true]
        congr 1
        cases k with
        | zero => simp
        | succ k2 =>
          simp only [List.take_succ_cons]
          congr 1
          rw [List.take_take]
          simp
      · simp only [List.take_succ_cons, insert_dist, hlt, if_false]
        congr 1
        exact ih r

theorem foldl_insert_dist_take {T : Type} [LinearOrder T] (K : Nat) :
    ∀ (ds s : List T),
      (ds.foldl (fun acc d => insert_dist d acc) (s.take K)).take K =
        (ds.foldl (fun acc d => insert_dist d acc) s).take K := by
  intro ds
  induction ds with
  | nil => intro s; simp [List.take_take]
  | cons d rest ih =>
    intro s
    simp only [List.foldl_cons]
    rw [← ih (insert_dist d (s.take K)), insert_dist_take, ih]

theorem insert_dist_perm {T : Type} [LinearOrder T] (d : T) :
    ∀ s : List T, (insert_dist d s).Perm (d :: s) := by
  intro s
  induction s with
  | nil => exact List.Perm.refl _
  | cons e r ih =>
    by_cases hlt : d < e
    · simp [insert_dist, hlt]
    · simp only [insert_dist, hlt, if_false]
      exact (List.Perm.cons e ih).trans (List.Perm.swap d e r)

theorem insert_dist_sorted {T : Type} [LinearOrder T] (d : T) :
    ∀ s : List T, s.Sorted (· ≤ ·) → (insert_dist d s).Sorted (· ≤ ·) := by
  intro s
  induction s with
  | nil => intro _; simp [insert_dist]
  | cons e r ih =>
    intro hs
    have hs2 := List.sorted_cons.1 hs
    by_cases hlt : d < e
    · simp only [insert_dist, hlt, if_true]
      refine List.sorted_cons.2 ⟨?_, hs⟩
      intro b hb
      rcases List.mem_cons.1 hb with hbe | hbr
      · rw [hbe]; exact le_of_lt hlt
      · exact le_trans (le_of_lt hlt) (hs2.1 b hbr)
    · simp only [insert_dist, hlt, if_false]
      refine List.sorted_cons.2 ⟨?_, ih hs2.2⟩
      intro b hb
      rcases List.mem_cons.1 ((insert_dist_perm d r).subset hb) with hbd | hbr
      · rw [hbd]; exact not_lt.1 hlt
      · exact hs2.1 b hbr

theorem foldl_insert_dist_sorted_perm {T : Type} [LinearOrder T] :
    ∀ (ds s : List T), s.Sorted (· ≤ ·) →
      (ds.foldl (fun acc d => insert_dist d acc) s).Sorted (· ≤ ·) ∧
      (ds.foldl (fun acc d => insert_dist d acc) s).Perm (s ++ ds) := by
  intro ds
  induction ds with
  | nil => intro s hs; simpa using hs
  | cons d rest ih =>
    intro s hs
    obtain ⟨h1, h2⟩ := ih (insert_dist d s) (insert_dist_sorted d s hs)
    refine ⟨h1, h2.trans ?_⟩
    have h3 : (insert_dist d s ++ rest).Perm ((d :: s) ++ rest) :=
      List.Perm.append_right rest (insert_dist_perm d s)
    refine h3.trans ?_
    simp only [List.cons_append]
    exact List.perm_middle.symm

theorem foldl_insert_dist_eq_sort {T : Type} [LinearOrder T] (ds : List T) :
    ds.foldl (fun acc d => insert_dist d acc) [] = ds.insertionSort (· ≤ ·) := by
  obtain ⟨h1, h2⟩ := foldl_insert_dist_sorted_perm ds [] List.sorted_nil
  apply List.eq_of_perm_of_sorted _ h1 (List.sorted_insertionSort (· ≤ ·) ds)
  simp only [List.nil_append] at h2
  exact h2.trans (List.perm_insertionSort (· ≤ ·) ds).symm

theorem filter_eq_takeWhile_of_LaneInv {T P : Type} [LinearOrder T] :
    ∀ lane : List (HitRecord T P), LaneInv lane →
      lane.filter (fun e => e.hit) = lane.takeWhile (fun e => e.hit) := by
  intro lane
  induction lane with
  | nil => intro _; rfl
  | cons e rest ih =>
    intro h
    rw [LaneInv, List.pairwise_cons] at h
    by_cases he : e.hit = true
    · simp [he, ih h.2]
    · have hall : ∀ b ∈ rest, b.hit = false := by
        intro b hb
        by_contra hcon
        exact he (h.1 b hb (by simpa using hcon)).1
      have hf : rest.filter (fun e => e.hit) = [] := by
        rw [List.filter_eq_nil_iff]
        intro b hb
        simp [hall b hb]
      simp [he, hf]

/-- Lane `l` after a sequence of single-record `update_if` calls with candidates that are
valid in that lane: the distances of the leading valid entries. -/
theorem apply_updates_single_validDists {W : Nat} {T P : Type} [LinearOrder T] (hW : 0 < W)
    (l : Fin W) :
    ∀ (hits : List (Packet W (HitRecord T P))) (dst : List (Packet W (HitRecord T P)))
      (conds : Packet W (HitRecord T P) → Packet W (HitRecord T P) → Mask W),
      0 < dst.length → (∀ h ∈ hits, (h l).hit = true) →
      ∃ r, apply_updates dst (hits.map (fun h => Update.single h conds)) = some r ∧
        r.length = dst.length ∧
        validDists (laneOf l r) =
          ((hits.map (fun h => (h l).t)).foldl (fun acc d => insert_dist d acc)
            (validDists (laneOf l dst))).take dst.length := by
  intro hits
  induction hits with
  | nil =>
    intro dst _ _ _
    refine ⟨dst, rfl, rfl, ?_⟩
    simp only [List.map_nil, List.foldl_nil]
    rw [List.take_of_length_le]
    simp only [validDists, List.length_map]
    exact le_trans (List.takeWhile_sublist _).length_le (by simp [laneOf])
  | cons h hs ih =>
    intro dst conds hK hvalid
    obtain ⟨r1, hr1, hlen1, hlane1⟩ :=
      insert_sorted_lane hW is_closer_t closer is_closer_t_lane h dst hK
    obtain ⟨r, hr, hlen, hv⟩ := ih r1 conds (by omega)
      (fun h' hh' => hvalid h' (List.mem_cons_of_mem _ hh'))
    refine ⟨r, ?_, by omega, ?_⟩
    · simp only [List.map_cons, apply_updates, apply_update, update_if, hr1]
      exact hr
    · rw [hv, hlane1 l, validDists_scalar_insert (h l) (hvalid h (List.mem_cons_self _ _)),
        laneOf_length, hlen1, foldl_insert_dist_take]
      simp only [List.map_cons, List.foldl_cons]

/-! ## Theorems on the multi-hit accumulator -/

theorem LaneInv_hit_iff {T P : Type} [LinearOrder T] :
    ∀ lane : List (HitRecord T P), LaneInv lane →
      ∀ j e, lane[j]? = some e → (e.hit = true ↔ j < (validDists lane).length) := by
  intro lane
  induction lane with
  | nil => intro _ j e h; simp at h
  | cons a rest ih =>
    intro h j e hj
    rw [LaneInv, List.pairwise_cons] at h
    by_cases ha : a.hit = true
    · have hv : validDists (a :: rest) = a.t :: validDists rest := by simp [validDists, ha]
      rw [hv]
      rcases j with _ | j
      · simp at hj
        subst hj
        simp [ha]
      · simp at hj
        rw [ih h.2 j e hj]
        simp
    · have hv : validDists (a :: rest) = [] := by simp [validDists, ha]
      rw [hv]
      simp only [List.length_nil, Nat.not_lt_zero, iff_false]
      rcases j with _ | j
      · simp at hj
        subst hj
        exact ha
      · simp at hj
        intro he
        exact ha (h.1 e (List.getElem?_mem hj) he).1

/-- C1: starting from an accumulator of `K` all-invalid entries, after any finite sequence
of `update_if` calls (single hit records, or multi-hit records that themselves satisfy the
invariant, inserted with the closer-than comparator) the accumulator still has `K` entries
and in every lane the valid entries are exactly the first `v` slots for some `v ≤ K` and
their distances ascend. -/
theorem multi_hit_invariant {W : Nat} {T P : Type} [LinearOrder T] (hW : 0 < W)
    (K : Nat) (hK : 0 < K)
    (init : List (Packet W (HitRecord T P))) (hlen : init.length = K)
    (hinit : ∀ e ∈ init, ∀ l, (e l).hit = false)
    (calls : List (Update W T P))
    (hmulti : ∀ src cond, Update.multi src cond ∈ calls →
      src.length = K ∧ ∀ l, SortedPrefix (laneOf l src)) :
    ∃ r, apply_updates init calls = some r ∧ r.length = K ∧
      ∀ l, SortedPrefix (laneOf l r) := by
  have hinv0 : ∀ l, LaneInv (laneOf l init) := by
    intro l
    apply LaneInv_of_all_invalid
    intro e he
    simp only [laneOf, List.mem_map] at he
    obtain ⟨E, hE, rfl⟩ := he
    exact hinit E hE l
  obtain ⟨r, hr, hlen2, hinv⟩ := apply_updates_inv hW calls init (by omega) hinv0
    (fun src cond hmem => by
      have := hmulti src cond hmem
      exact ⟨by omega, fun l => LaneInv_of_SortedPrefix _ (this.2 l)⟩)
  exact ⟨r, hr, by omega, fun l => SortedPrefix_of_LaneInv _ (hinv l)⟩

/-- Witness for C1: two lanes, capacity 3, five single-record calls and one multi-record
call. -/
theorem multi_hit_invariant_witness :
    ∃ r, apply_updates (List.replicate 3 (hit2 none none))
        [Update.single (hit2 (some 5) (some 1)) is_closer_t,
         Update.single (hit2 (some 2) none) is_closer_t,
         Update.multi [hit2 (some 1) (some 4), hit2 (some 3) none, hit2 none none]
           is_closer_t,
         Update.single (hit2 (some 8) (some 2)) is_closer_t] = some r ∧
      r.length = 3 ∧ ∀ l, SortedPrefix (laneOf l r) :=
  multi_hit_invariant (by decide) 3 (by decide) (List.replicate 3 (hit2 none none)) rfl
    (by
      intro e he l
      rw [List.eq_of_mem_replicate he]
      revert l
      decide)
    _
    (by
      intro src cond hmem
      simp only [List.mem_cons, List.mem_singleton, Update.multi.injEq, List.not_mem_nil,
        or_false, false_or] at hmem
      rcases hmem with h | h | ⟨hsrc, _⟩ | h
      · cases h
      · cases h
      · subst hsrc
        refine ⟨rfl, fun l => SortedPrefix_of_LaneInv _ ?_⟩
        revert l
        unfold LaneInv
        decide
      · cases h)

/-- C3: for every capacity `K ≥ 1` and every sequence of hits that are valid in lane `l`,
inserted one at a time with the single-record `update_if` into an all-invalid accumulator
of `K` entries, the distances of the valid entries of lane `l` are the first `K` elements
of the ascending sort of all inserted distances, and the valid entries are exactly the
first `min K n` slots. -/
theorem multi_hit_k_closest {W : Nat} {T P : Type} [LinearOrder T] (hW : 0 < W)
    (K : Nat) (hK : 1 ≤ K)
    (init : List (Packet W (HitRecord T P))) (hlen : init.length = K)
    (hinit : ∀ e ∈ init, ∀ l, (e l).hit = false)
    (hits : List (Packet W (HitRecord T P)))
    (cond : Packet W (HitRecord T P) → Packet W (HitRecord T P) → Mask W)
    (l : Fin W) (hvalid : ∀ h ∈ hits, (h l).hit = true) :
    ∃ r, apply_updates init (hits.map (fun h => Update.single h cond)) = some r ∧
      r.length = K ∧
      ((laneOf l r).filter (fun e => e.hit)).map (fun e => e.t) =
        ((hits.map (fun h => (h l).t)).insertionSort (· ≤ ·)).take K ∧
      ∀ j e, (laneOf l r)[j]? = some e → (e.hit = true ↔ j < min K hits.length) := by
  obtain ⟨r, hr, hlen2, hv⟩ :=
    apply_updates_single_validDists hW l hits init cond (by omega) hvalid
  have hinv0 : ∀ l, LaneInv (laneOf l init) := by
    intro l
    apply LaneInv_of_all_invalid
    intro e he
    simp only [laneOf, List.mem_map] at he
    obtain ⟨E, hE, rfl⟩ := he
    exact hinit E hE l
  obtain ⟨r', hr', _, hinv⟩ := apply_updates_inv hW
    (hits.map (fun h => Update.single h cond)) init (by omega) hinv0
    (fun src c hmem => by
      simp only [List.mem_map] at hmem
      obtain ⟨_, _, hcon⟩ := hmem
      cases hcon)
  rw [hr] at hr'
  cases hr'
  have hv0 : validDists (laneOf l init) = [] := by
    cases hinit' : init with
    | nil => simp [validDists, laneOf]
    | cons a rest =>
      have : (a l).hit = false := hinit a (by rw [hinit']; exact List.mem_cons_self _ _) l
      simp [validDists, laneOf, this]
  rw [hv0, foldl_insert_dist_eq_sort, hlen] at hv
  refine ⟨r, hr, by omega, ?_, ?_⟩
  · rw [filter_eq_takeWhile_of_LaneInv _ (hinv l)]
    exact hv
  · intro j e hj
    rw [LaneInv_hit_iff _ (hinv l) j e hj, hv]
    simp [List.length_insertionSort]

/-- Witness for C3: capacity 3 and the distances 5, 2, 8, 1, 3 in that order leave the
distances 1, 2, 3. -/
theorem multi_hit_k_closest_witness :
    ∃ r, apply_updates (List.replicate 3 miss1)
        ([5, 2, 8, 1, 3].map (fun d => Update.single (hit1 d) is_closer_t)) = some r ∧
      r.length = 3 ∧
      ((laneOf 0 r).filter (fun e => e.hit)).map (fun e => e.t) = [1, 2, 3] ∧
      ∀ j e, (laneOf 0 r)[j]? = some e → (e.hit = true ↔ j < 3) :=
  multi_hit_k_closest (by decide) 3 (by decide) (List.replicate 3 miss1) rfl
    (by
      intro e he l
      rw [List.eq_of_mem_replicate he]
      rfl)
    ([5, 2, 8, 1, 3].map hit1) is_closer_t 0
    (by
      intro h hh
      simp only [List.map_cons, List.map_nil, List.mem_cons, List.mem_singleton,
        List.not_mem_nil, or_false] at hh
      rcases hh with rfl | rfl | rfl | rfl | rfl <;> rfl)

/-- C6: single-record insertion in lane `l`: if `p` is the first index at which the
comparator holds for the candidate and the existing entry, then after `insert_sorted` the
entries below `p` are unchanged, entry `p` is the candidate, and every entry `j` with
`p < j < K` is the old entry `j - 1` (so the old last entry is dropped); the length stays
`K`. -/
theorem insert_sorted_at_first_position {W : Nat} {HR : Type} (hW : 0 < W)
    (cond : Packet W HR → Packet W HR → Mask W)
    (item : Packet W HR) (first : List (Packet W HR)) (l : Fin W)
    (p : Nat) (e : Packet W HR) (hp : first[p]? = some e) (hcp : cond item e l = true)
    (hbefore : ∀ j e1, j < p → first[j]? = some e1 → cond item e1 l = false) :
    ∃ r, algo.insert_sorted item first cond = some r ∧ r.length = first.length ∧
      (∀ j, j < p → (laneOf l r)[j]? = (laneOf l first)[j]?) ∧
      (laneOf l r)[p]? = some (item l) ∧
      (∀ j, p < j → j < first.length → (laneOf l r)[j]? = (laneOf l first)[j - 1]?) := by
  have hplt : p < first.length := lt_length_of_getElem? hp
  obtain ⟨r, pos, hr, hlen, hpos, hlane⟩ :=
    insert_sorted_spec hW cond item first (by omega)
  have hfirst : FirstAt outcome true (cond_lane cond item first l) p := by
    refine ⟨⟨cond item e l, by rw [cond_lane_getElem?, hp]; rfl, hcp⟩, ?_⟩
    intro j b hj hjb
    rw [cond_lane_getElem?] at hjb
    cases hfj : first[j]? with
    | none => rw [hfj] at hjb; cases hjb
    | some E =>
      rw [hfj] at hjb
      simp only [Option.map_some', Option.some.injEq] at hjb
      rw [← hjb]
      exact hbefore j E hj hfj
  have hpl : pos l = p := by
    rcases hpos l with h | ⟨_, h2⟩
    · exact FirstAt_unique h hfirst
    · have := h2 p (cond item e l) (by rw [cond_lane_length]; exact hplt)
        (by rw [cond_lane_getElem?, hp]; rfl)
      simp only [outcome] at this
      rw [hcp] at this
      cases this
  refine ⟨r, hr, hlen, ?_, ?_, ?_⟩
  · intro j hj
    rw [hlane l, hpl, insert_at_getElem?, laneOf_length, if_pos (by omega), if_pos hj]
  · rw [hlane l, hpl, insert_at_getElem?, laneOf_length, if_pos hplt,
      if_neg (Nat.lt_irrefl p), if_pos rfl]
  · intro j hpj hjK
    rw [hlane l, hpl, insert_at_getElem?, laneOf_length, if_pos hjK,
      if_neg (by omega), if_neg (by omega)]

/-- Witness for C6: two lanes, capacity 3; in lane 0 the candidate at distance 2 goes to
position 1. -/
theorem insert_sorted_at_first_position_witness :
    ∃ r, algo.insert_sorted (hit2 (some 2) (some 9))
        [hit2 (some 1) (some 3), hit2 (some 4) (some 5), hit2 (some 6) none]
        is_closer_t = some r ∧
      r.length = 3 ∧
      (∀ j, j < 1 → (laneOf 0 r)[j]? =
        (laneOf 0 [hit2 (some 1) (some 3), hit2 (some 4) (some 5), hit2 (some 6) none])[j]?) ∧
      (laneOf 0 r)[1]? = some (hit2 (some 2) (some 9) 0) ∧
      (∀ j, 1 < j → j < 3 → (laneOf 0 r)[j]? =
        (laneOf 0 [hit2 (some 1) (some 3), hit2 (some 4) (some 5),
          hit2 (some 6) none])[j - 1]?) :=
  insert_sorted_at_first_position (by decide) is_closer_t (hit2 (some 2) (some 9))
    [hit2 (some 1) (some 3), hit2 (some 4) (some 5), hit2 (some 6) none] 0 1
    (hit2 (some 4) (some 5)) rfl (by decide)
    (by
      intro j e1 hj hje
      have hj0 : j = 0 := by omega
      subst hj0
      simp only [List.getElem?_cons_zero, Option.some.injEq] at hje
      subst hje
      decide)

/-- C9: lane independence of the SIMD `insert_sorted` for a comparator that is evaluated
lane by lane: the call succeeds, and lane `l` of the accumulator after the call is the
scalar single-record insertion (§4.4) applied to lane `l` of the accumulator and lane `l`
of the candidate; it is also what the same code computes when it is run with a single lane
on the data of lane `l` alone. -/
theorem insert_sorted_lane_independence {W : Nat} {HR : Type} (hW : 0 < W)
    (cond : Packet W HR → Packet W HR → Mask W) (c : HR → HR → Bool)
    (hc : ∀ a b l, cond a b l = c (a l) (b l))
    (item : Packet W HR) (first : List (Packet W HR)) (hK : 0 < first.length) :
    ∃ r, algo.insert_sorted item first cond = some r ∧
      ∀ l : Fin W,
        laneOf l r = scalar_insert c (item l) (laneOf l first) ∧
        algo.insert_sorted (fun _ => item l : Packet 1 HR)
            ((laneOf l first).map (fun x => (fun _ => x : Packet 1 HR)))
            (fun a b _ => c (a 0) (b 0)) =
          some ((laneOf l r).map (fun x => (fun _ => x : Packet 1 HR))) := by
  obtain ⟨r, hr, _, hlane⟩ := insert_sorted_lane hW cond c hc item first hK
  refine ⟨r, hr, fun l => ⟨hlane l, ?_⟩⟩
  obtain ⟨r1, hr1, _, hlane1⟩ := insert_sorted_lane (by decide : 0 < 1)
    (fun a b _ => c (a 0) (b 0)) c
    (fun a b l0 => by
      have : l0 = 0 := Subsingleton.elim _ _
      subst this
      rfl)
    (fun _ => item l : Packet 1 HR)
    ((laneOf l first).map (fun x => (fun _ => x : Packet 1 HR)))
    (by simp [laneOf]; omega)
  rw [hr1]
  congr 1
  have h0 := hlane1 0
  have hback : laneOf (0 : Fin 1)
      ((laneOf l first).map (fun x => (fun _ => x : Packet 1 HR))) = laneOf l first := by
    simp [laneOf]
  rw [hback, ← hlane l] at h0
  rw [← h0]
  simp only [laneOf, List.map_map]
  symm
  have hid : ((fun x => (fun _ => x : Packet 1 HR)) ∘ fun e : Packet 1 HR => e 0) = id := by
    funext e
    funext l0
    have : l0 = 0 := Subsingleton.elim _ _
    subst this
    rfl
  rw [hid, List.map_id]

/-- Witness for C9: two lanes, capacity 2, the closer-than comparator. -/
theorem insert_sorted_lane_independence_witness :
    ∃ r, algo.insert_sorted (hit2 (some 2) (some 9))
        [hit2 (some 1) (some 3), hit2 (some 4) none] is_closer_t = some r ∧
      ∀ l : Fin 2,
        laneOf l r = scalar_insert closer (hit2 (some 2) (some 9) l)
          (laneOf l [hit2 (some 1) (some 3), hit2 (some 4) none]) ∧
        algo.insert_sorted (fun _ => hit2 (some 2) (some 9) l : Packet 1 (HitRecord Nat Unit))
            ((laneOf l [hit2 (some 1) (some 3), hit2 (some 4) none]).map
              (fun x => (fun _ => x : Packet 1 (HitRecord Nat Unit))))
            (fun a b _ => closer (a 0) (b 0)) =
          some ((laneOf l r).map (fun x => (fun _ => x : Packet 1 (HitRecord Nat Unit)))) :=
  insert_sorted_lane_independence (by decide) is_closer_t closer is_closer_t_lane
    (hit2 (some 2) (some 9)) [hit2 (some 1) (some 3), hit2 (some 4) none] (by decide)

/-- C10: in a lane `l` in which the comparator holds at no position of the sequence,
`insert_sorted` succeeds and leaves every entry of lane `l` unchanged, whatever the
candidate and the entries hold in the other lanes. -/
theorem insert_sorted_lane_unchanged {W : Nat} {HR : Type} (hW : 0 < W)
    (cond : Packet W HR → Packet W HR → Mask W)
    (item : Packet W HR) (first : List (Packet W HR)) (hK : 0 < first.length) (l : Fin W)
    (hnone : ∀ e ∈ first, cond item e l = false) :
    ∃ r, algo.insert_sorted item first cond = some r ∧ r.length = first.length ∧
      laneOf l r = laneOf l first := by
  obtain ⟨r, pos, hr, hlen, hpos, hlane⟩ := insert_sorted_spec hW cond item first hK
  refine ⟨r, hr, hlen, ?_⟩
  rw [hlane l]
  rcases hpos l with h | ⟨h1, _⟩
  · exfalso
    obtain ⟨⟨b, hb, hcb⟩, _⟩ := h
    rw [cond_lane_getElem?] at hb
    cases hfp : first[pos l]? with
    | none => rw [hfp] at hb; cases hb
    | some E =>
      rw [hfp] at hb
      simp only [Option.map_some', Option.some.injEq] at hb
      have := hnone E (List.getElem?_mem hfp)
      simp only [outcome] at hcb
      rw [← hb, this] at hcb
      cases hcb
  · rw [h1, cond_lane_length, ← laneOf_length l first, insert_at_length_self]

/-- Witness for C10: two lanes, capacity 2; lane 1 is full with closer hits and stays as it
is while lane 0 takes the candidate. -/
theorem insert_sorted_lane_unchanged_witness :
    ∃ r, algo.insert_sorted (hit2 (some 2) (some 9))
        [hit2 (some 1) (some 3), hit2 (some 4) (some 5)] is_closer_t = some r ∧
      r.length = 2 ∧
      laneOf 1 r = laneOf 1 [hit2 (some 1) (some 3), hit2 (some 4) (some 5)] :=
  insert_sorted_lane_unchanged (by decide) is_closer_t (hit2 (some 2) (some 9))
    [hit2 (some 1) (some 3), hit2 (some 4) (some 5)] (by decide) 1
    (by
      intro e he
      simp only [List.mem_cons, List.mem_singleton, List.not_mem_nil, or_false] at he
      rcases he with rfl | rfl <;> decide)

/-! ## Lemmas on the recursion of `build_top_down_impl` -/

theorem set_children_append {α : Type} (A : List α) (e1 e2 X0 X1 : α) (N1 N0 : List α) :
    ((A ++ [e1] ++ [e2]).set (A.length + 1) X1 ++ N1).set A.length X0 ++ N0 =
      A ++ X0 :: X1 :: (N1 ++ N0) := by
  induction A with
  | nil => simp
  | cons a A ih =>
    simp only [List.cons_append, List.length_cons, List.set_cons_succ]
    rw [ih]

theorem build_top_down_impl_run {S LI Prim Bnd : Type} (builder : Builder S LI Prim Bnd)
    (data : List Prim) (m : Int) :
    ∀ (fuel index : Nat) (st : BuildState S Bnd) (leaf : LI) (st' : BuildState S Bnd),
      detail.build_top_down_impl builder data m fuel index st leaf = Except.ok st' →
      index < st.nodes.length ∧
      ∃ X N T, Run builder data m index st.nodes.length st.builder st.indices leaf
          X N st'.builder st'.indices T ∧
        st'.nodes = st.nodes.set index X ++ N ∧ st'.trace = st.trace ++ T := by
  intro fuel
  induction fuel with
  | zero =>
    intro index st leaf st' h
    simp [detail.build_top_down_impl] at h
  | succ fuel ih =>
    intro index st leaf st' h
    cases hsp : builder.split st.builder leaf data m with
    | mk o b1 =>
      cases o with
      | none =>
        cases hins : builder.insert_indices b1 st.indices leaf with
        | mk pr b2 =>
          cases pr with
          | mk idx1 count =>
            simp only [detail.build_top_down_impl, hsp, hins] at h
            split at h
            · rename_i hlt
              cases h
              exact ⟨hlt, _, [], _, Run.leaf index st.nodes.length st.builder st.indices leaf
                b1 idx1 count b2 hsp hins, by simp, rfl⟩
            · cases h
      | some childs =>
        cases childs with
        | mk c0 c1 =>
          simp only [detail.build_top_down_impl, hsp] at h
          split at h
          · rename_i hlt
            split at h
            · cases h
            · rename_i st2 h1
              obtain ⟨_, X1, N1, T1, hrun1, hn1, ht1⟩ := ih _ _ _ _ h1
              obtain ⟨_, X0, N0, T0, hrun0, hn0, ht0⟩ := ih _ _ _ _ h
              have hlenA : (st.nodes.set index
                  (Node.inner (builder.prim_bounds leaf) st.nodes.length)).length =
                  st.nodes.length := List.length_set _ _ _
              simp only [List.length_append, List.length_singleton, hlenA] at hrun1 hn1
              have hlen2 : st2.nodes.length = st.nodes.length + 2 + N1.length := by
                rw [hn1]
                simp only [List.length_append, List.length_set, List.length_singleton, hlenA]
              rw [hlen2] at hrun0
              simp only [Nat.add_zero] at hrun0 hn0
              refine ⟨hlt, _, _, _, Run.inner index st.nodes.length st.builder st.indices leaf
                c0 c1 b1 X1 N1 st2.builder st2.indices T1 X0 N0 st'.builder st'.indices T0
                hsp hrun1 hrun0, ?_, ?_⟩
              · rw [hn0, hn1]
                have := set_children_append (st.nodes.set index
                  (Node.inner (builder.prim_bounds leaf) st.nodes.length))
                  Node.empty Node.empty X0 X1 N1 N0
                rw [hlenA] at this
                exact this
              · rw [ht0, ht1]
                simp
          · cases h

theorem Run_counts {S LI Prim Bnd : Type} {builder : Builder S LI Prim Bnd}
    {data : List Prim} {m : Int}
    {index s : Nat} {b : BuilderState S} {idx : List Nat} {leaf : LI}
    {X : Node Bnd} {N : List (Node Bnd)} {b' : BuilderState S} {idx' : List Nat}
    {T : List Event}
    (h : Run builder data m index s b idx leaf X N b' idx' T) :
    (X :: N).countP Node.isLeaf = (X :: N).countP Node.isInner + 1 ∧
    N.length = 2 * (X :: N).countP Node.isInner ∧
    (X :: N).countP Node.isEmpty = 0 ∧
    T.countP Event.isSetLeaf = (X :: N).countP Node.isLeaf ∧
    T.countP Event.isSetInner = (X :: N).countP Node.isInner ∧
    X.bounds = some (builder.prim_bounds leaf) := by
  induction h with
  | leaf index s b idx leaf b1 idx1 count b2 hsp hins =>
    simp [Node.isLeaf, Node.isInner, Node.isEmpty, Event.isSetLeaf, Event.isSetInner,
      Node.bounds]
  | inner index s b idx leaf c0 c1 b1 X1 N1 b2 idx2 T1 X0 N0 b3 idx3 T0 hsp h1 h0 ih1 ih0 =>
    obtain ⟨a1, a2, a3, a4, a5, _⟩ := ih1
    obtain ⟨c1, c2, c3, c4, c5, _⟩ := ih0
    simp only [List.countP_cons, List.countP_append, List.length_cons, List.length_append,
      List.countP_nil, List.append_assoc, List.cons_append, List.nil_append] at *
    simp only [Node.isLeaf, Node.isInner, Node.isEmpty, Event.isSetLeaf, Event.isSetInner,
      Node.bounds] at *
    simp only [Bool.false_eq_true, if_false, if_true, Nat.add_zero, Nat.zero_add] at *
    refine ⟨?_, ?_, ?_, ?_, ?_, trivial⟩ <;> omega

theorem lookup_inner {Bnd : Type} (i s : Nat) (hi : i < s) (X X0 X1 : Node Bnd)
    (N0 N1 : List (Node Bnd)) (j : Nat) (n : Node Bnd) :
    lookup i s X (X0 :: X1 :: (N1 ++ N0)) j = some n ↔
      (j = i ∧ n = X) ∨ lookup (s + 1) (s + 2) X1 N1 j = some n ∨
        lookup s (s + 2 + N1.length) X0 N0 j = some n := by
  unfold lookup
  by_cases hji : j = i
  · subst hji
    have h1 : ¬ j = s + 1 := by omega
    have h2 : ¬ s + 2 ≤ j := by omega
    have h3 : ¬ j = s := by omega
    have h4 : ¬ s + 2 + N1.length ≤ j := by omega
    simp only [if_true, if_neg h1, if_neg h2, if_neg h3, if_neg h4, Option.some.injEq, true_and]
    constructor
    · intro h; exact Or.inl h.symm
    · rintro (h | h | h)
      · exact h.symm
      · cases h
      · cases h
  · simp only [if_neg hji, hji, false_and, false_or]
    by_cases hs : s ≤ j
    · rw [if_pos hs]
      by_cases hj0 : j = s
      · subst hj0
        have h1 : ¬ j = j + 1 := by omega
        have h2 : ¬ j + 2 ≤ j := by omega
        simp [h1, h2]
      · by_cases hj1 : j = s + 1
        · subst hj1
          have h4 : ¬ s + 2 + N1.length ≤ s + 1 := by omega
          simp [hj0, h4]
        · have hs2 : s + 2 ≤ j := by omega
          obtain ⟨k, hk⟩ : ∃ k, j = s + 2 + k := ⟨j - s - 2, by omega⟩
          subst hk
          have e1 : s + 2 + k - s = k + 2 := by omega
          have e2 : s + 2 + k - (s + 2) = k := by omega
          rw [e1, e2, if_neg hj1, if_pos hs2, if_neg hj0]
          simp only [List.getElem?_cons_succ]
          by_cases hk1 : k < N1.length
          · have h4 : ¬ s + 2 + N1.length ≤ s + 2 + k := by omega
            rw [if_neg h4, List.getElem?_append_left hk1]
            simp
          · have h4 : s + 2 + N1.length ≤ s + 2 + k := by omega
            rw [if_pos h4, List.getElem?_append_right (by omega),
              List.getElem?_eq_none (by omega : N1.length ≤ k)]
            have e3 : s + 2 + k - (s + 2 + N1.length) = k - N1.length := by omega
            rw [e3]
            simp
    · have h1 : ¬ j = s + 1 := by omega
      have h2 : ¬ s + 2 ≤ j := by omega
      have h3 : ¬ j = s := by omega
      have h4 : ¬ s + 2 + N1.length ≤ j := by omega
      simp [hs, h1, h2, h3, h4]

/-- Child offsets of a block: an inner node at position `j` has its first child `c` behind
`j`, inside of the appended slots, and the second child `c + 1` is inside as well. -/
theorem Run_children {S LI Prim Bnd : Type} {builder : Builder S LI Prim Bnd}
    {data : List Prim} {m : Int}
    {index s : Nat} {b : BuilderState S} {idx : List Nat} {leaf : LI}
    {X : Node Bnd} {N : List (Node Bnd)} {b' : BuilderState S} {idx' : List Nat}
    {T : List Event}
    (h : Run builder data m index s b idx leaf X N b' idx' T) (hi : index < s) :
    ∀ j bnd c, lookup index s X N j = some (Node.inner bnd c) →
      j < c ∧ s ≤ c ∧ c + 1 < s + N.length := by
  induction h with
  | leaf index s b idx leaf b1 idx1 count b2 hsp hins =>
    intro j bnd c hl
    unfold lookup at hl
    split at hl
    · cases hl
    · split at hl <;> simp at hl
  | inner index s b idx leaf c0 c1 b1 X1 N1 b2 idx2 T1 X0 N0 b3 idx3 T0 hsp h1 h0 ih1 ih0 =>
    intro j bnd c hl
    rw [lookup_inner index s hi] at hl
    simp only [List.length_cons, List.length_append]
    rcases hl with ⟨hj, hX⟩ | hl | hl
    · cases hX
      omega
    · have := ih1 (by omega) j bnd c hl
      omega
    · have := ih0 (by omega) j bnd c hl
      omega

/-- Every appended slot is the first or second child of exactly one inner node of the
block. -/
theorem Run_parent {S LI Prim Bnd : Type} {builder : Builder S LI Prim Bnd}
    {data : List Prim} {m : Int}
    {index s : Nat} {b : BuilderState S} {idx : List Nat} {leaf : LI}
    {X : Node Bnd} {N : List (Node Bnd)} {b' : BuilderState S} {idx' : List Nat}
    {T : List Event}
    (h : Run builder data m index s b idx leaf X N b' idx' T) (hi : index < s) :
    ∀ j, s ≤ j → j < s + N.length →
      ∃ p bnd c, lookup index s X N p = some (Node.inner bnd c) ∧ (j = c ∨ j = c + 1) ∧
        ∀ p' bnd' c', lookup index s X N p' = some (Node.inner bnd' c') →
          (j = c' ∨ j = c' + 1) → p' = p := by
  induction h with
  | leaf index s b idx leaf b1 idx1 count b2 hsp hins =>
    intro j h1 h2
    simp at h2
    omega
  | inner index s b idx leaf c0 c1 b1 X1 N1 b2 idx2 T1 X0 N0 b3 idx3 T0 hsp h1 h0 ih1 ih0 =>
    intro j hj1 hj2
    simp only [List.length_cons, List.length_append] at hj2
    have hP1 := Run_children h1 (by omega)
    have hP0 := Run_children h0 (by omega)
    by_cases hjA : j < s + 2
    · refine ⟨index, builder.prim_bounds leaf, s, ?_, by omega, ?_⟩
      · rw [lookup_inner index s hi]
        exact Or.inl ⟨rfl, rfl⟩
      · intro p' bnd' c' hl hc
        rw [lookup_inner index s hi] at hl
        rcases hl with ⟨hp, _⟩ | hl | hl
        · exact hp
        · have := hP1 p' bnd' c' hl
          omega
        · have := hP0 p' bnd' c' hl
          omega
    · by_cases hjB : j < s + 2 + N1.length
      · obtain ⟨p, bnd, c, hl, hc, huniq⟩ := ih1 (by omega) j (by omega) (by omega)
        refine ⟨p, bnd, c, ?_, hc, ?_⟩
        · rw [lookup_inner index s hi]
          exact Or.inr (Or.inl hl)
        · intro p' bnd' c' hl' hc'
          rw [lookup_inner index s hi] at hl'
          rcases hl' with ⟨_, hX⟩ | hl' | hl'
          · cases hX
            omega
          · exact huniq p' bnd' c' hl' hc'
          · have := hP0 p' bnd' c' hl'
            omega
      · obtain ⟨p, bnd, c, hl, hc, huniq⟩ := ih0 (by omega) j (by omega) (by omega)
        refine ⟨p, bnd, c, ?_, hc, ?_⟩
        · rw [lookup_inner index s hi]
          exact Or.inr (Or.inr hl)
        · intro p' bnd' c' hl' hc'
          rw [lookup_inner index s hi] at hl'
          rcases hl' with ⟨_, hX⟩ | hl' | hl'
          · cases hX
            omega
          · have := hP1 p' bnd' c' hl'
            omega
          · exact huniq p' bnd' c' hl' hc'

/-- The slots written by `set_inner` and `set_leaf` during a call: slot `index` and every
appended slot, each once. -/
theorem Run_set_once {S LI Prim Bnd : Type} {builder : Builder S LI Prim Bnd}
    {data : List Prim} {m : Int}
    {index s : Nat} {b : BuilderState S} {idx : List Nat} {leaf : LI}
    {X : Node Bnd} {N : List (Node Bnd)} {b' : BuilderState S} {idx' : List Nat}
    {T : List Event}
    (h : Run builder data m index s b idx leaf X N b' idx' T) :
    (T.filterMap Event.setIndex).Perm (index :: List.range' s N.length) := by
  induction h with
  | leaf index s b idx leaf b1 idx1 count b2 hsp hins =>
    simp [Event.setIndex]
  | inner index s b idx leaf c0 c1 b1 X1 N1 b2 idx2 T1 X0 N0 b3 idx3 T0 hsp h1 h0 ih1 ih0 =>
    have hfm : (([Event.split index b.use_spatial_splits m true, Event.set_inner index s,
        Event.emplace_back, Event.emplace_back] ++ T1 ++ T0).filterMap Event.setIndex) =
        index :: (T1.filterMap Event.setIndex ++ T0.filterMap Event.setIndex) := by
      simp [List.filterMap_append, List.filterMap_cons, Event.setIndex]
    rw [hfm]
    refine List.Perm.cons index ?_
    have hr : List.range' s (X0 :: X1 :: (N1 ++ N0)).length =
        s :: (s + 1) :: (List.range' (s + 2) N1.length ++
          List.range' (s + 2 + N1.length) N0.length) := by
      simp only [List.length_cons, List.length_append]
      rw [show N1.length + N0.length + 1 + 1 = (N1.length + N0.length) + 1 + 1 from rfl,
        List.range'_succ, List.range'_succ]
      congr 2
      have := List.range'_append (s + 2) N1.length N0.length 1
      simp only [Nat.one_mul] at this
      rw [this, Nat.add_comm N0.length N1.length]
    rw [hr]
    refine (List.Perm.append ih1 ih0).trans ?_
    simp only [List.cons_append]
    exact (List.Perm.cons (s + 1) List.perm_middle).trans (List.Perm.swap s (s + 1) _)

theorem build_top_down_eq {S LI Prim Bnd : Type} (fuel : Nat) (is_index_bvh : Bool)
    (tree : Tree Bnd Prim) (builder : Builder S LI Prim Bnd) (b : BuilderState S)
    (first : List Prim) (m : Int) :
    detail.build_top_down fuel is_index_bvh tree builder b first m =
      detail.build_top_down_work fuel
        { nodes := [Node.empty], indices := [], primitives := tree.primitives }
        builder (builder.init b first).2 (builder.init b first).1 first
        (detail.normalized_leaf_size m)
        [Event.init,
          Event.clear (2 * ((first.length : Int).tdiv (detail.normalized_leaf_size m))),
          Event.emplace_back]
        is_index_bvh := by
  rfl

theorem build_top_down_run {S LI Prim Bnd : Type} (fuel : Nat) (is_index_bvh : Bool)
    (tree : Tree Bnd Prim) (builder : Builder S LI Prim Bnd) (b : BuilderState S)
    (first : List Prim) (m : Int) (r : detail.BuildResult S Bnd Prim)
    (h : detail.build_top_down fuel is_index_bvh tree builder b first m = Except.ok r) :
    ∃ X N T b' idx',
      Run builder first (detail.normalized_leaf_size m) 0 1
        (start_builder builder b first is_index_bvh) [] (builder.init b first).1
        X N b' idx' T ∧
      r.tree.nodes = X :: N ∧
      r.trace = [Event.init,
          Event.clear (2 * ((first.length : Int).tdiv (detail.normalized_leaf_size m))),
          Event.emplace_back] ++ T ++
        (if is_index_bvh then [] else [Event.reorder_n idx']) ∧
      (is_index_bvh = true →
        r.tree.indices = idx' ∧ r.tree.primitives = tree.primitives ∧ r.builder = b') ∧
      (is_index_bvh = false →
        idx'.length = tree.primitives.length ∧
        r.tree.primitives = algo.reorder_n idx' tree.primitives idx'.length ∧
        r.builder = { b' with
          use_spatial_splits := (builder.init b first).2.use_spatial_splits }) := by
  rw [build_top_down_eq] at h
  generalize detail.normalized_leaf_size m = m' at h ⊢
  unfold detail.build_top_down_work at h
  cases is_index_bvh with
  | true =>
    simp only [if_true] at h
    split at h
    · cases h
    · rename_i st hst
      cases h
      obtain ⟨_, X, N, T, hrun, hn, ht⟩ := build_top_down_impl_run _ _ _ _ _ _ _ _ hst
      simp only [List.length_singleton] at hrun hn ht
      refine ⟨X, N, T, st.builder, st.indices, ?_, ?_, ?_, ?_, ?_⟩
      · simpa [start_builder] using hrun
      · simpa using hn
      · simpa using ht
      · intro _
        exact ⟨rfl, rfl, rfl⟩
      · intro hc
        cases hc
  | false =>
    simp only [Bool.false_eq_true, if_false] at h
    split at h
    · cases h
    · rename_i st hst
      split at h
      · rename_i hlen
        cases h
        obtain ⟨_, X, N, T, hrun, hn, ht⟩ := build_top_down_impl_run _ _ _ _ _ _ _ _ hst
        simp only [List.length_singleton] at hrun hn ht hlen
        refine ⟨X, N, T, st.builder, st.indices, ?_, ?_, ?_, ?_, ?_⟩
        · simpa [start_builder] using hrun
        · simpa using hn
        · simp [ht]
        · intro hc
          cases hc
        · intro _
          exact ⟨hlen, rfl, rfl⟩
      · cases h

theorem lookup_root {Bnd : Type} (X : Node Bnd) (N : List (Node Bnd)) (j : Nat) :
    lookup 0 1 X N j = (X :: N)[j]? := by
  unfold lookup
  rcases j with _ | j
  · simp
  · simp

theorem trace_setIndex_root (c : Int) (T : List Event) (tail : List Nat) (flag : Bool) :
    (([Event.init, Event.clear c, Event.emplace_back] ++ T ++
      (if flag then [] else [Event.reorder_n tail])).filterMap Event.setIndex) =
      T.filterMap Event.setIndex := by
  cases flag <;> simp [List.filterMap_append, Event.setIndex]

theorem trace_isSetLeaf_root (c : Int) (T : List Event) (tail : List Nat) (flag : Bool) :
    (([Event.init, Event.clear c, Event.emplace_back] ++ T ++
      (if flag then [] else [Event.reorder_n tail])).countP Event.isSetLeaf) =
      T.countP Event.isSetLeaf := by
  cases flag <;> simp [List.countP_append, List.countP_cons, Event.isSetLeaf]

/-! ## Theorems on the shape of the tree -/

/-- C2: whenever `build_top_down` returns (the split recursion is finite), the Node Store
holds exactly `2 * L - 1` nodes, where `L ≥ 1` is the number of leaf nodes, which is also
the number of `set_leaf` calls of the driver; the number of inner nodes is `L - 1`, every
node is an inner node or a leaf, and both children `c` and `c + 1` of every inner node are
slots of the store. -/
theorem build_top_down_node_count {S LI Prim Bnd : Type} (fuel : Nat) (is_index_bvh : Bool)
    (tree : Tree Bnd Prim) (builder : Builder S LI Prim Bnd) (b : BuilderState S)
    (first : List Prim) (m : Int) (r : detail.BuildResult S Bnd Prim)
    (h : detail.build_top_down fuel is_index_bvh tree builder b first m = Except.ok r) :
    r.tree.nodes.length = 2 * r.tree.nodes.countP Node.isLeaf - 1 ∧
    1 ≤ r.tree.nodes.countP Node.isLeaf ∧
    r.trace.countP Event.isSetLeaf = r.tree.nodes.countP Node.isLeaf ∧
    r.tree.nodes.countP Node.isInner = r.tree.nodes.countP Node.isLeaf - 1 ∧
    r.tree.nodes.countP Node.isInner + r.tree.nodes.countP Node.isLeaf =
      r.tree.nodes.length ∧
    ∀ (i : Nat) (bnd : Bnd) (c : Nat), r.tree.nodes[i]? = some (Node.inner bnd c) →
      c < r.tree.nodes.length ∧ c + 1 < r.tree.nodes.length := by
  obtain ⟨X, N, T, b', idx', hrun, hn, ht, _, _⟩ :=
    build_top_down_run fuel is_index_bvh tree builder b first m r h
  obtain ⟨h1, h2, _, h4, _, _⟩ := Run_counts hrun
  have hch := Run_children hrun (by omega)
  rw [hn, ht, trace_isSetLeaf_root]
  have hlen : (X :: N).length = N.length + 1 := rfl
  refine ⟨by omega, by omega, h4, by omega, by omega, ?_⟩
  intro i bnd c hi
  rw [← lookup_root] at hi
  have := hch i bnd c hi
  omega

/-- Witness for C2: eight primitives, leaf size 4, a Builder that halves ranges. -/
theorem build_top_down_node_count_witness :
    ∃ r, detail.build_top_down 10 true (⟨[], [], []⟩ : Tree (Nat × Nat) Nat) median_builder
        ⟨true, ()⟩ (List.range 8) 4 = Except.ok r ∧
      r.tree.nodes.length = 2 * r.tree.nodes.countP Node.isLeaf - 1 ∧
      1 ≤ r.tree.nodes.countP Node.isLeaf ∧
      r.trace.countP Event.isSetLeaf = r.tree.nodes.countP Node.isLeaf ∧
      r.tree.nodes.countP Node.isInner = r.tree.nodes.countP Node.isLeaf - 1 ∧
      r.tree.nodes.countP Node.isInner + r.tree.nodes.countP Node.isLeaf =
        r.tree.nodes.length ∧
      ∀ (i : Nat) (bnd : (Nat × Nat)) (c : Nat), r.tree.nodes[i]? = some (Node.inner bnd c) →
        c < r.tree.nodes.length ∧ c + 1 < r.tree.nodes.length :=
  ⟨_, rfl, build_top_down_node_count 10 true ⟨[], [], []⟩ median_builder ⟨true, ()⟩
    (List.range 8) 4 _ rfl⟩

/-- C5: whenever `build_top_down` returns, the child offsets form a binary tree rooted at
node 0: node 0 carries the bounds of the root leaf info; every inner node at index `i` has
its first child `c` behind `i` and both `c` and `c + 1` inside the store; every node other
than node 0 is the first or second child of exactly one inner node; no slot is empty and
the `set_inner` / `set_leaf` calls of the driver write every slot exactly once. -/
theorem build_top_down_tree_shape {S LI Prim Bnd : Type} (fuel : Nat) (is_index_bvh : Bool)
    (tree : Tree Bnd Prim) (builder : Builder S LI Prim Bnd) (b : BuilderState S)
    (first : List Prim) (m : Int) (r : detail.BuildResult S Bnd Prim)
    (h : detail.build_top_down fuel is_index_bvh tree builder b first m = Except.ok r) :
    (∃ n0, r.tree.nodes[0]? = some n0 ∧
      n0.bounds = some (builder.prim_bounds (builder.init b first).1)) ∧
    (∀ (i : Nat) (bnd : Bnd) (c : Nat), r.tree.nodes[i]? = some (Node.inner bnd c) →
      i < c ∧ c + 1 < r.tree.nodes.length) ∧
    (∀ j, 0 < j → j < r.tree.nodes.length →
      ∃ (p : Nat) (bnd : Bnd) (c : Nat), r.tree.nodes[p]? = some (Node.inner bnd c) ∧ (j = c ∨ j = c + 1) ∧
        ∀ (p1 : Nat) (bnd1 : Bnd) (c1 : Nat), r.tree.nodes[p1]? = some (Node.inner bnd1 c1) →
          (j = c1 ∨ j = c1 + 1) → p1 = p) ∧
    (∀ n ∈ r.tree.nodes, n.isEmpty = false) ∧
    (r.trace.filterMap Event.setIndex).Perm (List.range r.tree.nodes.length) := by
  obtain ⟨X, N, T, b', idx', hrun, hn, ht, _, _⟩ :=
    build_top_down_run fuel is_index_bvh tree builder b first m r h
  obtain ⟨_, _, h3, _, _, h6⟩ := Run_counts hrun
  have hch := Run_children hrun (by omega)
  have hpar := Run_parent hrun (by omega)
  have hset := Run_set_once hrun
  rw [hn, ht, trace_setIndex_root]
  have hlen : (X :: N).length = N.length + 1 := rfl
  refine ⟨⟨X, List.getElem?_cons_zero, h6⟩, ?_, ?_, ?_, ?_⟩
  · intro i bnd c hi
    rw [← lookup_root] at hi
    have := hch i bnd c hi
    omega
  · intro j hj0 hj
    obtain ⟨p, bnd, c, hl, hc, huniq⟩ := hpar j (by omega) (by omega)
    refine ⟨p, bnd, c, by rw [← lookup_root]; exact hl, hc, ?_⟩
    intro p1 bnd1 c1 hl1 hc1
    exact huniq p1 bnd1 c1 (by rw [lookup_root]; exact hl1) hc1
  · intro n hn'
    have := (List.countP_eq_zero.1 h3) n hn'
    simpa using this
  · refine hset.trans ?_
    rw [hlen, List.range_eq_range', List.range'_succ]

/-- Witness for C5: six primitives, leaf size 2, soup-mode, a Builder that halves
ranges. -/
theorem build_top_down_tree_shape_witness :
    ∃ r, detail.build_top_down 10 false (⟨[], [], List.range 6⟩ : Tree (Nat × Nat) Nat)
        median_builder ⟨true, ()⟩ (List.range 6) 2 = Except.ok r ∧
      (∃ n0, r.tree.nodes[0]? = some n0 ∧
        n0.bounds = some (median_builder.prim_bounds
          (median_builder.init ⟨true, ()⟩ (List.range 6)).1)) ∧
      (∀ (i : Nat) (bnd : (Nat × Nat)) (c : Nat), r.tree.nodes[i]? = some (Node.inner bnd c) →
        i < c ∧ c + 1 < r.tree.nodes.length) ∧
      (∀ j, 0 < j → j < r.tree.nodes.length →
        ∃ (p : Nat) (bnd : (Nat × Nat)) (c : Nat), r.tree.nodes[p]? = some (Node.inner bnd c) ∧ (j = c ∨ j = c + 1) ∧
          ∀ (p1 : Nat) (bnd1 : (Nat × Nat)) (c1 : Nat), r.tree.nodes[p1]? = some (Node.inner bnd1 c1) →
            (j = c1 ∨ j = c1 + 1) → p1 = p) ∧
      (∀ n ∈ r.tree.nodes, n.isEmpty = false) ∧
      (r.trace.filterMap Event.setIndex).Perm (List.range r.tree.nodes.length) :=
  ⟨_, rfl, build_top_down_tree_shape 10 false ⟨[], [], List.range 6⟩ median_builder
    ⟨true, ()⟩ (List.range 6) 2 _ rfl⟩

/-! ## Lemmas on leaf ranges and the index sequence -/

theorem Chained_append : ∀ (r1 r2 : List (Nat × Nat)) (a mid z : Nat),
    Chained a r1 mid → Chained mid r2 z → Chained a (r1 ++ r2) z := by
  intro r1
  induction r1 with
  | nil =>
    intro r2 a mid z h1 h2
    simp only [Chained] at h1
    subst h1
    exact h2
  | cons fc rest ih =>
    intro r2 a mid z h1 h2
    simp only [Chained] at h1
    exact ⟨h1.1, ih r2 _ mid z h1.2 h2⟩

theorem Chained_le : ∀ (rs : List (Nat × Nat)) (a z : Nat), Chained a rs z → a ≤ z := by
  intro rs
  induction rs with
  | nil => intro a z h; simp only [Chained] at h; omega
  | cons fc rest ih =>
    intro a z h
    simp only [Chained] at h
    have := ih _ z h.2
    omega

theorem Chained_covers : ∀ (rs : List (Nat × Nat)) (a z : Nat), Chained a rs z →
    ∀ k, (rs.filter (covers k)).length = if a ≤ k ∧ k < z then 1 else 0 := by
  intro rs
  induction rs with
  | nil =>
    intro a z h k
    simp only [Chained] at h
    subst h
    have : ¬ (a ≤ k ∧ k < a) := by omega
    simp [this]
  | cons fc rest ih =>
    intro a z h k
    simp only [Chained] at h
    have hle := Chained_le rest _ z h.2
    have hrest := ih _ z h.2 k
    rw [List.filter_cons]
    by_cases hc : covers k fc = true
    · rw [if_pos hc, List.length_cons, hrest]
      simp only [covers, decide_eq_true_eq] at hc
      have h1 : ¬ (a + fc.2 ≤ k ∧ k < z) := by omega
      have h2 : a ≤ k ∧ k < z := by omega
      rw [if_neg h1, if_pos h2]
    · rw [if_neg hc, hrest]
      simp only [covers, decide_eq_true_eq] at hc
      by_cases h1 : a + fc.2 ≤ k ∧ k < z
      · have h2 : a ≤ k ∧ k < z := by omega
        rw [if_pos h1, if_pos h2]
      · have h2 : ¬ (a ≤ k ∧ k < z) := by omega
        rw [if_neg h1, if_neg h2]

/-- Leaf ranges of a block, for a Builder whose `insert_indices` appends as many indices as
it returns: taken second child first, they are chained from the length of the index
sequence before the call to its length after the call. -/
theorem Run_ranges {S LI Prim Bnd : Type} {builder : Builder S LI Prim Bnd}
    {data : List Prim} {m : Int}
    (hins : ∀ b idx leaf idx1 count b1,
      builder.insert_indices b idx leaf = ((idx1, count), b1) →
      ∃ new, idx1 = idx ++ new ∧ new.length = count)
    {index s : Nat} {b : BuilderState S} {idx : List Nat} {leaf : LI}
    {X : Node Bnd} {N : List (Node Bnd)} {b' : BuilderState S} {idx' : List Nat}
    {T : List Event}
    (h : Run builder data m index s b idx leaf X N b' idx' T) :
    ∃ order : List (Nat × Nat), order.Perm ((X :: N).filterMap Node.range) ∧
      Chained idx.length order idx'.length := by
  induction h with
  | leaf index s b idx leaf b1 idx1 count b2 hsp hi =>
    obtain ⟨new, h1, h2⟩ := hins _ _ _ _ _ _ hi
    refine ⟨[(idx.length, count)], by simp [Node.range], ?_⟩
    simp only [Chained, true_and]
    rw [h1, List.length_append, h2]
  | inner index s b idx leaf c0 c1 b1 X1 N1 b2 idx2 T1 X0 N0 b3 idx3 T0 hsp h1 h0 ih1 ih0 =>
    obtain ⟨o1, hp1, hc1⟩ := ih1
    obtain ⟨o0, hp0, hc0⟩ := ih0
    refine ⟨o1 ++ o0, ?_, Chained_append o1 o0 _ _ _ hc1 hc0⟩
    refine (List.Perm.append hp1 hp0).trans ?_
    have e1 : List.filterMap Node.range
        (Node.inner (builder.prim_bounds leaf) s :: X0 :: X1 :: (N1 ++ N0)) =
        List.filterMap Node.range [X0] ++ (List.filterMap Node.range (X1 :: N1) ++
          List.filterMap Node.range N0) := by
      rw [List.filterMap_cons_none (by rfl), ← List.filterMap_append, ← List.filterMap_append]
      rfl
    have e2 : List.filterMap Node.range (X0 :: N0) =
        List.filterMap Node.range [X0] ++ List.filterMap Node.range N0 := by
      rw [← List.filterMap_append]
      rfl
    rw [e1, e2]
    exact List.perm_append_comm_assoc _ _ _

theorem Run_partition {S LI Prim Bnd : Type} {builder : Builder S LI Prim Bnd}
    {data : List Prim} {m : Int} {Good : BuilderState S → Prop} {prims_of : LI → List Nat}
    (hb : Partitions builder data m Good prims_of)
    {index s : Nat} {b : BuilderState S} {idx : List Nat} {leaf : LI}
    {X : Node Bnd} {N : List (Node Bnd)} {b' : BuilderState S} {idx' : List Nat}
    {T : List Event}
    (h : Run builder data m index s b idx leaf X N b' idx' T) (hg : Good b) :
    Good b' ∧ ((X :: N).map Node.count).sum = (prims_of leaf).length ∧
      ∃ new, idx' = idx ++ new ∧ new.Perm (prims_of leaf) := by
  induction h with
  | leaf index s b idx leaf b1 idx1 count b2 hsp hi =>
    have hg1 := hb.split_none _ _ _ hg hsp
    obtain ⟨⟨new, h1, h2, h3⟩, hg2⟩ := hb.insert _ _ _ _ _ _ hg1 hi
    refine ⟨hg2, ?_, new, h1, h2⟩
    simp [Node.count, h3, h2.length_eq]
  | inner index s b idx leaf c0 c1 b1 X1 N1 b2 idx2 T1 X0 N0 b3 idx3 T0 hsp h1 h0 ih1 ih0 =>
    obtain ⟨hperm, hg1⟩ := hb.split_some _ _ _ _ _ hg hsp
    obtain ⟨hg2, hs1, new1, hn1, hp1⟩ := ih1 hg1
    obtain ⟨hg3, hs0, new0, hn0, hp0⟩ := ih0 hg2
    refine ⟨hg3, ?_, new1 ++ new0, ?_, ?_⟩
    · simp only [List.map_cons, List.map_append, List.sum_cons, List.sum_append] at hs1 hs0 ⊢
      have := hperm.length_eq
      simp only [List.length_append] at this
      have hz : (Node.inner (builder.prim_bounds leaf) s).count = 0 := rfl
      rw [hz]
      omega
    · rw [hn0, hn1, List.append_assoc]
    · exact ((List.Perm.append hp1 hp0).trans List.perm_append_comm).trans hperm

theorem build_top_down_impl_error {S LI Prim Bnd : Type} (builder : Builder S LI Prim Bnd)
    (data : List Prim) (m : Int) :
    ∀ (fuel index : Nat) (st : BuildState S Bnd) (leaf : LI) (e : BuildError),
      detail.build_top_down_impl builder data m fuel index st leaf = Except.error e →
      e ≠ BuildError.assertion_failed := by
  intro fuel
  induction fuel with
  | zero =>
    intro index st leaf e h
    simp only [detail.build_top_down_impl] at h
    cases h
    intro hc
    cases hc
  | succ fuel ih =>
    intro index st leaf e h
    cases hsp : builder.split st.builder leaf data m with
    | mk o b1 =>
      cases o with
      | none =>
        simp only [detail.build_top_down_impl, hsp] at h
        split at h
        · cases h
        · cases h
          intro hc
          cases hc
      | some childs =>
        simp only [detail.build_top_down_impl, hsp] at h
        split at h
        · split at h
          · rename_i e1 h1
            cases h
            exact ih _ _ _ _ h1
          · exact ih _ _ _ _ h
        · cases h
          intro hc
          cases hc

theorem normalized_leaf_size_pos (m : Int) (hm : 0 < m) : detail.normalized_leaf_size m = m := by
  unfold detail.normalized_leaf_size
  rw [if_neg (by omega)]

theorem median_builder_partitions (data : List Nat) (m : Int)
    (Good : BuilderState Unit → Prop) :
    Partitions median_builder data m Good
      (fun leaf => List.range' leaf.first (leaf.last - leaf.first)) := by
  refine ⟨?_, ?_, ?_⟩
  · intro b leaf c0 c1 b1 hg h
    simp only [median_builder] at h
    split at h
    · cases h
    · simp only [Prod.mk.injEq, Option.some.injEq] at h
      obtain ⟨⟨h0, h1⟩, hb⟩ := h
      subst h0 h1 hb
      refine ⟨?_, hg⟩
      simp only
      have e1 : leaf.first + (leaf.last - leaf.first) / 2 - leaf.first =
          (leaf.last - leaf.first) / 2 := by omega
      have e2 := List.range'_append leaf.first ((leaf.last - leaf.first) / 2)
        (leaf.last - (leaf.first + (leaf.last - leaf.first) / 2)) 1
      simp only [Nat.one_mul] at e2
      rw [e1, e2]
      have e3 : leaf.last - (leaf.first + (leaf.last - leaf.first) / 2) +
          (leaf.last - leaf.first) / 2 = leaf.last - leaf.first := by omega
      rw [e3]
  · intro b leaf b1 hg h
    simp only [median_builder] at h
    split at h
    · simp only [Prod.mk.injEq, true_and] at h
      subst h
      exact hg
    · cases h
  · intro b idx leaf idx1 count b1 hg h
    simp only [median_builder, Prod.mk.injEq] at h
    obtain ⟨⟨h0, h1⟩, hb⟩ := h
    subst h0 h1 hb
    exact ⟨⟨_, rfl, List.Perm.refl _, by simp⟩, hg⟩

/-! ## Theorems on leaf ranges, leaf counts and the permutation -/

/-- C4: for a Builder whose `insert_indices` appends exactly as many indices as it returns:
a call of `build_top_down_impl` whose `split` refuses stores a leaf whose starting offset
is the length of the index sequence at that moment and whose count is the value returned
by `insert_indices`; and whenever `build_top_down` returns, the leaf ranges tile
`[0, length of the index sequence)`: in a suitable order each range starts where its
predecessor ends, from `0` to the length, so that every position of the sequence lies in
exactly one leaf range and no range reaches beyond it.  The index sequence is the one of
the tree in index-mode and the one handed to the reorder step in soup-mode. -/
theorem build_top_down_leaf_ranges {S LI Prim Bnd : Type} (builder : Builder S LI Prim Bnd)
    (hins : ∀ b idx leaf idx1 count b1,
      builder.insert_indices b idx leaf = ((idx1, count), b1) →
      ∃ new, idx1 = idx ++ new ∧ new.length = count)
    (fuel : Nat) (is_index_bvh : Bool) (tree : Tree Bnd Prim) (b : BuilderState S)
    (first : List Prim) (m : Int) (r : detail.BuildResult S Bnd Prim)
    (h : detail.build_top_down fuel is_index_bvh tree builder b first m = Except.ok r) :
    (∀ (n index : Nat) (st : BuildState S Bnd) (leaf : LI) (data : List Prim) (k : Int)
        (b1 b2 : BuilderState S) (idx1 : List Nat) (count : Nat),
        builder.split st.builder leaf data k = (none, b1) →
        builder.insert_indices b1 st.indices leaf = ((idx1, count), b2) →
        index < st.nodes.length →
        ∃ st1, detail.build_top_down_impl builder data k (n + 1) index st leaf =
            Except.ok st1 ∧
          st1.nodes[index]? =
            some (Node.leaf (builder.prim_bounds leaf) st.indices.length count) ∧
          st1.indices = idx1) ∧
    (is_index_bvh = true → LeafRangesTile r.tree.nodes r.tree.indices.length) ∧
    (is_index_bvh = false →
      ∃ p, r.trace.getLast? = some (Event.reorder_n p) ∧
        LeafRangesTile r.tree.nodes p.length) := by
  obtain ⟨X, N, T, b', idx', hrun, hn, ht, hidx, hsoup⟩ :=
    build_top_down_run fuel is_index_bvh tree builder b first m r h
  obtain ⟨order, hperm, hchain⟩ := Run_ranges hins hrun
  simp only [List.length_nil] at hchain
  have htile : LeafRangesTile r.tree.nodes idx'.length := by
    rw [hn]
    refine ⟨⟨order, hperm, hchain⟩, ?_⟩
    intro k
    have := Chained_covers order 0 idx'.length hchain k
    rw [← (hperm.filter (covers k)).length_eq, this]
    simp
  refine ⟨?_, ?_, ?_⟩
  · intro n index st leaf data k b1 b2 idx1 count hsp hi hlt
    refine ⟨BuildState.mk
      (st.nodes.set index (Node.leaf (builder.prim_bounds leaf) st.indices.length count))
      idx1 b2
      (st.trace ++ [Event.split index st.builder.use_spatial_splits k false,
        Event.insert_indices index, Event.set_leaf index st.indices.length count]),
      ?_, ?_, rfl⟩
    · simp only [detail.build_top_down_impl, hsp, hi, hlt, if_true]
    · simp only [List.getElem?_set_self hlt]
  · intro hmode
    rw [(hidx hmode).1]
    exact htile
  · intro hmode
    refine ⟨idx', ?_, htile⟩
    rw [ht, hmode]
    simp only [Bool.false_eq_true, if_false]
    exact List.getLast?_concat _

/-- Witness for C4: eight primitives, leaf size 2, index-mode, a Builder that halves
ranges. -/
theorem build_top_down_leaf_ranges_witness :
    ∃ r, detail.build_top_down 10 true (⟨[], [], []⟩ : Tree (Nat × Nat) Nat) median_builder
        ⟨true, ()⟩ (List.range 8) 2 = Except.ok r ∧
      LeafRangesTile r.tree.nodes r.tree.indices.length :=
  ⟨_, rfl, (build_top_down_leaf_ranges median_builder
    (fun b idx leaf idx1 count b1 hi => by
      obtain ⟨⟨new, h1, h2, h3⟩, _⟩ :=
        (median_builder_partitions [] 0 (fun _ => True)).insert b idx leaf idx1 count b1
          trivial hi
      exact ⟨new, h1, h3.symm⟩)
    10 true ⟨[], [], []⟩ ⟨true, ()⟩ (List.range 8) 2 _ rfl).2.1 rfl⟩

/-- C7: for every primitive set of size `n`, every `max_leaf_size > 0` and every Builder
whose root leaf info holds the `n` primitives, whose `split` distributes the primitives of
a leaf over its two children without loss or duplication and whose `insert_indices`
appends exactly the primitives of the leaf: whenever `build_top_down` returns, the
primitive counts stored in the leaf nodes sum to `n`. -/
theorem build_top_down_leaf_counts {S LI Prim Bnd : Type} (fuel : Nat) (is_index_bvh : Bool)
    (tree : Tree Bnd Prim) (builder : Builder S LI Prim Bnd) (b : BuilderState S)
    (first : List Prim) (m : Int) (hm : 0 < m) (prims_of : LI → List Nat)
    (hb : Partitions builder first m (fun _ => True) prims_of)
    (hroot : (prims_of (builder.init b first).1).Perm (List.range first.length))
    (r : detail.BuildResult S Bnd Prim)
    (h : detail.build_top_down fuel is_index_bvh tree builder b first m = Except.ok r) :
    (r.tree.nodes.map Node.count).sum = first.length ∧
    ((r.tree.nodes.filterMap Node.range).map Prod.snd).sum = first.length := by
  obtain ⟨X, N, T, b', idx', hrun, hn, _, _, _⟩ :=
    build_top_down_run fuel is_index_bvh tree builder b first m r h
  rw [normalized_leaf_size_pos m hm] at hrun
  obtain ⟨_, hsum, _⟩ := Run_partition hb hrun trivial
  have hlen := hroot.length_eq
  rw [List.length_range] at hlen
  have hsame : ∀ nodes : List (Node Bnd),
      ((nodes.filterMap Node.range).map Prod.snd).sum = (nodes.map Node.count).sum := by
    intro nodes
    induction nodes with
    | nil => rfl
    | cons n rest ih =>
      cases n <;> simp [Node.range, Node.count, List.filterMap_cons, ih]
  rw [hsame, hn, hsum, hlen]
  exact ⟨rfl, rfl⟩

/-- Witness for C7: eight primitives, leaf size 2, index-mode, a Builder that halves
ranges. -/
theorem build_top_down_leaf_counts_witness :
    ∃ r, detail.build_top_down 10 true (⟨[], [], []⟩ : Tree (Nat × Nat) Nat) median_builder
        ⟨true, ()⟩ (List.range 8) 2 = Except.ok r ∧
      (r.tree.nodes.map Node.count).sum = (List.range 8).length ∧
      ((r.tree.nodes.filterMap Node.range).map Prod.snd).sum = (List.range 8).length :=
  ⟨_, rfl, build_top_down_leaf_counts 10 true ⟨[], [], []⟩ median_builder ⟨true, ()⟩
    (List.range 8) 2 (by decide)
    (fun leaf => List.range' leaf.first (leaf.last - leaf.first))
    (median_builder_partitions _ _ _)
    (by
      simp only [median_builder, List.length_range, Nat.sub_zero]
      rw [List.range_eq_range'])
    _ rfl⟩

/-- C8: soup-mode, primitive set of size `n`, `max_leaf_size > 0`, and a Builder whose root
leaf info holds the primitives `0, ..., n - 1` and which, while spatial splits are
disabled, distributes the primitives of a leaf over its two children without loss or
duplication and appends exactly the primitives of a leaf: the `assert` on the length never
fails, and whenever `build_top_down` returns, the index sequence handed to the reorder
step is a permutation of `[0, n)`: it has length `n` and contains every index below `n`
exactly once and no other index. -/
theorem build_top_down_soup_permutation {S LI Prim Bnd : Type} (fuel : Nat)
    (tree : Tree Bnd Prim) (builder : Builder S LI Prim Bnd) (b : BuilderState S)
    (first : List Prim) (m : Int) (hm : 0 < m) (prims_of : LI → List Nat)
    (hb : Partitions builder first m (fun b => b.use_spatial_splits = false) prims_of)
    (hroot : (prims_of (builder.init b first).1).Perm (List.range first.length))
    (hprims : tree.primitives.length = first.length) :
    detail.build_top_down fuel false tree builder b first m ≠
      Except.error BuildError.assertion_failed ∧
    ∀ r, detail.build_top_down fuel false tree builder b first m = Except.ok r →
      ∃ p, r.trace.getLast? = some (Event.reorder_n p) ∧
        p.Perm (List.range first.length) ∧ p.length = first.length ∧
        (∀ i, i < first.length → p.count i = 1) ∧ (∀ i, i ∈ p → i < first.length) := by
  constructor
  · intro herr
    rw [build_top_down_eq, normalized_leaf_size_pos m hm] at herr
    unfold detail.build_top_down_work at herr
    simp only [Bool.false_eq_true, if_false] at herr
    split at herr
    · rename_i e he
      cases herr
      exact build_top_down_impl_error _ _ _ _ _ _ _ _ he rfl
    · rename_i st hst
      split at herr
      · cases herr
      · rename_i hlen
        obtain ⟨_, X, N, T, hrun, _, _⟩ := build_top_down_impl_run _ _ _ _ _ _ _ _ hst
        obtain ⟨_, _, new, hnew, hperm⟩ := Run_partition hb hrun rfl
        apply hlen
        simp only [List.nil_append] at hnew
        rw [hnew, (hperm.trans hroot).length_eq, List.length_range]
        exact hprims.symm
  · intro r h
    obtain ⟨X, N, T, b', idx', hrun, _, ht, _, _⟩ :=
      build_top_down_run fuel false tree builder b first m r h
    rw [normalized_leaf_size_pos m hm] at hrun
    obtain ⟨_, _, new, hnew, hperm⟩ := Run_partition hb hrun
      (by simp [start_builder])
    simp only [List.nil_append] at hnew
    rw [← hnew] at hperm
    have hp := hperm.trans hroot
    have hlast : r.trace.getLast? = some (Event.reorder_n idx') := by
      rw [ht]
      simp only [Bool.false_eq_true, if_false]
      exact List.getLast?_concat _
    refine ⟨idx', hlast, hp, by rw [hp.length_eq, List.length_range], ?_, ?_⟩
    · intro i hi
      rw [hp.count_eq]
      exact List.count_eq_one_of_mem (List.nodup_range _) (List.mem_range.2 hi)
    · intro i hi
      exact List.mem_range.1 (hp.subset hi)

/-- Witness for C8: six primitives, leaf size 2, a Builder that halves ranges. -/
theorem build_top_down_soup_permutation_witness :
    (∃ r, detail.build_top_down 10 false (⟨[], [], List.range 6⟩ : Tree (Nat × Nat) Nat)
        median_builder ⟨true, ()⟩ (List.range 6) 2 = Except.ok r) ∧
    detail.build_top_down 10 false (⟨[], [], List.range 6⟩ : Tree (Nat × Nat) Nat)
        median_builder ⟨true, ()⟩ (List.range 6) 2 ≠
      Except.error BuildError.assertion_failed ∧
    ∀ r, detail.build_top_down 10 false (⟨[], [], List.range 6⟩ : Tree (Nat × Nat) Nat)
        median_builder ⟨true, ()⟩ (List.range 6) 2 = Except.ok r →
      ∃ p, r.trace.getLast? = some (Event.reorder_n p) ∧
        p.Perm (List.range (List.range 6).length) ∧ p.length = (List.range 6).length ∧
        (∀ i, i < (List.range 6).length → p.count i = 1) ∧
        (∀ i, i ∈ p → i < (List.range 6).length) :=
  ⟨⟨_, rfl⟩, build_top_down_soup_permutation 10 ⟨[], [], List.range 6⟩ median_builder
    ⟨true, ()⟩ (List.range 6) 2 (by decide)
    (fun leaf => List.range' leaf.first (leaf.last - leaf.first))
    (median_builder_partitions _ _ _)
    (by
      simp only [median_builder, List.length_range, Nat.sub_zero]
      rw [List.range_eq_range'])
    (by simp)⟩

/-! ## Theorems on the multi-hit `update_if` and `is_closer` -/

theorem is_closer_loop_lane {W : Nat} {HR T : Type}
    (single : Packet W HR → Packet W HR → Packet W T → Packet W T → Mask W)
    (query : Packet W HR) (tmin tmax : Packet W T) :
    ∀ (reference : List (Packet W HR)) (result : Mask W) (l : Fin W),
      is_closer_loop single query tmin tmax reference result l =
        (result l || reference.any (fun e => single query e tmin tmax l)) := by
  intro reference
  induction reference with
  | nil => intro result l; simp [is_closer_loop]
  | cons e rest ih =>
    intro result l
    simp only [is_closer_loop, List.any_cons]
    by_cases hall : simd.all (fun l => result l || single query e tmin tmax l) = true
    · rw [if_pos hall]
      have := (simd_all_eq_true _).1 hall l
      simp only at this
      rw [← Bool.or_assoc, this, Bool.true_or]
    · rw [if_neg hall, ih, Bool.or_assoc]

/-- C16: multi-vs-multi `update_if`, fast path: if the existing accumulator (of at least
one entry) has no valid entry in any lane, the call returns the candidate sequence, entry
for entry and lane for lane. -/
theorem update_if_multi_fast_path {W : Nat} {T P : Type} [LinearOrder T]
    (dst src : List (Packet W (HitRecord T P)))
    (cond : Packet W (HitRecord T P) → Packet W (HitRecord T P) → Mask W)
    (hK : 0 < dst.length) (hinvalid : ∀ e ∈ dst, ∀ l, (e l).hit = false) :
    update_if_multi dst src cond = some src := by
  have h0 : dst[0]? = some dst[0] := List.getElem?_eq_getElem hK
  have hany : simd.any (fun l => (dst[0] l).hit) = false := by
    rw [simd_any_eq_false]
    intro l
    exact hinvalid _ (List.getElem_mem hK) l
  simp [update_if_multi, h0, hany]

/-- Witness for C16: two lanes, capacity 2. -/
theorem update_if_multi_fast_path_witness :
    update_if_multi [hit2 none none, hit2 none none]
      [hit2 (some 1) (some 4), hit2 (some 3) none] is_closer_t =
      some [hit2 (some 1) (some 4), hit2 (some 3) none] :=
  update_if_multi_fast_path _ _ _ (by decide)
    (by
      intro e he l
      simp only [List.mem_cons, List.mem_singleton, List.not_mem_nil, or_false, or_self] at he
      subst he
      revert l
      decide)

theorem update_if_multi_loop_eq {W : Nat} {T P : Type} [LinearOrder T]
    (cond : Packet W (HitRecord T P) → Packet W (HitRecord T P) → Mask W) :
    ∀ (src dst : List (Packet W (HitRecord T P))),
      update_if_multi_loop dst src =
        apply_updates dst
          ((src.takeWhile (fun hr => simd.any (fun l => (hr l).hit))).map
            (fun hr => Update.single hr cond)) := by
  intro src
  induction src with
  | nil => intro dst; rfl
  | cons hr rest ih =>
    intro dst
    by_cases hany : simd.any (fun l => (hr l).hit) = true
    · simp only [update_if_multi_loop, hany, Bool.not_true, Bool.false_eq_true, if_false,
        List.takeWhile_cons, if_true, List.map_cons, apply_updates, apply_update, update_if]
      cases algo.insert_sorted hr dst is_closer_t with
      | none => rfl
      | some dst1 => exact ih dst1
    · simp [update_if_multi_loop, hany, List.takeWhile_cons, apply_updates]

/-- C17: multi-vs-multi `update_if`, slow path: if the existing accumulator satisfies the
invariant of a multi-hit record and has a valid entry in some lane, the result equals that
of the single-record `update_if` calls for the candidate's entries `c[0], c[1], ...` in
this order, up to but not including the first entry that carries no valid hit in any
lane. -/
theorem update_if_multi_slow_path {W : Nat} {T P : Type} [LinearOrder T]
    (dst src : List (Packet W (HitRecord T P)))
    (cond : Packet W (HitRecord T P) → Packet W (HitRecord T P) → Mask W)
    (hinv : ∀ l, SortedPrefix (laneOf l dst))
    (hvalid : ∃ e ∈ dst, ∃ l, (e l).hit = true) :
    update_if_multi dst src cond =
      apply_updates dst
        ((src.takeWhile (fun hr => simd.any (fun l => (hr l).hit))).map
          (fun hr => Update.single hr cond)) := by
  obtain ⟨e, he, l, hl⟩ := hvalid
  obtain ⟨j, hj⟩ := List.mem_iff_getElem?.1 he
  have hjlt : j < dst.length := lt_length_of_getElem? hj
  have hK : 0 < dst.length := by omega
  have h0 : dst[0]? = some dst[0] := List.getElem?_eq_getElem hK
  obtain ⟨v, _, hhit, _⟩ := hinv l
  have hjv : j < v := (hhit j (e l) (by rw [laneOf_getElem?, hj]; rfl)).1 hl
  have h0hit : (dst[0] l).hit = true :=
    (hhit 0 (dst[0] l) (by rw [laneOf_getElem?, h0]; rfl)).2 (by omega)
  have hany : simd.any (fun l => (dst[0] l).hit) = true :=
    (simd_any_eq_true _).2 ⟨l, h0hit⟩
  simp only [update_if_multi, h0, hany, Bool.not_true, Bool.false_eq_true, if_false]
  exact update_if_multi_loop_eq cond src dst

/-- Witness for C17: two lanes, capacity 2; the third entry of the candidate is not
reached. -/
theorem update_if_multi_slow_path_witness :
    update_if_multi [hit2 (some 2) none, hit2 none none]
        [hit2 (some 1) (some 4), hit2 none none, hit2 (some 3) none] is_closer_t =
      apply_updates [hit2 (some 2) none, hit2 none none]
        [Update.single (hit2 (some 1) (some 4)) is_closer_t] :=
  update_if_multi_slow_path [hit2 (some 2) none, hit2 none none]
    [hit2 (some 1) (some 4), hit2 none none, hit2 (some 3) none] is_closer_t
    (by
      intro l
      apply SortedPrefix_of_LaneInv
      revert l
      unfold LaneInv
      decide)
    ⟨hit2 (some 2) none, by simp, 0, by decide⟩

/-- C18: single-vs-multi `is_closer`, for a single-record `is_closer` that holds against
valid entries only: the result is true in lane `l` if and only if the query is closer than
at least one valid entry of `reference` in that lane; for a reference without a valid
entry in lane `l` it is false for every query; and for a reference with a single valid
entry in lane `l` it is the answer of the single-record comparison against that entry. -/
theorem is_closer_some_valid_entry {W : Nat} {T P : Type}
    (single : Packet W (HitRecord T P) → Packet W (HitRecord T P) →
      Packet W T → Packet W T → Mask W)
    (hvalid_only : ∀ q e tmin tmax l, single q e tmin tmax l = true → (e l).hit = true)
    (query : Packet W (HitRecord T P)) (reference : List (Packet W (HitRecord T P)))
    (tmin tmax : Packet W T) (l : Fin W) :
    (is_closer single query reference tmin tmax l = true ↔
      ∃ e ∈ reference, (e l).hit = true ∧ single query e tmin tmax l = true) ∧
    ((∀ e ∈ reference, (e l).hit = false) →
      is_closer single query reference tmin tmax l = false) ∧
    (∀ e4 ∈ reference, (∀ e ∈ reference, (e l).hit = true → e = e4) →
      is_closer single query reference tmin tmax l = single query e4 tmin tmax l) := by
  have hlane : is_closer single query reference tmin tmax l =
      reference.any (fun e => single query e tmin tmax l) := by
    unfold is_closer
    rw [is_closer_loop_lane]
    simp [simd.splat]
  have hiff : is_closer single query reference tmin tmax l = true ↔
      ∃ e ∈ reference, (e l).hit = true ∧ single query e tmin tmax l = true := by
    rw [hlane, List.any_eq_true]
    constructor
    · rintro ⟨e, he, hs⟩
      exact ⟨e, he, hvalid_only _ _ _ _ _ hs, hs⟩
    · rintro ⟨e, he, _, hs⟩
      exact ⟨e, he, hs⟩
  refine ⟨hiff, ?_, ?_⟩
  · intro hnone
    rw [← Bool.not_eq_true, hiff]
    rintro ⟨e, he, hhit, _⟩
    rw [hnone e he] at hhit
    cases hhit
  · intro e4 he4 honly
    cases hs : single query e4 tmin tmax l with
    | true => exact hiff.2 ⟨e4, he4, hvalid_only _ _ _ _ _ hs, hs⟩
    | false =>
      rw [← Bool.not_eq_true, hiff]
      rintro ⟨e, he, hhit, hse⟩
      rw [honly e he hhit, hs] at hse
      cases hse

theorem is_closer_single_valid_only {W : Nat} {T P : Type} [LinearOrder T]
    (q e : Packet W (HitRecord T P)) (tmin tmax : Packet W T) (l : Fin W)
    (h : is_closer_single q e tmin tmax l = true) : (e l).hit = true := by
  simp only [is_closer_single, Bool.and_eq_true] at h
  exact h.1.1.1.2

/-- Witness for C18: two lanes; lane 0 of the reference has its only valid entry at
distance 4, lane 1 has none; queries at distance 3 and at distance 5. -/
theorem is_closer_some_valid_entry_witness :
    is_closer is_closer_single (hit2 (some 3) (some 3)) [hit2 (some 4) none, hit2 none none]
        (fun _ => 0) (fun _ => 100) 0 = true ∧
    is_closer is_closer_single (hit2 (some 5) (some 5)) [hit2 (some 4) none, hit2 none none]
        (fun _ => 0) (fun _ => 100) 0 = false ∧
    is_closer is_closer_single (hit2 (some 3) (some 3)) [hit2 (some 4) none, hit2 none none]
        (fun _ => 0) (fun _ => 100) 1 = false :=
  ⟨((is_closer_some_valid_entry is_closer_single is_closer_single_valid_only
        (hit2 (some 3) (some 3)) [hit2 (some 4) none, hit2 none none]
        (fun _ => 0) (fun _ => 100) 0).2.2 (hit2 (some 4) none) (by simp)
        (by
          intro e he hhit
          simp only [List.mem_cons, List.mem_singleton, List.not_mem_nil, or_false] at he
          rcases he with rfl | rfl
          · rfl
          · revert hhit
            decide)).trans (by decide),
    ((is_closer_some_valid_entry is_closer_single is_closer_single_valid_only
        (hit2 (some 5) (some 5)) [hit2 (some 4) none, hit2 none none]
        (fun _ => 0) (fun _ => 100) 0).2.2 (hit2 (some 4) none) (by simp)
        (by
          intro e he hhit
          simp only [List.mem_cons, List.mem_singleton, List.not_mem_nil, or_false] at he
          rcases he with rfl | rfl
          · rfl
          · revert hhit
            decide)).trans (by decide),
    (is_closer_some_valid_entry is_closer_single is_closer_single_valid_only
        (hit2 (some 3) (some 3)) [hit2 (some 4) none, hit2 none none]
        (fun _ => 0) (fun _ => 100) 1).2.1
        (by
          intro e he
          simp only [List.mem_cons, List.mem_singleton, List.not_mem_nil, or_false] at he
          rcases he with rfl | rfl <;> decide)⟩

/-- C19: multi-vs-multi `is_closer` returns true in every lane, for every query, every
reference and every `tmin` and `tmax`; two calls with any arguments return the same
mask. -/
theorem is_closer_multi_always_true {W : Nat} {HR T : Type}
    (query reference query1 reference1 : List (Packet W HR))
    (tmin tmax tmin1 tmax1 : Packet W T) :
    (∀ l, is_closer_multi query reference tmin tmax l = true) ∧
    is_closer_multi query reference tmin tmax =
      is_closer_multi query1 reference1 tmin1 tmax1 :=
  ⟨fun _ => rfl, rfl⟩

theorem insert_dist_length {T : Type} [LinearOrder T] (d : T) (s : List T) :
    (insert_dist d s).length = s.length + 1 := by
  rw [(insert_dist_perm d s).length_eq]
  rfl

theorem validCount_eq_validDists {T P : Type} [LinearOrder T] (lane : List (HitRecord T P))
    (h : LaneInv lane) : validCount lane = (validDists lane).length := by
  simp only [validCount, validDists, List.length_map]
  rw [filter_eq_takeWhile_of_LaneInv lane h]

theorem update_if_multi_loop_total {W : Nat} {T P : Type} [LinearOrder T] (hW : 0 < W) :
    ∀ (src dst : List (Packet W (HitRecord T P))), 0 < dst.length →
      ∃ r, update_if_multi_loop dst src = some r ∧ r.length = dst.length := by
  intro src
  induction src with
  | nil => intro dst _; exact ⟨dst, rfl, rfl⟩
  | cons hr rest ih =>
    intro dst hK
    by_cases hany : simd.any (fun l => (hr l).hit) = true
    · obtain ⟨r1, _, hr1, hlen1, _, _⟩ := insert_sorted_spec hW is_closer_t hr dst hK
      obtain ⟨r, hr2, hlen2⟩ := ih r1 (by omega)
      refine ⟨r, ?_, by omega⟩
      simp only [update_if_multi_loop, hany, Bool.not_true, Bool.false_eq_true, if_false, hr1]
      exact hr2
    · exact ⟨dst, by simp [update_if_multi_loop, hany], rfl⟩

/-- C20: `update_if` never fails and never changes the capacity: on an accumulator of
`K ≥ 1` entries the single-record call returns an accumulator of `K` entries for every
candidate, and so does the multi-record call for every candidate of `K` entries; inserting
a candidate that is valid in lane `l` into a lane that satisfies the invariant and holds
`v` valid entries leaves `min K (v + 1)` valid entries; and a candidate that is closer than
no entry of lane `l` is dropped there: the call succeeds and lane `l` is unchanged. -/
theorem update_if_never_fails {W : Nat} {T P : Type} [LinearOrder T] (hW : 0 < W)
    (dst : List (Packet W (HitRecord T P))) (hK : 1 ≤ dst.length) :
    (∀ (src : Packet W (HitRecord T P))
        (cond : Packet W (HitRecord T P) → Packet W (HitRecord T P) → Mask W),
      ∃ r, update_if dst src cond = some r ∧ r.length = dst.length) ∧
    (∀ (src : List (Packet W (HitRecord T P)))
        (cond : Packet W (HitRecord T P) → Packet W (HitRecord T P) → Mask W),
      src.length = dst.length →
      ∃ r, update_if_multi dst src cond = some r ∧ r.length = dst.length) ∧
    (∀ (src : Packet W (HitRecord T P))
        (cond : Packet W (HitRecord T P) → Packet W (HitRecord T P) → Mask W) (l : Fin W),
      SortedPrefix (laneOf l dst) → (src l).hit = true →
      ∃ r, update_if dst src cond = some r ∧
        validCount (laneOf l r) = min dst.length (validCount (laneOf l dst) + 1)) ∧
    (∀ (src : Packet W (HitRecord T P))
        (cond : Packet W (HitRecord T P) → Packet W (HitRecord T P) → Mask W) (l : Fin W),
      (∀ e ∈ dst, is_closer_t src e l = false) →
      ∃ r, update_if dst src cond = some r ∧ laneOf l r = laneOf l dst) := by
  refine ⟨?_, ?_, ?_, ?_⟩
  · intro src cond
    obtain ⟨r, _, hr, hlen, _, _⟩ := insert_sorted_spec hW is_closer_t src dst (by omega)
    exact ⟨r, hr, hlen⟩
  · intro src cond hlen
    have h0 : dst[0]? = some dst[0] := List.getElem?_eq_getElem (by omega)
    by_cases hany : simd.any (fun l => (dst[0] l).hit) = true
    · obtain ⟨r, hr, hlen2⟩ := update_if_multi_loop_total hW src dst (by omega)
      refine ⟨r, ?_, hlen2⟩
      simp only [update_if_multi, h0, hany, Bool.not_true, Bool.false_eq_true, if_false]
      exact hr
    · exact ⟨src, by simp [update_if_multi, h0, hany], hlen⟩
  · intro src cond l hinv hhit
    obtain ⟨r, hr, hlen, hlane⟩ :=
      insert_sorted_lane hW is_closer_t closer is_closer_t_lane src dst (by omega)
    refine ⟨r, hr, ?_⟩
    have hinv1 := LaneInv_of_SortedPrefix _ hinv
    have hinv2 : LaneInv (laneOf l r) := by
      rw [hlane l]
      exact LaneInv_scalar_insert (src l) _ hinv1
    rw [validCount_eq_validDists _ hinv2, validCount_eq_validDists _ hinv1, hlane l,
      validDists_scalar_insert (src l) hhit, List.length_take, insert_dist_length,
      laneOf_length]
  · intro src cond l hnone
    obtain ⟨r, hr, hlen, hlane⟩ :=
      insert_sorted_lane hW is_closer_t closer is_closer_t_lane src dst (by omega)
    refine ⟨r, hr, ?_⟩
    rw [hlane l]
    apply scalar_insert_of_none
    intro j e _ hje
    rw [laneOf_getElem?] at hje
    cases hfj : dst[j]? with
    | none => rw [hfj] at hje; cases hje
    | some E =>
      rw [hfj] at hje
      simp only [Option.map_some', Option.some.injEq] at hje
      rw [← hje, ← is_closer_t_lane]
      exact hnone E (List.getElem?_mem hfj)

/-- Witness for C20: two lanes, capacity 2; lane 0 is full and takes the candidate at
distance 2, lane 1 is full with closer hits and drops the candidate at distance 9. -/
theorem update_if_never_fails_witness :
    (∃ r, update_if [hit2 (some 1) (some 3), hit2 (some 4) (some 5)]
        (hit2 (some 2) (some 9)) is_closer_t = some r ∧
      validCount (laneOf 0 r) =
        min 2 (validCount (laneOf 0 [hit2 (some 1) (some 3), hit2 (some 4) (some 5)]) + 1)) ∧
    (∃ r, update_if [hit2 (some 1) (some 3), hit2 (some 4) (some 5)]
        (hit2 (some 2) (some 9)) is_closer_t = some r ∧
      laneOf 1 r = laneOf 1 [hit2 (some 1) (some 3), hit2 (some 4) (some 5)]) :=
  ⟨(update_if_never_fails (by decide) [hit2 (some 1) (some 3), hit2 (some 4) (some 5)]
      (by decide)).2.2.1 (hit2 (some 2) (some 9)) is_closer_t 0
      (by
        apply SortedPrefix_of_LaneInv
        unfold LaneInv
        decide)
      (by decide),
    (update_if_never_fails (by decide) [hit2 (some 1) (some 3), hit2 (some 4) (some 5)]
      (by decide)).2.2.2 (hit2 (some 2) (some 9)) is_closer_t 1
      (by
        intro e he
        simp only [List.mem_cons, List.mem_singleton, List.not_mem_nil, or_false] at he
        rcases he with rfl | rfl <;> decide)⟩

/-! ## Theorems on the entry point and the soup-mode check -/

theorem Run_split_events {S LI Prim Bnd : Type} {builder : Builder S LI Prim Bnd}
    {data : List Prim} {m : Int}
    {index s : Nat} {b : BuilderState S} {idx : List Nat} {leaf : LI}
    {X : Node Bnd} {N : List (Node Bnd)} {b' : BuilderState S} {idx' : List Nat}
    {T : List Event}
    (h : Run builder data m index s b idx leaf X N b' idx' T) :
    ∀ i uss k res, Event.split i uss k res ∈ T → k = m := by
  induction h with
  | leaf index s b idx leaf b1 idx1 count b2 hsp hins =>
    intro i uss k res hmem
    simp only [List.mem_cons, List.mem_singleton, List.not_mem_nil, or_false] at hmem
    rcases hmem with h | h | h
    · cases h; rfl
    · cases h
    · cases h
  | inner index s b idx leaf c0 c1 b1 X1 N1 b2 idx2 T1 X0 N0 b3 idx3 T0 hsp h1 h0 ih1 ih0 =>
    intro i uss k res hmem
    simp only [List.mem_append, List.mem_cons, List.mem_singleton, List.not_mem_nil,
      or_false] at hmem
    rcases hmem with (((h | h | h | h) | h) | h)
    · cases h; rfl
    · cases h
    · cases h
    · cases h
    · exact ih1 i uss k res h
    · exact ih0 i uss k res h

theorem mem_root_trace_split (c : Int) (T : List Event) (tail : List Nat) (flag : Bool)
    (i : Nat) (uss : Bool) (k : Int) (res : Bool)
    (h : Event.split i uss k res ∈ [Event.init, Event.clear c, Event.emplace_back] ++ T ++
      (if flag then [] else [Event.reorder_n tail])) :
    Event.split i uss k res ∈ T := by
  cases flag <;>
    simp only [List.mem_append, List.mem_cons, List.mem_singleton, List.not_mem_nil,
      or_false, Bool.false_eq_true, if_false, if_true] at h
  · rcases h with ((h | h | h) | h) | h
    · cases h
    · cases h
    · cases h
    · exact h
    · cases h
  · rcases h with (h | h | h) | h
    · cases h
    · cases h
    · cases h
    · exact h

/-- C14: `build_top_down` normalises the leaf size: for every `max_leaf_size ≤ 0` the build
is the build with `max_leaf_size = 4` (so the build with the default `-1` is); the value
the driver works with is at least 1 and is `max_leaf_size` itself when that is positive;
whenever the build returns, every `split` call has received exactly this value, and the
capacity passed to `clear` is `2 * (count / value)` with this value as divisor. -/
theorem build_top_down_leaf_size {S LI Prim Bnd : Type} (fuel : Nat) (is_index_bvh : Bool)
    (tree : Tree Bnd Prim) (builder : Builder S LI Prim Bnd) (b : BuilderState S)
    (first : List Prim) (m : Int) :
    (m ≤ 0 → detail.build_top_down fuel is_index_bvh tree builder b first m =
      detail.build_top_down fuel is_index_bvh tree builder b first 4) ∧
    detail.build_top_down fuel is_index_bvh tree builder b first (-1) =
      detail.build_top_down fuel is_index_bvh tree builder b first 4 ∧
    1 ≤ detail.normalized_leaf_size m ∧
    (0 < m → detail.normalized_leaf_size m = m) ∧
    (m ≤ 0 → detail.normalized_leaf_size m = 4) ∧
    ∀ r, detail.build_top_down fuel is_index_bvh tree builder b first m = Except.ok r →
      (∀ i uss k res, Event.split i uss k res ∈ r.trace →
        k = detail.normalized_leaf_size m) ∧
      Event.clear (2 * ((first.length : Int).tdiv (detail.normalized_leaf_size m))) ∈
        r.trace := by
  have hnorm : ∀ k : Int, k ≤ 0 → detail.normalized_leaf_size k = 4 := by
    intro k hk
    unfold detail.normalized_leaf_size
    rw [if_pos hk]
  have h4 : detail.normalized_leaf_size 4 = 4 := normalized_leaf_size_pos 4 (by decide)
  refine ⟨?_, ?_, ?_, normalized_leaf_size_pos m, hnorm m, ?_⟩
  · intro hm
    rw [build_top_down_eq, build_top_down_eq, hnorm m hm, h4]
  · rw [build_top_down_eq, build_top_down_eq, hnorm (-1) (by decide), h4]
  · unfold detail.normalized_leaf_size
    split <;> omega
  · intro r h
    obtain ⟨X, N, T, b', idx', hrun, _, ht, _, _⟩ :=
      build_top_down_run fuel is_index_bvh tree builder b first m r h
    refine ⟨?_, ?_⟩
    · intro i uss k res hmem
      rw [ht] at hmem
      exact Run_split_events hrun i uss k res (mem_root_trace_split _ _ _ _ _ _ _ _ hmem)
    · rw [ht]
      simp

/-- Witness for C14: eight primitives, the default leaf size `-1`, a Builder that halves
ranges. -/
theorem build_top_down_leaf_size_witness :
    ∃ r, detail.build_top_down 10 true (⟨[], [], []⟩ : Tree (Nat × Nat) Nat) median_builder
        ⟨true, ()⟩ (List.range 8) (-1) = Except.ok r ∧
      (∀ i uss k res, Event.split i uss k res ∈ r.trace →
        k = detail.normalized_leaf_size (-1)) ∧
      Event.clear (2 * (((List.range 8).length : Int).tdiv
        (detail.normalized_leaf_size (-1)))) ∈ r.trace :=
  ⟨_, rfl, (build_top_down_leaf_size 10 true ⟨[], [], []⟩ median_builder ⟨true, ()⟩
    (List.range 8) (-1)).2.2.2.2.2 _ rfl⟩

theorem build_top_down_soup_eq {S LI Prim Bnd : Type} (fuel : Nat)
    (tree : Tree Bnd Prim) (builder : Builder S LI Prim Bnd) (b : BuilderState S)
    (first : List Prim) (m : Int) (st : BuildState S Bnd)
    (hst : detail.build_top_down_impl builder first (detail.normalized_leaf_size m) fuel 0
      (start_state builder b first m false) (builder.init b first).1 = Except.ok st) :
    detail.build_top_down fuel false tree builder b first m =
      if st.indices.length = tree.primitives.length then
        Except.ok
          { tree :=
              { nodes := st.nodes
                indices := []
                primitives := algo.reorder_n st.indices tree.primitives st.indices.length }
            builder := { st.builder with
              use_spatial_splits := (builder.init b first).2.use_spatial_splits }
            trace := st.trace ++ [Event.reorder_n st.indices] }
      else Except.error BuildError.assertion_failed := by
  rw [build_top_down_eq]
  unfold detail.build_top_down_work
  simp only [start_state, start_builder, Bool.false_eq_true, if_false] at hst ⊢
  rw [hst]

/-- Counterexample for C12: two primitives and a Builder that collects the index sequence
`[0, 0]`, which has the right length, repeats the index 0 and misses the index 1: the build
returns, the sequence is handed to the reorder step, and the primitives are reordered to
two copies of the first one. -/
theorem build_top_down_soup_repeated_index :
    ¬ ([0, 0] : List Nat).Perm (List.range 2) ∧
    ∃ r, detail.build_top_down 1 false (⟨[], [], [10, 20]⟩ : Tree Unit Nat) repeat_builder
        ⟨false, ()⟩ [10, 20] 4 = Except.ok r ∧
      r.trace.getLast? = some (Event.reorder_n [0, 0]) ∧
      r.tree.primitives = [10, 10] :=
  ⟨by decide, _, rfl, rfl, rfl⟩

/-- C12, amended: in soup-mode, once the construction has returned with the index sequence
`p`, the build fails at the post-construction check if and only if the length of `p`
differs from the number of primitives; every sequence of the right length passes the check
and is handed to the reorder step, whatever indices it holds. -/
theorem build_top_down_soup_length_check {S LI Prim Bnd : Type} (fuel : Nat)
    (tree : Tree Bnd Prim) (builder : Builder S LI Prim Bnd) (b : BuilderState S)
    (first : List Prim) (m : Int) (st : BuildState S Bnd)
    (hst : detail.build_top_down_impl builder first (detail.normalized_leaf_size m) fuel 0
      (start_state builder b first m false) (builder.init b first).1 = Except.ok st) :
    (detail.build_top_down fuel false tree builder b first m =
        Except.error BuildError.assertion_failed ↔
      st.indices.length ≠ tree.primitives.length) ∧
    (st.indices.length = tree.primitives.length →
      ∃ r, detail.build_top_down fuel false tree builder b first m = Except.ok r ∧
        r.trace.getLast? = some (Event.reorder_n st.indices)) := by
  rw [build_top_down_soup_eq fuel tree builder b first m st hst]
  by_cases hlen : st.indices.length = tree.primitives.length
  · rw [if_pos hlen]
    refine ⟨⟨fun h => Except.noConfusion h, fun h => absurd hlen h⟩, fun _ => ⟨_, rfl, ?_⟩⟩
    exact List.getLast?_concat _
  · rw [if_neg hlen]
    exact ⟨⟨fun _ => hlen, fun _ => rfl⟩, fun h => absurd h hlen⟩

/-- Witness for C12, amended: the Builder that repeats the index 0, with two primitives in
the range and three in the tree. -/
theorem build_top_down_soup_length_check_witness :
    (detail.build_top_down 1 false (⟨[], [], [10, 20, 30]⟩ : Tree Unit Nat) repeat_builder
        ⟨false, ()⟩ [10, 20] 4 = Except.error BuildError.assertion_failed ↔
      ([0, 0] : List Nat).length ≠ [10, 20, 30].length) ∧
    (([0, 0] : List Nat).length = [10, 20, 30].length →
      ∃ r, detail.build_top_down 1 false (⟨[], [], [10, 20, 30]⟩ : Tree Unit Nat)
          repeat_builder ⟨false, ()⟩ [10, 20] 4 = Except.ok r ∧
        r.trace.getLast? = some (Event.reorder_n [0, 0])) :=
  build_top_down_soup_length_check 1 ⟨[], [], [10, 20, 30]⟩ repeat_builder ⟨false, ()⟩
    [10, 20] 4 _ rfl

/-- C13: in soup-mode, once the construction has returned with the index sequence `p`, the
reorder step is reached if and only if the length of `p` equals the number of primitives:
then the build returns with the primitives reordered by `p`; otherwise the build stops
with a failed assertion and returns no tree. -/
theorem build_top_down_soup_reorder_reached {S LI Prim Bnd : Type} (fuel : Nat)
    (tree : Tree Bnd Prim) (builder : Builder S LI Prim Bnd) (b : BuilderState S)
    (first : List Prim) (m : Int) (st : BuildState S Bnd)
    (hst : detail.build_top_down_impl builder first (detail.normalized_leaf_size m) fuel 0
      (start_state builder b first m false) (builder.init b first).1 = Except.ok st) :
    ((∃ r, detail.build_top_down fuel false tree builder b first m = Except.ok r ∧
        Event.reorder_n st.indices ∈ r.trace) ↔
      st.indices.length = tree.primitives.length) ∧
    (st.indices.length = tree.primitives.length →
      ∃ r, detail.build_top_down fuel false tree builder b first m = Except.ok r ∧
        r.tree.primitives =
          algo.reorder_n st.indices tree.primitives tree.primitives.length ∧
        r.trace = st.trace ++ [Event.reorder_n st.indices]) ∧
    (st.indices.length ≠ tree.primitives.length →
      detail.build_top_down fuel false tree builder b first m =
        Except.error BuildError.assertion_failed) := by
  rw [build_top_down_soup_eq fuel tree builder b first m st hst]
  by_cases hlen : st.indices.length = tree.primitives.length
  · rw [if_pos hlen]
    refine ⟨⟨fun _ => hlen, fun _ => ⟨_, rfl, by simp⟩⟩, fun _ => ⟨_, rfl, ?_, rfl⟩,
      fun h => absurd hlen h⟩
    simp only [hlen]
  · rw [if_neg hlen]
    refine ⟨⟨?_, fun h => absurd h hlen⟩, fun h => absurd h hlen, fun _ => rfl⟩
    rintro ⟨r, hr, _⟩
    cases hr

/-- Witness for C13: the Builder that halves ranges, four primitives in the range and
three in the tree: the assertion fails. -/
theorem build_top_down_soup_reorder_reached_witness :
    detail.build_top_down 10 false (⟨[], [], List.range 3⟩ : Tree (Nat × Nat) Nat)
        median_builder ⟨true, ()⟩ (List.range 4) 2 =
      Except.error BuildError.assertion_failed :=
  (build_top_down_soup_reorder_reached 10 ⟨[], [], List.range 3⟩ median_builder ⟨true, ()⟩
    (List.range 4) 2 _ rfl).2.2 (by decide)

/-! ## Theorems on the reordered primitives -/

theorem filterMap_range_getElem? {β : Type} (g : Nat → Option β) (p : List Nat) :
    (List.range p.length).filterMap (fun i => (p[i]?).bind g) = p.filterMap g := by
  induction p using List.reverseRecOn with
  | nil => rfl
  | append_singleton q a ih =>
    rw [List.length_append, List.length_singleton, List.range_succ, List.filterMap_append,
      List.filterMap_append]
    congr 1
    · rw [← ih]
      apply List.filterMap_congr
      intro i hi
      rw [List.getElem?_append_left (List.mem_range.1 hi)]
    · have e : (q ++ [a])[q.length]? = some a := by
        rw [List.getElem?_append_right (Nat.le_refl _), Nat.sub_self]
        rfl
      simp only [List.filterMap_cons, List.filterMap_nil, e, Option.some_bind]

theorem filterMap_getElem?_of_all {β : Type} (g : Nat → Option β) :
    ∀ (p : List Nat), (∀ j ∈ p, ∃ x, g j = some x) →
      ∀ i : Nat, (p.filterMap g)[i]? = (p[i]?).bind g := by
  intro p
  induction p with
  | nil => intro _ i; simp
  | cons a q ih =>
    intro hall i
    obtain ⟨x, hx⟩ := hall a (List.mem_cons_self _ _)
    rw [List.filterMap_cons_some hx]
    rcases i with _ | i
    · simp [hx]
    · simp only [List.getElem?_cons_succ]
      exact ih (fun j hj => hall j (List.mem_cons_of_mem _ hj)) i

theorem filterMap_take_of_all {β : Type} (g : Nat → Option β) :
    ∀ (p : List Nat), (∀ j ∈ p, ∃ x, g j = some x) →
      ∀ c, (p.filterMap g).take c = (p.take c).filterMap g := by
  intro p
  induction p with
  | nil => intro _ c; simp
  | cons a q ih =>
    intro hall c
    obtain ⟨x, hx⟩ := hall a (List.mem_cons_self _ _)
    rcases c with _ | c
    · simp
    · rw [List.filterMap_cons_some hx, List.take_succ_cons, List.take_succ_cons,
        List.filterMap_cons_some hx, ih (fun j hj => hall j (List.mem_cons_of_mem _ hj)) c]

theorem filterMap_drop_of_all {β : Type} (g : Nat → Option β) :
    ∀ (p : List Nat), (∀ j ∈ p, ∃ x, g j = some x) →
      ∀ f, (p.filterMap g).drop f = (p.drop f).filterMap g := by
  intro p
  induction p with
  | nil => intro _ f; simp
  | cons a q ih =>
    intro hall f
    obtain ⟨x, hx⟩ := hall a (List.mem_cons_self _ _)
    rcases f with _ | f
    · simp
    · rw [List.filterMap_cons_some hx, List.drop_succ_cons, List.drop_succ_cons,
        ih (fun j hj => hall j (List.mem_cons_of_mem _ hj)) f]

theorem reorder_n_eq {Prim : Type} (p : List Nat) (primitives : List Prim)
    (hlen : p.length = primitives.length) :
    algo.reorder_n p primitives p.length = p.filterMap (fun j : Nat => primitives[j]?) := by
  unfold algo.reorder_n
  rw [filterMap_range_getElem?, hlen, List.drop_length, List.append_nil]

/-- Leaves of a block, for a Builder that keeps the contract `Partitions`: the range of
every leaf lies inside of the part of the index sequence that the call has appended, and
the indices in this range are those that `insert_indices` has appended for the leaf info
from which the leaf was made. -/
theorem Run_leaf_segments {S LI Prim Bnd : Type} {builder : Builder S LI Prim Bnd}
    {data : List Prim} {m : Int} {Good : BuilderState S → Prop} {prims_of : LI → List Nat}
    (hb : Partitions builder data m Good prims_of)
    {index s : Nat} {b : BuilderState S} {idx : List Nat} {leaf : LI}
    {X : Node Bnd} {N : List (Node Bnd)} {b' : BuilderState S} {idx' : List Nat}
    {T : List Event}
    (h : Run builder data m index s b idx leaf X N b' idx' T) (hg : Good b)
    (hi : index < s) :
    ∀ (j : Nat) (bnd : Bnd) (f c : Nat),
      lookup index s X N j = some (Node.leaf bnd f c) →
      idx.length ≤ f ∧ f + c ≤ idx'.length ∧
      ∃ li b1 b2,
        builder.insert_indices b1 (idx'.take f) li = ((idx'.take (f + c), c), b2) ∧
        bnd = builder.prim_bounds li ∧ ((idx'.drop f).take c).Perm (prims_of li) := by
  induction h with
  | leaf index s b idx leaf b1 idx1 count b2 hsp hins =>
    intro j bnd f c hl
    have hg1 := hb.split_none _ _ _ hg hsp
    obtain ⟨⟨new, h1, h2, h3⟩, _⟩ := hb.insert _ _ _ _ _ _ hg1 hins
    unfold lookup at hl
    split at hl
    · simp only [Option.some.injEq, Node.leaf.injEq] at hl
      obtain ⟨hbnd, hf, hc⟩ := hl
      subst hbnd hf hc h1
      refine ⟨Nat.le_refl _, by rw [List.length_append, h3], leaf, b1, b2, ?_, rfl, ?_⟩
      · rw [List.take_left, List.take_of_length_le (by rw [List.length_append, h3])]
        exact hins
      · rw [List.drop_left, List.take_of_length_le (by rw [h3])]
        exact h2
    · split at hl <;> simp at hl
  | inner index s b idx leaf c0 c1 b1 X1 N1 b2 idx2 T1 X0 N0 b3 idx3 T0 hsp h1 h0 ih1 ih0 =>
    intro j bnd f c hl
    obtain ⟨_, hg1⟩ := hb.split_some _ _ _ _ _ hg hsp
    obtain ⟨hg2, _, new1, hn1, _⟩ := Run_partition hb h1 hg1
    obtain ⟨_, _, new0, hn0, _⟩ := Run_partition hb h0 hg2
    rw [lookup_inner index s hi] at hl
    rcases hl with ⟨_, hX⟩ | hl | hl
    · cases hX
    · obtain ⟨ha, hb2, li, bx, by2, hcall, hbnd, hperm⟩ := ih1 hg1 (by omega) j bnd f c hl
      refine ⟨ha, by rw [hn0, List.length_append]; omega, li, bx, by2, ?_, hbnd, ?_⟩
      · rw [hn0, List.take_append_of_le_length (by omega),
          List.take_append_of_le_length (by omega)]
        exact hcall
      · rw [hn0, List.drop_append_of_le_length (by omega),
          List.take_append_of_le_length (by rw [List.length_drop]; omega)]
        exact hperm
    · obtain ⟨ha, hb2, li, bx, by2, hcall, hbnd, hperm⟩ := ih0 hg2 (by omega) j bnd f c hl
      refine ⟨?_, hb2, li, bx, by2, hcall, hbnd, hperm⟩
      rw [hn1, List.length_append] at ha
      omega

/-- C11: soup-mode, `max_leaf_size > 0`, and a Builder whose root leaf info holds the
primitives `0, ..., n - 1` and which keeps the partition contract while spatial splits are
disabled: whenever `build_top_down` returns, the index sequence `p` handed to the reorder
step has the length of the primitive storage, position `i` of the new storage holds the
primitive that was at position `p[i]`, and for every leaf node with range `(first, count)`
the range lies inside of the storage, `p` restricted to the range is what `insert_indices`
appended for the leaf info of that leaf (a permutation of its primitives), and the storage
restricted to the range holds the primitives with these indices. -/
theorem build_top_down_soup_reorder {S LI Prim Bnd : Type} (fuel : Nat)
    (tree : Tree Bnd Prim) (builder : Builder S LI Prim Bnd) (b : BuilderState S)
    (first : List Prim) (m : Int) (hm : 0 < m) (prims_of : LI → List Nat)
    (hb : Partitions builder first m (fun b => b.use_spatial_splits = false) prims_of)
    (hroot : (prims_of (builder.init b first).1).Perm (List.range first.length))
    (r : detail.BuildResult S Bnd Prim)
    (h : detail.build_top_down fuel false tree builder b first m = Except.ok r) :
    ∃ p, r.trace.getLast? = some (Event.reorder_n p) ∧
      p.length = tree.primitives.length ∧
      r.tree.primitives.length = tree.primitives.length ∧
      (∀ i : Nat, r.tree.primitives[i]? =
        (p[i]?).bind (fun j : Nat => tree.primitives[j]?)) ∧
      ∀ (j : Nat) (bnd : Bnd) (f c : Nat),
        r.tree.nodes[j]? = some (Node.leaf bnd f c) →
        f + c ≤ p.length ∧
        (∃ li b1 b2,
          builder.insert_indices b1 (p.take f) li = ((p.take (f + c), c), b2) ∧
          bnd = builder.prim_bounds li ∧ ((p.drop f).take c).Perm (prims_of li)) ∧
        (r.tree.primitives.drop f).take c =
          ((p.drop f).take c).filterMap (fun k : Nat => tree.primitives[k]?) := by
  obtain ⟨X, N, T, b', idx', hrun, hn, ht, _, hsoup⟩ :=
    build_top_down_run fuel false tree builder b first m r h
  obtain ⟨hlen, hprims, _⟩ := hsoup rfl
  rw [normalized_leaf_size_pos m hm] at hrun
  have hgood : (start_builder builder b first false).use_spatial_splits = false := by
    simp [start_builder]
  obtain ⟨_, _, new, hnew, hperm⟩ := Run_partition hb hrun hgood
  simp only [List.nil_append] at hnew
  rw [← hnew] at hperm
  have hp := hperm.trans hroot
  have hall : ∀ j ∈ idx', ∃ x, tree.primitives[j]? = some x := by
    intro j hj
    have hjlt : j < first.length := List.mem_range.1 (hp.subset hj)
    have hfl : first.length = tree.primitives.length := by
      rw [← hlen, hp.length_eq, List.length_range]
    exact ⟨_, List.getElem?_eq_getElem (by omega)⟩
  have hre : r.tree.primitives = idx'.filterMap (fun j => tree.primitives[j]?) := by
    rw [hprims]
    exact reorder_n_eq idx' tree.primitives hlen
  have hget := filterMap_getElem?_of_all (fun j => tree.primitives[j]?) idx' hall
  refine ⟨idx', ?_, hlen, ?_, ?_, ?_⟩
  · rw [ht]
    simp only [Bool.false_eq_true, if_false]
    exact List.getLast?_concat _
  · rw [hre, ← hlen]
    apply Nat.le_antisymm (List.length_filterMap_le _ _)
    by_contra hcon
    have hlt : (idx'.filterMap (fun j => tree.primitives[j]?)).length < idx'.length := by
      omega
    have h1 := hget (idx'.filterMap (fun j => tree.primitives[j]?)).length
    rw [List.getElem?_eq_none (Nat.le_refl _), List.getElem?_eq_getElem hlt] at h1
    obtain ⟨x, hx⟩ := hall _ (List.getElem_mem hlt)
    simp only [Option.some_bind, hx] at h1
    cases h1
  · intro i
    rw [hre]
    exact hget i
  · intro j bnd f c hj
    rw [hn, ← lookup_root] at hj
    obtain ⟨_, hfc, hex⟩ := Run_leaf_segments hb hrun hgood (by omega) j bnd f c hj
    refine ⟨hfc, hex, ?_⟩
    rw [hre, filterMap_drop_of_all _ _ hall, filterMap_take_of_all]
    intro k hk
    exact hall k (List.mem_of_mem_drop hk)

/-- Witness for C11: six primitives, leaf size 2, a Builder that halves ranges. -/
theorem build_top_down_soup_reorder_witness :
    ∃ r, detail.build_top_down 10 false
        (⟨[], [], [10, 11, 12, 13, 14, 15]⟩ : Tree (Nat × Nat) Nat)
        median_builder ⟨true, ()⟩ [10, 11, 12, 13, 14, 15] 2 = Except.ok r ∧
      ∃ p, r.trace.getLast? = some (Event.reorder_n p) ∧
        p.length = 6 ∧
        r.tree.primitives.length = 6 ∧
        (∀ i : Nat, r.tree.primitives[i]? =
          (p[i]?).bind (fun j : Nat => [10, 11, 12, 13, 14, 15][j]?)) ∧
        ∀ (j : Nat) (bnd : Nat × Nat) (f c : Nat),
          r.tree.nodes[j]? = some (Node.leaf bnd f c) →
          f + c ≤ p.length ∧
          (∃ li b1 b2,
            median_builder.insert_indices b1 (p.take f) li = ((p.take (f + c), c), b2) ∧
            bnd = median_builder.prim_bounds li ∧
            ((p.drop f).take c).Perm (List.range' li.first (li.last - li.first))) ∧
          (r.tree.primitives.drop f).take c =
            ((p.drop f).take c).filterMap (fun k : Nat => [10, 11, 12, 13, 14, 15][k]?) :=
  ⟨_, rfl, build_top_down_soup_reorder 10 ⟨[], [], [10, 11, 12, 13, 14, 15]⟩ median_builder
    ⟨true, ()⟩ [10, 11, 12, 13, 14, 15] 2 (by decide)
    (fun leaf => List.range' leaf.first (leaf.last - leaf.first))
    (median_builder_partitions _ _ _)
    (by
      simp only [median_builder, List.length_cons, List.length_nil, Nat.sub_zero]
      rw [List.range_eq_range'])
    _ rfl⟩

/-! ## The comparator of `update_if` and the OR-reduction of `is_closer` -/

theorem is_closer_all_lane {W : Nat} {HR T : Type}
    (single : Packet W HR → Packet W HR → Packet W T → Packet W T → Mask W)
    (query : Packet W HR) (tmin tmax : Packet W T) :
    ∀ (reference : List (Packet W HR)) (result : Mask W) (l : Fin W),
      reference.foldl (fun result e => fun l => result l || single query e tmin tmax l)
          result l =
        (result l || reference.any (fun e => single query e tmin tmax l)) := by
  intro reference
  induction reference with
  | nil => intro result l; simp
  | cons e rest ih =>
    intro result l
    rw [List.foldl_cons, ih, List.any_cons, Bool.or_assoc]

/-- Counterexample for C29: with the comparator that never holds, `insert_sorted` leaves
the accumulator as it is, whereas `update_if`, handed the same comparator, stores the
candidate in the first slot. -/
theorem update_if_ignores_cond :
    (algo.insert_sorted (hit1 5) [miss1] never_closer).map
        (fun r => r.map (fun e => (e 0).hit)) = some [false] ∧
    (update_if [miss1] (hit1 5) never_closer).map
        (fun r => r.map (fun e => (e 0).hit)) = some [true] ∧
    update_if [miss1] (hit1 5) never_closer ≠
      algo.insert_sorted (hit1 5) [miss1] never_closer := by
  have h1 : (algo.insert_sorted (hit1 5) [miss1] never_closer).map
      (fun r => r.map (fun e => (e 0).hit)) = some [false] := by decide
  have h2 : (update_if [miss1] (hit1 5) never_closer).map
      (fun r => r.map (fun e => (e 0).hit)) = some [true] := by decide
  refine ⟨h1, h2, fun h => ?_⟩
  rw [h, h1] at h2
  exact absurd h2 (by decide)

/-- C29, amended: the single-record `update_if` does not use the comparator it is handed:
for every `cond` its result is that of `insert_sorted` with the closer-than comparator
`is_closer_t`, so that in every lane the candidate is placed at the first position whose
entry is invalid or farther than the candidate. -/
theorem update_if_uses_is_closer_t {W : Nat} {T P : Type} [LinearOrder T] (hW : 0 < W)
    (dst : List (Packet W (HitRecord T P))) (src : Packet W (HitRecord T P))
    (cond : Packet W (HitRecord T P) → Packet W (HitRecord T P) → Mask W)
    (hK : 0 < dst.length) :
    update_if dst src cond = algo.insert_sorted src dst is_closer_t ∧
    ∃ r, update_if dst src cond = some r ∧ r.length = dst.length ∧
      ∀ l, laneOf l r = scalar_insert closer (src l) (laneOf l dst) :=
  ⟨rfl, insert_sorted_lane hW is_closer_t closer is_closer_t_lane src dst hK⟩

theorem update_if_uses_is_closer_t_witness :
    update_if [miss1] (hit1 5) never_closer = algo.insert_sorted (hit1 5) [miss1] is_closer_t ∧
    ∃ r, update_if [miss1] (hit1 5) never_closer = some r ∧ r.length = [miss1].length ∧
      ∀ l, laneOf l r = scalar_insert closer (hit1 5 l) (laneOf l [miss1]) :=
  update_if_uses_is_closer_t (by decide) [miss1] (hit1 5) never_closer (by decide)

/-- C30: the single-vs-multi `is_closer` is, lane by lane, the OR over all entries of
`reference` of the single-record `is_closer(query, reference[i], tmin, tmax)`, and the
early stop changes nothing: the loop without it returns the same mask. -/
theorem is_closer_or_reduction {W : Nat} {HR T : Type}
    (single : Packet W HR → Packet W HR → Packet W T → Packet W T → Mask W)
    (query : Packet W HR) (reference : List (Packet W HR)) (tmin tmax : Packet W T) :
    (∀ l, is_closer single query reference tmin tmax l =
      reference.any (fun e => single query e tmin tmax l)) ∧
    is_closer single query reference tmin tmax =
      is_closer_all single query reference tmin tmax := by
  have h : ∀ l, is_closer single query reference tmin tmax l =
      reference.any (fun e => single query e tmin tmax l) := by
    intro l
    unfold is_closer
    rw [is_closer_loop_lane]
    simp [simd.splat]
  refine ⟨h, funext fun l => ?_⟩
  rw [h l]
  unfold is_closer_all
  rw [is_closer_all_lane]
  simp [simd.splat]

/-! ## One split step -/

/-- C25: one split step at node `index` with `s` slots in the Node Store, the Builder
splitting into `c0` and `c1`: before any recursive call the store has grown by the two
slots `s` and `s + 1`, node `index` is the inner node with the bounds of the leaf and first
child `s`, and the other slots are as before; the step is the call for `c1` at node
`s + 1` followed by the call for `c0` at node `s`, both indices being computed from the
size `s` before the first call; and when the step returns, node `index` is still that inner
node, node `s` carries the bounds of `c0` and node `s + 1` the bounds of `c1`. -/
theorem build_top_down_impl_split_step {S LI Prim Bnd : Type}
    (builder : Builder S LI Prim Bnd) (data : List Prim) (m : Int) (fuel index : Nat)
    (st : BuildState S Bnd) (leaf c0 c1 : LI) (b1 : BuilderState S)
    (hsp : builder.split st.builder leaf data m = (some (c0, c1), b1))
    (hidx : index < st.nodes.length) :
    (split_state builder m index st leaf b1).nodes.length = st.nodes.length + 2 ∧
    (split_state builder m index st leaf b1).nodes[index]? =
      some (Node.inner (builder.prim_bounds leaf) st.nodes.length) ∧
    (split_state builder m index st leaf b1).nodes[st.nodes.length]? = some Node.empty ∧
    (split_state builder m index st leaf b1).nodes[st.nodes.length + 1]? = some Node.empty ∧
    (∀ j : Nat, j < st.nodes.length → j ≠ index →
      (split_state builder m index st leaf b1).nodes[j]? = st.nodes[j]?) ∧
    detail.build_top_down_impl builder data m (fuel + 1) index st leaf =
      (match detail.build_top_down_impl builder data m fuel (st.nodes.length + 1)
          (split_state builder m index st leaf b1) c1 with
        | Except.error e => Except.error e
        | Except.ok st2 =>
          detail.build_top_down_impl builder data m fuel (st.nodes.length + 0) st2 c0) ∧
    ∀ st', detail.build_top_down_impl builder data m (fuel + 1) index st leaf =
        Except.ok st' →
      st.nodes.length + 2 ≤ st'.nodes.length ∧
      st'.nodes[index]? = some (Node.inner (builder.prim_bounds leaf) st.nodes.length) ∧
      (∃ X0, st'.nodes[st.nodes.length]? = some X0 ∧
        X0.bounds = some (builder.prim_bounds c0)) ∧
      (∃ X1, st'.nodes[st.nodes.length + 1]? = some X1 ∧
        X1.bounds = some (builder.prim_bounds c1)) := by
  have hlen : (st.nodes.set index
      (Node.inner (builder.prim_bounds leaf) st.nodes.length)).length = st.nodes.length :=
    List.length_set _ _ _
  refine ⟨?_, ?_, ?_, ?_, ?_, ?_, ?_⟩
  · simp [split_state]
  · simp only [split_state, List.append_assoc]
    rw [List.getElem?_append_left (by rw [hlen]; exact hidx)]
    rw [List.getElem?_set_self hidx]
  · simp only [split_state, List.append_assoc]
    rw [List.getElem?_append_right (by rw [hlen]), hlen, Nat.sub_self]
    rfl
  · simp only [split_state, List.append_assoc]
    rw [List.getElem?_append_right (by rw [hlen]; omega), hlen, Nat.add_sub_cancel_left]
    rfl
  · intro j hj hne
    simp only [split_state, List.append_assoc]
    rw [List.getElem?_append_left (by rw [hlen]; exact hj)]
    exact List.getElem?_set_ne (fun h => hne h.symm)
  · simp only [detail.build_top_down_impl, hsp, if_pos hidx, split_state]
  · intro st' hst'
    obtain ⟨_, X, N, T, hrun, hnodes, _⟩ :=
      build_top_down_impl_run builder data m (fuel + 1) index st leaf st' hst'
    cases hrun with
    | leaf _ _ _ _ _ b1' idx1 count b2 hsp' hins =>
      rw [hsp] at hsp'
      cases hsp'
    | inner _ _ _ _ _ c0' c1' b1' X1 N1 b2 idx2 T1 X0 N0 b3 idx3 T0 hsp' h1 h0 =>
      rw [hsp] at hsp'
      cases hsp'
      rw [hnodes]
      refine ⟨by simp, ?_, ⟨X0, ?_, (Run_counts h0).2.2.2.2.2⟩,
        ⟨X1, ?_, (Run_counts h1).2.2.2.2.2⟩⟩
      · rw [List.getElem?_append_left (by rw [hlen]; exact hidx)]
        rw [List.getElem?_set_self hidx]
      · rw [List.getElem?_append_right (by rw [hlen]), hlen, Nat.sub_self]
        rfl
      · rw [List.getElem?_append_right (by rw [hlen]; omega), hlen,
          Nat.add_sub_cancel_left]
        simp

theorem build_top_down_impl_split_step_witness :
    (split_state median_builder 4 0 ⟨[Node.empty], [], ⟨true, ()⟩, []⟩
      (⟨0, 8⟩ : RangeInfo) ⟨true, ()⟩).nodes.length = 1 + 2 ∧
    ∃ st', detail.build_top_down_impl median_builder (List.range 8) 4 2 0
        ⟨[Node.empty], [], ⟨true, ()⟩, []⟩ ⟨0, 8⟩ = Except.ok st' ∧
      st'.nodes[0]? = some (Node.inner (0, 8) 1) :=
  have h := build_top_down_impl_split_step median_builder (List.range 8) 4 1 0
    ⟨[Node.empty], [], ⟨true, ()⟩, []⟩ ⟨0, 8⟩ ⟨0, 4⟩ ⟨4, 8⟩ ⟨true, ()⟩ rfl (by decide)
  ⟨h.1, _, rfl, (h.2.2.2.2.2.2 _ rfl).2.1⟩

/-! ## The scenario of eight primitives -/

theorem build_top_down_impl_leaf_eq {S LI Prim Bnd : Type} (builder : Builder S LI Prim Bnd)
    (data : List Prim) (m : Int) (fuel index : Nat) (nodes : List (Node Bnd))
    (idx : List Nat) (b : BuilderState S) (tr : List Event) (leaf : LI)
    (b1 : BuilderState S) (idx1 : List Nat) (count : Nat) (b2 : BuilderState S)
    (hsp : builder.split b leaf data m = (none, b1))
    (hins : builder.insert_indices b1 idx leaf = ((idx1, count), b2))
    (hidx : index < nodes.length) :
    detail.build_top_down_impl builder data m (fuel + 1) index ⟨nodes, idx, b, tr⟩ leaf =
      Except.ok ⟨nodes.set index (Node.leaf (builder.prim_bounds leaf) idx.length count),
        idx1, b2,
        tr ++ [Event.split index b.use_spatial_splits m false, Event.insert_indices index,
          Event.set_leaf index idx.length count]⟩ := by
  simp only [detail.build_top_down_impl, hsp, hins, if_pos hidx]

theorem build_top_down_impl_split_eq {S LI Prim Bnd : Type} (builder : Builder S LI Prim Bnd)
    (data : List Prim) (m : Int) (fuel index : Nat) (nodes : List (Node Bnd))
    (idx : List Nat) (b : BuilderState S) (tr : List Event) (leaf c0 c1 : LI)
    (b1 : BuilderState S)
    (hsp : builder.split b leaf data m = (some (c0, c1), b1))
    (hidx : index < nodes.length) :
    detail.build_top_down_impl builder data m (fuel + 1) index ⟨nodes, idx, b, tr⟩ leaf =
      (match detail.build_top_down_impl builder data m fuel (nodes.length + 1)
          ⟨nodes.set index (Node.inner (builder.prim_bounds leaf) nodes.length)
              ++ [Node.empty] ++ [Node.empty], idx, b1,
            tr ++ [Event.split index b.use_spatial_splits m true,
              Event.set_inner index nodes.length, Event.emplace_back, Event.emplace_back]⟩
          c1 with
        | Except.error e => Except.error e
        | Except.ok st2 =>
          detail.build_top_down_impl builder data m fuel (nodes.length + 0) st2 c0) := by
  simp only [detail.build_top_down_impl, hsp, if_pos hidx]

/-- C22: eight primitives, `max_leaf_size = 4`, and a Builder that splits the root once, in
half by index (`c0` holds the primitives 0..3 and `c1` the primitives 4..7), and refuses to
split the halves: the build returns exactly three nodes, node 0 is inner with first child 1,
nodes 1 and 2 are leaves with count 4 each, and their ranges in the index sequence are
`[4, 8)` and `[0, 4)` (the second child is built first). -/
theorem build_top_down_eight_primitives {S LI Prim Bnd : Type} (fuel : Nat)
    (is_index_bvh : Bool) (tree : Tree Bnd Prim) (builder : Builder S LI Prim Bnd)
    (b : BuilderState S) (first : List Prim) (c0 c1 : LI)
    (b1 b2 b3 b4 b5 : BuilderState S)
    (_hn : first.length = 8) (hprims : tree.primitives.length = 8)
    (hroot : builder.split (start_builder builder b first is_index_bvh)
      (builder.init b first).1 first 4 = (some (c0, c1), b1))
    (hsplit1 : builder.split b1 c1 first 4 = (none, b2))
    (hins1 : builder.insert_indices b2 [] c1 = (([4, 5, 6, 7], 4), b3))
    (hsplit0 : builder.split b3 c0 first 4 = (none, b4))
    (hins0 : builder.insert_indices b4 [4, 5, 6, 7] c0 = (([4, 5, 6, 7, 0, 1, 2, 3], 4), b5)) :
    ∃ r, detail.build_top_down (fuel + 2) is_index_bvh tree builder b first 4 = Except.ok r ∧
      r.tree.nodes = [Node.inner (builder.prim_bounds (builder.init b first).1) 1,
        Node.leaf (builder.prim_bounds c0) 4 4, Node.leaf (builder.prim_bounds c1) 0 4] ∧
      r.tree.nodes.length = 3 ∧
      r.tree.nodes.map Node.range = [none, some (4, 4), some (0, 4)] ∧
      (is_index_bvh = true → r.tree.indices = [4, 5, 6, 7, 0, 1, 2, 3]) := by
  have himpl : ∀ (bs : BuilderState S) (tr : List Event),
      builder.split bs (builder.init b first).1 first 4 = (some (c0, c1), b1) →
      ∃ tr', detail.build_top_down_impl builder first 4 (fuel + 2) 0
        ⟨[Node.empty], [], bs, tr⟩ (builder.init b first).1 =
        Except.ok ⟨[Node.inner (builder.prim_bounds (builder.init b first).1) 1,
          Node.leaf (builder.prim_bounds c0) 4 4, Node.leaf (builder.prim_bounds c1) 0 4],
          [4, 5, 6, 7, 0, 1, 2, 3], b5, tr'⟩ := by
    intro bs tr hsp
    rw [build_top_down_impl_split_eq builder first 4 (fuel + 1) 0 [Node.empty] _ bs _ _ c0 c1
      b1 hsp (by simp)]
    rw [build_top_down_impl_leaf_eq builder first 4 fuel _ _ _ b1 _ c1 b2 _ _ b3 hsplit1 hins1
      (by simp)]
    dsimp only
    rw [build_top_down_impl_leaf_eq builder first 4 fuel _ _ _ b3 _ c0 b4 _ _ b5 hsplit0 hins0
      (by simp)]
    exact ⟨_, rfl⟩
  have hm : detail.normalized_leaf_size 4 = 4 := rfl
  rw [build_top_down_eq, hm]
  cases is_index_bvh with
  | true =>
    obtain ⟨tr', htr⟩ := himpl (builder.init b first).2 _ hroot
    simp only [detail.build_top_down_work, if_true]
    rw [htr]
    exact ⟨_, rfl, rfl, rfl, rfl, fun _ => rfl⟩
  | false =>
    obtain ⟨tr', htr⟩ :=
      himpl { (builder.init b first).2 with use_spatial_splits := false } _ hroot
    simp only [detail.build_top_down_work, Bool.false_eq_true, if_false]
    rw [htr]
    dsimp only
    rw [if_pos (by rw [hprims]; rfl)]
    exact ⟨_, rfl, rfl, rfl, rfl, fun h => absurd h (by simp)⟩

theorem build_top_down_eight_primitives_witness :
    ∃ r, detail.build_top_down (0 + 2) true (⟨[], [], List.range 8⟩ : Tree (Nat × Nat) Nat)
        median_builder ⟨true, ()⟩ (List.range 8) 4 = Except.ok r ∧
      r.tree.nodes = [Node.inner (0, 8) 1, Node.leaf (0, 4) 4 4, Node.leaf (4, 8) 0 4] ∧
      r.tree.nodes.length = 3 ∧
      r.tree.nodes.map Node.range = [none, some (4, 4), some (0, 4)] ∧
      (true = true → r.tree.indices = [4, 5, 6, 7, 0, 1, 2, 3]) :=
  build_top_down_eight_primitives 0 true ⟨[], [], List.range 8⟩ median_builder ⟨true, ()⟩
    (List.range 8) ⟨0, 4⟩ ⟨4, 8⟩ ⟨true, ()⟩ ⟨true, ()⟩ ⟨true, ()⟩ ⟨true, ()⟩ ⟨true, ()⟩
    rfl rfl rfl rfl rfl rfl rfl

/-! ## The early exits of `insert_sorted` -/

theorem insert_sorted_search_all_inactive {W : Nat} {HR : Type}
    (cond : Packet W HR → Packet W HR → Mask W)
    (item : Packet W HR) (first : List (Packet W HR)) :
    ∀ (n i : Nat) (pos : Packet W Nat) (active : Mask W), n + i ≤ first.length →
      (∀ l, active l = false) →
      algo.insert_sorted_search_all cond item first n i pos active = some (pos, active) := by
  intro n
  induction n with
  | zero => intro i pos active _ _; rfl
  | succ n ih =>
    intro i pos active hi hact
    obtain ⟨e, he⟩ : ∃ e, first[i]? = some e :=
      ⟨first[i], List.getElem?_eq_getElem (by omega)⟩
    have hpos : simd.select (fun l => cond item e l && active l) (simd.splat i) pos = pos := by
      funext l
      simp [simd.select, hact l]
    have hactive : simd.select (fun l => cond item e l && active l) (simd.splat false) active
        = active := by
      funext l
      simp [simd.select, hact l]
    simp only [algo.insert_sorted_search_all, he]
    rw [hpos, hactive]
    exact ih (i + 1) pos active (by omega) hact

theorem insert_sorted_search_all_eq {W : Nat} {HR : Type}
    (cond : Packet W HR → Packet W HR → Mask W)
    (item : Packet W HR) (first : List (Packet W HR)) :
    ∀ (n i : Nat) (pos : Packet W Nat) (active : Mask W), n + i ≤ first.length →
      algo.insert_sorted_search_all cond item first n i pos active =
        algo.insert_sorted_search cond item first n i pos active := by
  intro n
  induction n with
  | zero => intro i pos active _; rfl
  | succ n ih =>
    intro i pos active hi
    obtain ⟨e, he⟩ : ∃ e, first[i]? = some e :=
      ⟨first[i], List.getElem?_eq_getElem (by omega)⟩
    simp only [algo.insert_sorted_search_all, algo.insert_sorted_search, he]
    by_cases hany : simd.any (simd.select (fun l => cond item e l && active l)
        (simd.splat false) active) = true
    · simp only [hany, Bool.not_true, Bool.false_eq_true, if_false]
      exact ih (i + 1) _ _ (by omega)
    · simp only [hany, Bool.not_false, if_true]
      apply insert_sorted_search_all_inactive cond item first n (i + 1) _ _ (by omega)
      intro l
      by_contra hcon
      exact hany ((simd_any_eq_true _).2 ⟨l, by simpa using hcon⟩)

theorem insert_sorted_update_no_lane {W : Nat} {HR : Type} (hW : 0 < W)
    (first : List (Packet W HR)) (i : Nat) (condition : Mask W)
    (src : Option (Packet W HR)) (h : ∀ l, condition l = false) :
    algo.insert_sorted_update first i condition src = some first := by
  have hall : ¬ simd.all condition = true := by
    intro hall
    have := (simd_all_eq_true condition).1 hall ⟨0, hW⟩
    rw [h] at this
    exact Bool.noConfusion this
  have hany : ¬ simd.any condition = true := by
    intro hany
    obtain ⟨l, hl⟩ := (simd_any_eq_true condition).1 hany
    rw [h] at hl
    exact Bool.noConfusion hl
  simp only [algo.insert_sorted_update, if_neg hall, if_neg hany]

theorem insert_sorted_shift_all_no_lane {W : Nat} {HR : Type} (hW : 0 < W)
    (item : Packet W HR) (pos : Packet W Nat) :
    ∀ (n : Nat) (cur : List (Packet W HR)), (∀ l, n ≤ pos l) →
      algo.insert_sorted_shift_all item pos n cur = some cur := by
  intro n
  induction n with
  | zero => intro cur _; rfl
  | succ i ih =>
    intro cur hpos
    simp only [algo.insert_sorted_shift_all]
    rw [insert_sorted_update_no_lane hW cur i _ _
      (fun l => decide_eq_false (by have := hpos l; omega))]
    simp only
    rw [insert_sorted_update_no_lane hW cur i _ _
      (fun l => decide_eq_false (by have := hpos l; omega))]
    simp only
    exact ih cur (fun l => by have := hpos l; omega)

theorem insert_sorted_shift_no_lane {W : Nat} {HR : Type} (hW : 0 < W)
    (item : Packet W HR) (pos : Packet W Nat)
    (n : Nat) (cur : List (Packet W HR)) (hpos : ∀ l, n ≤ pos l) :
    algo.insert_sorted_shift item pos n cur = some cur := by
  cases n with
  | zero => rfl
  | succ i =>
    have hs : ∀ l, decide (i > pos l) = false :=
      fun l => decide_eq_false (by have := hpos l; omega)
    have hi : ∀ l, decide (i = pos l) = false :=
      fun l => decide_eq_false (by have := hpos l; omega)
    have hs1 : simd.any (fun l => decide (i > pos l)) = false := by
      rw [simd_any_eq_false]
      exact hs
    have hi1 : simd.any (fun l => decide (i = pos l)) = false := by
      rw [simd_any_eq_false]
      exact hi
    simp only [algo.insert_sorted_shift]
    rw [insert_sorted_update_no_lane hW cur i _ _ hs]
    simp only
    rw [insert_sorted_update_no_lane hW cur i _ _ hi]
    simp only [hs1, hi1, Bool.not_false, Bool.and_self, if_true]

theorem insert_sorted_shift_all_eq {W : Nat} {HR : Type} (hW : 0 < W)
    (item : Packet W HR) (pos : Packet W Nat) :
    ∀ (n : Nat) (cur : List (Packet W HR)),
      algo.insert_sorted_shift_all item pos n cur = algo.insert_sorted_shift item pos n cur := by
  intro n
  induction n with
  | zero => intro cur; rfl
  | succ i ih =>
    intro cur
    simp only [algo.insert_sorted_shift_all, algo.insert_sorted_shift]
    cases h1 : algo.insert_sorted_update cur i (fun l => decide (i > pos l))
        (if i = 0 then none else cur[i - 1]?) with
    | none => rfl
    | some first1 =>
      simp only
      cases h2 : algo.insert_sorted_update first1 i (fun l => decide (i = pos l))
          (some item) with
      | none => rfl
      | some first2 =>
        simp only
        by_cases hbreak : (!simd.any (fun l => decide (i > pos l)) &&
            !simd.any (fun l => decide (i = pos l))) = true
        · rw [if_pos hbreak]
          simp only [Bool.and_eq_true, Bool.not_eq_true', simd_any_eq_false] at hbreak
          apply insert_sorted_shift_all_no_lane hW
          intro l
          have h3 := hbreak.1 l
          have h4 := hbreak.2 l
          simp only [decide_eq_false_iff_not] at h3 h4
          omega
        · rw [if_neg hbreak]
          exact ih first2

/-- C28: for every range of length at least one (and at least one lane), the variant of
`insert_sorted` that scans all positions in the search loop and walks the shift loop from
`length - 1` down to 0 returns the same accumulator as the code with its two early exits,
and both do return one. -/
theorem insert_sorted_early_exits {W : Nat} {HR : Type} (hW : 0 < W)
    (cond : Packet W HR → Packet W HR → Mask W)
    (item : Packet W HR) (first : List (Packet W HR)) (hK : 1 ≤ first.length) :
    algo.insert_sorted_all item first cond = algo.insert_sorted item first cond ∧
    ∃ r, algo.insert_sorted item first cond = some r ∧ r.length = first.length := by
  obtain ⟨r, _, hr, hlen, _, _⟩ := insert_sorted_spec hW cond item first hK
  refine ⟨?_, r, hr, hlen⟩
  obtain ⟨pos, active, hsearch, hres⟩ :=
    insert_sorted_search_spec cond item first first.length 0
      (simd.splat first.length) (simd.splat true) (by omega)
      (fun l => ⟨fun _ => ⟨rfl, fun j e hj _ => absurd hj (Nat.not_lt_zero j)⟩,
        fun h => Bool.noConfusion h⟩)
  simp only [algo.insert_sorted_all, algo.insert_sorted]
  rw [insert_sorted_search_all_eq cond item first first.length 0 _ _ (by omega), hsearch]
  simp only
  rw [insert_sorted_shift_all_eq hW]
  by_cases hany : simd.any (fun l => !active l) = true
  · rw [if_pos hany]
  · rw [if_neg hany]
    have hpos : ∀ l, pos l = first.length := by
      intro l
      have hact : active l = true := by
        by_contra hcon
        exact hany ((simd_any_eq_true _).2 ⟨l, by simpa using hcon⟩)
      have := ((hres l).1 hact).1
      rw [cond_lane_length] at this
      exact this
    rw [insert_sorted_shift_no_lane hW item pos first.length first (fun l => by rw [hpos l]),
      insert_sorted_shift_no_lane hW item pos 1 first (fun l => by rw [hpos l]; exact hK)]

theorem insert_sorted_early_exits_witness :
    algo.insert_sorted_all (hit2 (some 4) none) [hit2 (some 3) (some 1), hit2 (some 5) none]
        is_closer_t =
      algo.insert_sorted (hit2 (some 4) none) [hit2 (some 3) (some 1), hit2 (some 5) none]
        is_closer_t ∧
    ∃ r, algo.insert_sorted (hit2 (some 4) none)
        [hit2 (some 3) (some 1), hit2 (some 5) none] is_closer_t = some r ∧
      r.length = [hit2 (some 3) (some 1), hit2 (some 5) none].length :=
  insert_sorted_early_exits (by decide) is_closer_t (hit2 (some 4) none)
    [hit2 (some 3) (some 1), hit2 (some 5) none] (by decide)

/-! ## The reordering is invertible -/

theorem inverse_permutation_length (p : List Nat) : (inverse_permutation p).length = p.length := by
  simp [inverse_permutation]

theorem inverse_permutation_getElem? (p : List Nat) (i : Nat) (hi : i < p.length) :
    (inverse_permutation p)[i]? = some (p.indexOf i) := by
  simp [inverse_permutation, List.getElem?_map, List.getElem?_range hi]

theorem length_filterMap_of_all {β : Type} (g : Nat → Option β) :
    ∀ (p : List Nat), (∀ j ∈ p, ∃ x, g j = some x) → (p.filterMap g).length = p.length := by
  intro p
  induction p with
  | nil => intro _; rfl
  | cons a p ih =>
    intro h
    obtain ⟨x, hx⟩ := h a (List.mem_cons_self a p)
    rw [List.filterMap_cons_some hx, List.length_cons, List.length_cons,
      ih (fun j hj => h j (List.mem_cons_of_mem a hj))]

/-- C24: for every permutation `p` of `[0, n)` and every primitive sequence of length `n`,
the inverse of `p` is again a permutation of `[0, n)`, it sends every `i` to the position at
which `p` holds `i`, and reordering by `p` and then by the inverse of `p` gives back the
original sequence. -/
theorem reorder_n_inverse {Prim : Type} (p : List Nat) (primitives : List Prim)
    (hp : p.Perm (List.range primitives.length)) :
    (inverse_permutation p).Perm (List.range primitives.length) ∧
    (∀ i : Nat, i < primitives.length →
      ((inverse_permutation p)[i]?).bind (fun j : Nat => p[j]?) = some i) ∧
    algo.reorder_n (inverse_permutation p)
      (algo.reorder_n p primitives primitives.length) primitives.length = primitives := by
  have hlen : p.length = primitives.length := by rw [hp.length_eq, List.length_range]
  have hmem : ∀ i, i < primitives.length → i ∈ p :=
    fun i hi => hp.symm.subset (List.mem_range.2 hi)
  have hlt : ∀ j ∈ p, j < primitives.length := fun j hj => List.mem_range.1 (hp.subset hj)
  have hqlen : (inverse_permutation p).length = primitives.length := by
    rw [inverse_permutation_length, hlen]
  have hq : ∀ i, i < primitives.length →
      (inverse_permutation p)[i]? = some (p.indexOf i) :=
    fun i hi => inverse_permutation_getElem? p i (by omega)
  have hqmem : ∀ j ∈ inverse_permutation p, j < primitives.length := by
    intro j hj
    obtain ⟨i, hi, rfl⟩ := List.mem_map.1 hj
    rw [← hlen]
    exact List.indexOf_lt_length.2 (hmem i (by rw [← hlen]; exact List.mem_range.1 hi))
  refine ⟨?_, ?_, ?_⟩
  · have hnd : (inverse_permutation p).Nodup := by
      unfold inverse_permutation
      apply List.Nodup.map_on _ (List.nodup_range _)
      intro a ha b hb hab
      have ha1 := hmem a (by rw [← hlen]; exact List.mem_range.1 ha)
      have hb1 := hmem b (by rw [← hlen]; exact List.mem_range.1 hb)
      have e1 := List.getElem?_indexOf ha1
      have e2 := List.getElem?_indexOf hb1
      rw [hab, e2] at e1
      exact (Option.some.inj e1).symm
    have hsub : inverse_permutation p ⊆ List.range primitives.length :=
      fun j hj => List.mem_range.2 (hqmem j hj)
    exact (List.subperm_of_subset hnd hsub).perm_of_length_le
      (by rw [hqlen, List.length_range])
  · intro i hi
    rw [hq i hi, Option.some_bind, List.getElem?_indexOf (hmem i hi)]
  · have hallp : ∀ j ∈ p, ∃ x, primitives[j]? = some x :=
      fun j hj => ⟨_, List.getElem?_eq_getElem (hlt j hj)⟩
    have hA : algo.reorder_n p primitives primitives.length =
        p.filterMap (fun j : Nat => primitives[j]?) := by
      have h := reorder_n_eq p primitives hlen
      rwa [hlen] at h
    rw [hA]
    have hAlen : (p.filterMap (fun j : Nat => primitives[j]?)).length = primitives.length := by
      rw [length_filterMap_of_all _ p hallp, hlen]
    have hAget := filterMap_getElem?_of_all (fun j : Nat => primitives[j]?) p hallp
    have hB : algo.reorder_n (inverse_permutation p)
        (p.filterMap (fun j : Nat => primitives[j]?)) primitives.length =
        (inverse_permutation p).filterMap
          (fun j : Nat => (p.filterMap (fun j : Nat => primitives[j]?))[j]?) := by
      have h := reorder_n_eq (inverse_permutation p)
        (p.filterMap (fun j : Nat => primitives[j]?)) (by rw [hqlen, hAlen])
      rwa [hqlen] at h
    rw [hB]
    have hallq : ∀ j ∈ inverse_permutation p,
        ∃ x, (p.filterMap (fun j : Nat => primitives[j]?))[j]? = some x :=
      fun j hj => ⟨_, List.getElem?_eq_getElem (by rw [hAlen]; exact hqmem j hj)⟩
    apply List.ext_getElem?
    intro i
    rw [filterMap_getElem?_of_all _ _ hallq]
    by_cases hi : i < primitives.length
    · rw [hq i hi, Option.some_bind, hAget, List.getElem?_indexOf (hmem i hi),
        Option.some_bind]
    · rw [List.getElem?_eq_none (by rw [hqlen]; omega), List.getElem?_eq_none (by omega)]
      rfl

theorem reorder_n_inverse_witness :
    (inverse_permutation [2, 0, 1]).Perm (List.range [10, 20, 30].length) ∧
    (∀ i : Nat, i < [10, 20, 30].length →
      ((inverse_permutation [2, 0, 1])[i]?).bind (fun j : Nat => [2, 0, 1][j]?) = some i) ∧
    algo.reorder_n (inverse_permutation [2, 0, 1])
      (algo.reorder_n [2, 0, 1] [10, 20, 30] [10, 20, 30].length) [10, 20, 30].length =
      [10, 20, 30] :=
  reorder_n_inverse [2, 0, 1] [10, 20, 30] (by decide)

/-! ## The calls to `split` and `insert_indices` -/

theorem perm_block (s : Nat) (L1 L0 : List Nat) (n1 n0 : Nat)
    (h1 : L1.Perm ((s + 1) :: List.range' (s + 2) n1))
    (h0 : L0.Perm (s :: List.range' (s + 2 + n1) n0)) :
    (L1 ++ L0).Perm (List.range' s (n1 + n0 + 1 + 1)) := by
  have hr : List.range' s (n1 + n0 + 1 + 1) =
      s :: (s + 1) :: (List.range' (s + 2) n1 ++ List.range' (s + 2 + n1) n0) := by
    rw [List.range'_succ, List.range'_succ]
    congr 2
    have := List.range'_append (s + 2) n1 n0 1
    simp only [Nat.one_mul] at this
    rw [this, Nat.add_comm n0 n1]
  rw [hr]
  refine (List.Perm.append h1 h0).trans ?_
  simp only [List.cons_append]
  exact (List.Perm.cons (s + 1) List.perm_middle).trans (List.Perm.swap s (s + 1) _)

theorem Run_split_once {S LI Prim Bnd : Type} {builder : Builder S LI Prim Bnd}
    {data : List Prim} {m : Int}
    {index s : Nat} {b : BuilderState S} {idx : List Nat} {leaf : LI}
    {X : Node Bnd} {N : List (Node Bnd)} {b' : BuilderState S} {idx' : List Nat}
    {T : List Event}
    (h : Run builder data m index s b idx leaf X N b' idx' T) :
    (T.filterMap Event.splitIndex).Perm (index :: List.range' s N.length) := by
  induction h with
  | leaf index s b idx leaf b1 idx1 count b2 hsp hins =>
    simp [Event.splitIndex]
  | inner index s b idx leaf c0 c1 b1 X1 N1 b2 idx2 T1 X0 N0 b3 idx3 T0 hsp h1 h0 ih1 ih0 =>
    have hfm : (([Event.split index b.use_spatial_splits m true, Event.set_inner index s,
        Event.emplace_back, Event.emplace_back] ++ T1 ++ T0).filterMap Event.splitIndex) =
        index :: (T1.filterMap Event.splitIndex ++ T0.filterMap Event.splitIndex) := by
      simp [List.filterMap_append, List.filterMap_cons, Event.splitIndex]
    rw [hfm]
    refine List.Perm.cons index ?_
    have hl : (X0 :: X1 :: (N1 ++ N0)).length = N1.length + N0.length + 1 + 1 := by
      simp only [List.length_cons, List.length_append]
    rw [hl]
    exact perm_block s _ _ N1.length N0.length ih1 ih0

theorem Run_split_result {S LI Prim Bnd : Type} {builder : Builder S LI Prim Bnd}
    {data : List Prim} {m : Int}
    {index s : Nat} {b : BuilderState S} {idx : List Nat} {leaf : LI}
    {X : Node Bnd} {N : List (Node Bnd)} {b' : BuilderState S} {idx' : List Nat}
    {T : List Event}
    (h : Run builder data m index s b idx leaf X N b' idx' T) (hi : index < s) :
    ∀ j uss k res, Event.split j uss k res ∈ T →
      ∃ node, lookup index s X N j = some node ∧ node.isLeaf = !res ∧ node.isInner = res := by
  induction h with
  | leaf index s b idx leaf b1 idx1 count b2 hsp hins =>
    intro j uss k res hmem
    simp only [List.mem_cons, List.mem_singleton, Event.split.injEq, List.not_mem_nil,
      or_false] at hmem
    rcases hmem with ⟨rfl, _, _, rfl⟩ | hmem | hmem
    · exact ⟨Node.leaf (builder.prim_bounds leaf) idx.length count, by simp [lookup], rfl, rfl⟩
    · cases hmem
    · cases hmem
  | inner index s b idx leaf c0 c1 b1 X1 N1 b2 idx2 T1 X0 N0 b3 idx3 T0 hsp h1 h0 ih1 ih0 =>
    intro j uss k res hmem
    simp only [List.mem_append, List.mem_cons, Event.split.injEq, List.not_mem_nil,
      or_false] at hmem
    rcases hmem with ((⟨rfl, _, _, rfl⟩ | hmem | hmem | hmem) | hmem) | hmem
    · exact ⟨Node.inner _ _, (lookup_inner j s hi _ X0 X1 N0 N1 j _).2 (Or.inl ⟨rfl, rfl⟩),
        rfl, rfl⟩
    · cases hmem
    · cases hmem
    · cases hmem
    · obtain ⟨node, hl, h2⟩ := ih1 (by omega) j uss k res hmem
      exact ⟨node, (lookup_inner index s hi _ X0 X1 N0 N1 j node).2 (Or.inr (Or.inl hl)), h2⟩
    · obtain ⟨node, hl, h2⟩ := ih0 (by omega) j uss k res hmem
      exact ⟨node, (lookup_inner index s hi _ X0 X1 N0 N1 j node).2 (Or.inr (Or.inr hl)), h2⟩

theorem Run_insert_refused {S LI Prim Bnd : Type} {builder : Builder S LI Prim Bnd}
    {data : List Prim} {m : Int}
    {index s : Nat} {b : BuilderState S} {idx : List Nat} {leaf : LI}
    {X : Node Bnd} {N : List (Node Bnd)} {b' : BuilderState S} {idx' : List Nat}
    {T : List Event}
    (h : Run builder data m index s b idx leaf X N b' idx' T) :
    T.filterMap Event.insertIndex = T.filterMap Event.refusedIndex := by
  induction h with
  | leaf index s b idx leaf b1 idx1 count b2 hsp hins =>
    simp [Event.insertIndex, Event.refusedIndex]
  | inner index s b idx leaf c0 c1 b1 X1 N1 b2 idx2 T1 X0 N0 b3 idx3 T0 hsp h1 h0 ih1 ih0 =>
    simp only [List.filterMap_append, ih1, ih0]
    simp [Event.insertIndex, Event.refusedIndex]

theorem count_refused_le_split (j : Nat) :
    ∀ T : List Event, (T.filterMap Event.refusedIndex).count j ≤
      (T.filterMap Event.splitIndex).count j := by
  intro T
  induction T with
  | nil => simp
  | cons e T ih =>
    cases e with
    | split i uss k res =>
      cases res with
      | true =>
        simp only [List.filterMap_cons, Event.refusedIndex, Event.splitIndex, List.count_cons]
        omega
      | false =>
        simp only [List.filterMap_cons, Event.refusedIndex, Event.splitIndex, List.count_cons]
        omega
    | _ => simpa [List.filterMap_cons, Event.refusedIndex, Event.splitIndex] using ih

theorem mem_filterMap_splitIndex (j : Nat) (T : List Event)
    (h : j ∈ T.filterMap Event.splitIndex) : ∃ uss k res, Event.split j uss k res ∈ T := by
  obtain ⟨e, he, hj⟩ := List.mem_filterMap.1 h
  cases e with
  | split i uss k res =>
    simp only [Event.splitIndex, Option.some.injEq] at hj
    subst hj
    exact ⟨uss, k, res, he⟩
  | _ => simp [Event.splitIndex] at hj

theorem mem_filterMap_refusedIndex (j : Nat) (T : List Event) :
    j ∈ T.filterMap Event.refusedIndex ↔ ∃ uss k, Event.split j uss k false ∈ T := by
  constructor
  · intro h
    obtain ⟨e, he, hj⟩ := List.mem_filterMap.1 h
    cases e with
    | split i uss k res =>
      cases res with
      | true => simp [Event.refusedIndex] at hj
      | false =>
        simp only [Event.refusedIndex, Option.some.injEq] at hj
        subst hj
        exact ⟨uss, k, he⟩
    | _ => simp [Event.refusedIndex] at hj
  · rintro ⟨uss, k, he⟩
    exact List.mem_filterMap.2 ⟨_, he, rfl⟩

theorem trace_filterMap_root (f : Event → Option Nat) (h1 : f Event.init = none)
    (h2 : ∀ c, f (Event.clear c) = none) (h3 : f Event.emplace_back = none)
    (h4 : ∀ t, f (Event.reorder_n t) = none)
    (c : Int) (T : List Event) (tail : List Nat) (flag : Bool) :
    (([Event.init, Event.clear c, Event.emplace_back] ++ T ++
      (if flag then [] else [Event.reorder_n tail])).filterMap f) = T.filterMap f := by
  cases flag <;> simp [List.filterMap_append, List.filterMap_cons, h1, h2, h3, h4]

/-- C26: whenever `build_top_down` returns, the driver has called `split` exactly once for
every node of the store; the node for which a call was made is a leaf if that call returned
`false` and an inner node if it returned `true`; the `insert_indices` calls are, in order,
for the nodes whose `split` returned `false`; hence `insert_indices` has been called exactly
once for every leaf and never for an inner node. -/
theorem build_top_down_split_calls {S LI Prim Bnd : Type} (fuel : Nat) (is_index_bvh : Bool)
    (tree : Tree Bnd Prim) (builder : Builder S LI Prim Bnd) (b : BuilderState S)
    (first : List Prim) (m : Int) (r : detail.BuildResult S Bnd Prim)
    (h : detail.build_top_down fuel is_index_bvh tree builder b first m = Except.ok r) :
    (r.trace.filterMap Event.splitIndex).Perm (List.range r.tree.nodes.length) ∧
    (∀ j uss k res, Event.split j uss k res ∈ r.trace →
      ∃ node, r.tree.nodes[j]? = some node ∧ node.isLeaf = !res ∧ node.isInner = res) ∧
    r.trace.filterMap Event.insertIndex = r.trace.filterMap Event.refusedIndex ∧
    ∀ (j : Nat) (node : Node Bnd), r.tree.nodes[j]? = some node →
      (r.trace.filterMap Event.splitIndex).count j = 1 ∧
      (r.trace.filterMap Event.insertIndex).count j = if node.isLeaf then 1 else 0 := by
  obtain ⟨X, N, T, b', idx', hrun, hn, ht, _, _⟩ :=
    build_top_down_run fuel is_index_bvh tree builder b first m r h
  have hperm : (T.filterMap Event.splitIndex).Perm (List.range (X :: N).length) := by
    refine (Run_split_once hrun).trans ?_
    rw [List.length_cons, List.range_eq_range', List.range'_succ]
  have hres : ∀ j uss k res, Event.split j uss k res ∈ T →
      ∃ node, (X :: N)[j]? = some node ∧ node.isLeaf = !res ∧ node.isInner = res := by
    intro j uss k res hmem
    obtain ⟨node, hl, h2⟩ := Run_split_result hrun (by omega) j uss k res hmem
    exact ⟨node, by rw [← lookup_root]; exact hl, h2⟩
  have hins := Run_insert_refused hrun
  rw [hn, ht, trace_filterMap_root Event.splitIndex rfl (fun _ => rfl) rfl (fun _ => rfl),
    trace_filterMap_root Event.insertIndex rfl (fun _ => rfl) rfl (fun _ => rfl),
    trace_filterMap_root Event.refusedIndex rfl (fun _ => rfl) rfl (fun _ => rfl)]
  refine ⟨hperm, ?_, hins, ?_⟩
  · intro j uss k res hmem
    exact hres j uss k res (mem_root_trace_split _ _ _ _ _ _ _ _ hmem)
  · intro j node hnode
    have hj : j < (X :: N).length := lt_length_of_getElem? hnode
    have hcount : (T.filterMap Event.splitIndex).count j = 1 := by
      rw [hperm.count_eq]
      exact List.count_eq_one_of_mem (List.nodup_range _) (List.mem_range.2 hj)
    refine ⟨hcount, ?_⟩
    rw [hins]
    have hle := count_refused_le_split j T
    cases hleaf : node.isLeaf with
    | true =>
      rw [if_pos rfl]
      have hmem : j ∈ T.filterMap Event.splitIndex :=
        hperm.symm.subset (List.mem_range.2 hj)
      obtain ⟨uss, k, res, hev⟩ := mem_filterMap_splitIndex j T hmem
      obtain ⟨node1, hn1, hl1, _⟩ := hres j uss k res hev
      rw [hnode] at hn1
      cases hn1
      rw [hleaf] at hl1
      have hres0 : res = false := by
        cases res with
        | true => exact Bool.noConfusion hl1
        | false => rfl
      subst hres0
      have hpos : 0 < (T.filterMap Event.refusedIndex).count j :=
        List.count_pos_iff.2 ((mem_filterMap_refusedIndex j T).2 ⟨uss, k, hev⟩)
      omega
    | false =>
      rw [if_neg (by simp)]
      apply List.count_eq_zero_of_not_mem
      intro hmem
      obtain ⟨uss, k, hev⟩ := (mem_filterMap_refusedIndex j T).1 hmem
      obtain ⟨node1, hn1, hl1, _⟩ := hres j uss k false hev
      rw [hnode] at hn1
      cases hn1
      rw [hleaf] at hl1
      exact Bool.noConfusion hl1

theorem build_top_down_split_calls_witness :
    ∃ r, detail.build_top_down 10 true (⟨[], [], []⟩ : Tree (Nat × Nat) Nat)
        median_builder ⟨true, ()⟩ (List.range 8) 4 = Except.ok r ∧
      (r.trace.filterMap Event.splitIndex).Perm (List.range r.tree.nodes.length) ∧
      (∀ j uss k res, Event.split j uss k res ∈ r.trace →
        ∃ node, r.tree.nodes[j]? = some node ∧ node.isLeaf = !res ∧ node.isInner = res) ∧
      r.trace.filterMap Event.insertIndex = r.trace.filterMap Event.refusedIndex ∧
      ∀ (j : Nat) (node : Node (Nat × Nat)), r.tree.nodes[j]? = some node →
        (r.trace.filterMap Event.splitIndex).count j = 1 ∧
        (r.trace.filterMap Event.insertIndex).count j = if node.isLeaf then 1 else 0 :=
  ⟨_, rfl, build_top_down_split_calls 10 true ⟨[], [], []⟩ median_builder ⟨true, ()⟩
    (List.range 8) 4 _ rfl⟩

/-! ## The bounds of the root -/

theorem leaf_bounds_cons {Bnd : Type} (X : Node Bnd) (N : List (Node Bnd)) :
    leaf_bounds (X :: N) = leaf_bounds [X] ++ leaf_bounds N := by
  unfold leaf_bounds
  rw [← List.filterMap_append]
  rfl

theorem leaf_bounds_append {Bnd : Type} (A B : List (Node Bnd)) :
    leaf_bounds (A ++ B) = leaf_bounds A ++ leaf_bounds B := by
  unfold leaf_bounds
  rw [List.filterMap_append]

theorem Run_leaf_bounds {S LI Prim Bnd : Type} [SemilatticeSup Bnd]
    {builder : Builder S LI Prim Bnd} {data : List Prim} {m : Int}
    (hsplit : ∀ bs leaf c0 c1 b1, builder.split bs leaf data m = (some (c0, c1), b1) →
      builder.prim_bounds c0 ⊔ builder.prim_bounds c1 = builder.prim_bounds leaf)
    {index s : Nat} {b : BuilderState S} {idx : List Nat} {leaf : LI}
    {X : Node Bnd} {N : List (Node Bnd)} {b' : BuilderState S} {idx' : List Nat}
    {T : List Event}
    (h : Run builder data m index s b idx leaf X N b' idx' T) :
    leaf_bounds (X :: N) ≠ [] ∧
    ∀ u, builder.prim_bounds leaf ≤ u ↔ ∀ x ∈ leaf_bounds (X :: N), x ≤ u := by
  induction h with
  | leaf index s b idx leaf b1 idx1 count b2 hsp hins =>
    refine ⟨by simp [leaf_bounds, Node.isLeaf, Node.bounds], fun u => ?_⟩
    simp [leaf_bounds, Node.isLeaf, Node.bounds]
  | inner index s b idx leaf c0 c1 b1 X1 N1 b2 idx2 T1 X0 N0 b3 idx3 T0 hsp h1 h0 ih1 ih0 =>
    have hmem : ∀ x, x ∈ leaf_bounds (Node.inner (builder.prim_bounds leaf) s ::
        X0 :: X1 :: (N1 ++ N0)) ↔
        x ∈ leaf_bounds (X0 :: N0) ∨ x ∈ leaf_bounds (X1 :: N1) := by
      intro x
      rw [leaf_bounds_cons, leaf_bounds_cons X0, leaf_bounds_cons X1, leaf_bounds_append,
        leaf_bounds_cons X0 N0, leaf_bounds_cons X1 N1]
      have : leaf_bounds [Node.inner (builder.prim_bounds leaf) s] = [] := rfl
      rw [this]
      simp only [List.nil_append, List.mem_append]
      tauto
    constructor
    · intro hnil
      obtain ⟨x, hx⟩ := List.exists_mem_of_ne_nil _ ih0.1
      have := (hmem x).2 (Or.inl hx)
      rw [hnil] at this
      exact List.not_mem_nil x this
    · intro u
      rw [← hsplit b leaf c0 c1 b1 hsp, sup_le_iff, ih0.2 u, ih1.2 u]
      constructor
      · rintro ⟨ha, hb⟩ x hx
        rcases (hmem x).1 hx with h | h
        · exact ha x h
        · exact hb x h
      · intro hall
        exact ⟨fun x hx => hall x ((hmem x).2 (Or.inl hx)),
          fun x hx => hall x ((hmem x).2 (Or.inr hx))⟩

theorem foldl_sup_le_iff {Bnd : Type} [SemilatticeSup Bnd] :
    ∀ (as : List Bnd) (a u : Bnd),
      as.foldl (fun x y => x ⊔ y) a ≤ u ↔ ∀ x ∈ a :: as, x ≤ u := by
  intro as
  induction as with
  | nil => intro a u; simp
  | cons c as ih =>
    intro a u
    rw [List.foldl_cons, ih]
    simp only [List.mem_cons, forall_eq_or_imp, sup_le_iff]
    tauto

/-- C21: for a Builder whose `split` hands out two child infos whose bounds unite to the
bounds of the parent, whenever `build_top_down` returns, the root node carries the union of
the bounds of all leaf nodes: there is at least one leaf, the bounds of the root are the
union of the leaf bounds taken in the order of the store, and they are the least upper
bound of the set of the leaf bounds. -/
theorem build_top_down_root_bounds {S LI Prim Bnd : Type} [SemilatticeSup Bnd] (fuel : Nat)
    (is_index_bvh : Bool) (tree : Tree Bnd Prim) (builder : Builder S LI Prim Bnd)
    (b : BuilderState S) (first : List Prim) (m : Int)
    (hsplit : ∀ bs leaf c0 c1 b1,
      builder.split bs leaf first (detail.normalized_leaf_size m) = (some (c0, c1), b1) →
      builder.prim_bounds c0 ⊔ builder.prim_bounds c1 = builder.prim_bounds leaf)
    (r : detail.BuildResult S Bnd Prim)
    (h : detail.build_top_down fuel is_index_bvh tree builder b first m = Except.ok r) :
    ∃ root a as, r.tree.nodes[0]? = some root ∧ leaf_bounds r.tree.nodes = a :: as ∧
      root.bounds = some (as.foldl (fun x y => x ⊔ y) a) ∧
      ∀ rb, root.bounds = some rb → IsLUB {x | x ∈ leaf_bounds r.tree.nodes} rb := by
  obtain ⟨X, N, T, b', idx', hrun, hn, _, _, _⟩ :=
    build_top_down_run fuel is_index_bvh tree builder b first m r h
  obtain ⟨hne, hlub⟩ := Run_leaf_bounds hsplit hrun
  have hb := (Run_counts hrun).2.2.2.2.2
  rw [hn]
  obtain ⟨a, as, has⟩ := List.exists_cons_of_ne_nil hne
  have heq : builder.prim_bounds (builder.init b first).1 = as.foldl (fun x y => x ⊔ y) a := by
    apply le_antisymm
    · rw [hlub, has, ← foldl_sup_le_iff]
    · rw [foldl_sup_le_iff, ← has, ← hlub]
  refine ⟨X, a, as, List.getElem?_cons_zero, has, by rw [hb, heq], ?_⟩
  intro rb hrb
  rw [hb] at hrb
  cases hrb
  rw [isLUB_iff_le_iff]
  intro u
  rw [hlub u]
  rfl

theorem build_top_down_root_bounds_witness :
    ∃ r, detail.build_top_down 10 true (⟨[], [], []⟩ : Tree (Finset Nat) Nat)
        median_cover_builder ⟨true, ()⟩ (List.range 8) 4 = Except.ok r ∧
      ∃ root a as, r.tree.nodes[0]? = some root ∧ leaf_bounds r.tree.nodes = a :: as ∧
        root.bounds = some (as.foldl (fun x y => x ⊔ y) a) ∧
        ∀ rb, root.bounds = some rb → IsLUB {x | x ∈ leaf_bounds r.tree.nodes} rb :=
  ⟨_, rfl, build_top_down_root_bounds 10 true ⟨[], [], []⟩ median_cover_builder ⟨true, ()⟩
    (List.range 8) 4
    (by
      intro bs leaf c0 c1 b1 hsp
      simp only [median_cover_builder, with_bounds, median_builder] at hsp ⊢
      split at hsp
      · cases hsp
      · cases hsp
        simp only [Finset.sup_eq_union]
        rename_i hlt
        have hm : detail.normalized_leaf_size 4 = 4 := rfl
        rw [hm] at hlt
        apply Finset.Ico_union_Ico_eq_Ico <;> omega)
    _ rfl⟩

/-! ## Termination -/

theorem build_top_down_index_eq {S LI Prim Bnd : Type} (fuel : Nat)
    (tree : Tree Bnd Prim) (builder : Builder S LI Prim Bnd) (b : BuilderState S)
    (first : List Prim) (m : Int) (st : BuildState S Bnd)
    (hst : detail.build_top_down_impl builder first (detail.normalized_leaf_size m) fuel 0
      (start_state builder b first m true) (builder.init b first).1 = Except.ok st) :
    detail.build_top_down fuel true tree builder b first m =
      Except.ok
        { tree := { nodes := st.nodes, indices := st.indices, primitives := tree.primitives }
          builder := st.builder
          trace := st.trace } := by
  rw [build_top_down_eq]
  unfold detail.build_top_down_work
  simp only [start_state, start_builder, if_true] at hst ⊢
  rw [hst]

theorem build_top_down_impl_leaf_terminates {S LI Prim Bnd : Type}
    (builder : Builder S LI Prim Bnd) (data : List Prim) (m : Int) (index : Nat)
    (st : BuildState S Bnd) (leaf : LI) (b1 : BuilderState S)
    (hsp : builder.split st.builder leaf data m = (none, b1))
    (hidx : index < st.nodes.length) :
    ∃ st', (∀ fuel, 0 < fuel →
        detail.build_top_down_impl builder data m fuel index st leaf = Except.ok st') ∧
      st'.nodes.length = st.nodes.length := by
  obtain ⟨nodes, idx, b, tr⟩ := st
  cases hins : builder.insert_indices b1 idx leaf with
  | mk p b2 =>
    obtain ⟨idx1, count⟩ := p
    refine ⟨⟨nodes.set index (Node.leaf (builder.prim_bounds leaf) idx.length count),
        idx1, b2,
        tr ++ [Event.split index b.use_spatial_splits m false, Event.insert_indices index,
          Event.set_leaf index idx.length count]⟩, fun fuel hf => ?_, ?_⟩
    · obtain ⟨f, rfl⟩ : ∃ f, fuel = f + 1 := ⟨fuel - 1, by omega⟩
      exact build_top_down_impl_leaf_eq builder data m f index nodes idx b tr leaf b1 idx1
        count b2 hsp hins hidx
    · simp

theorem build_top_down_impl_terminates {S LI Prim Bnd : Type}
    (builder : Builder S LI Prim Bnd) (data : List Prim) (m : Int) (hm : 0 < m)
    (size : LI → Nat)
    (hstop : ∀ bs leaf, (size leaf : Int) ≤ m → (builder.split bs leaf data m).1 = none)
    (hless : ∀ bs leaf c0 c1 b1, builder.split bs leaf data m = (some (c0, c1), b1) →
      size c0 < size leaf ∧ size c1 < size leaf) :
    ∀ (k index : Nat) (st : BuildState S Bnd) (leaf : LI),
      size leaf - m.toNat ≤ k → index < st.nodes.length →
      ∃ st', (∀ fuel, k < fuel →
          detail.build_top_down_impl builder data m fuel index st leaf = Except.ok st') ∧
        st.nodes.length ≤ st'.nodes.length ∧
        st'.nodes.length + 2 ≤ st.nodes.length + 2 ^ (k + 1) := by
  have hcast : ((m.toNat : Nat) : Int) = m := Int.toNat_of_nonneg (by omega)
  intro k
  induction k with
  | zero =>
    intro index st leaf hd hidx
    cases hsp : builder.split st.builder leaf data m with
    | mk o b1 =>
      cases o with
      | none =>
        obtain ⟨st', h1, h2⟩ :=
          build_top_down_impl_leaf_terminates builder data m index st leaf b1 hsp hidx
        exact ⟨st', h1, by omega, by omega⟩
      | some c =>
        have hle : (size leaf : Int) ≤ m := by omega
        have := hstop st.builder leaf hle
        rw [hsp] at this
        cases this
  | succ k ih =>
    intro index st leaf hd hidx
    cases hsp : builder.split st.builder leaf data m with
    | mk o b1 =>
      cases o with
      | none =>
        obtain ⟨st', h1, h2⟩ :=
          build_top_down_impl_leaf_terminates builder data m index st leaf b1 hsp hidx
        refine ⟨st', fun fuel hf => h1 fuel (by omega), by omega, ?_⟩
        have : 0 < 2 ^ (k + 1 + 1) := Nat.pow_pos (by decide)
        have : 2 ^ (k + 1 + 1) = 2 * 2 ^ (k + 1) := by rw [Nat.pow_succ, Nat.mul_comm]
        have : 0 < 2 ^ (k + 1) := Nat.pow_pos (by decide)
        omega
      | some c =>
        obtain ⟨c0, c1⟩ := c
        obtain ⟨nodes, idx, b, tr⟩ := st
        have hgt : ¬ (size leaf : Int) ≤ m := by
          intro hle
          have := hstop b leaf hle
          rw [hsp] at this
          cases this
        obtain ⟨hs0, hs1⟩ := hless b leaf c0 c1 b1 hsp
        obtain ⟨st2, h1, hlen1, hb1⟩ := ih (nodes.length + 1)
          ⟨nodes.set index (Node.inner (builder.prim_bounds leaf) nodes.length)
              ++ [Node.empty] ++ [Node.empty], idx, b1,
            tr ++ [Event.split index b.use_spatial_splits m true,
              Event.set_inner index nodes.length, Event.emplace_back, Event.emplace_back]⟩
          c1 (by omega) (by simp)
        simp only [List.append_assoc, List.length_append, List.length_set, List.length_cons,
          List.length_nil] at hlen1 hb1
        obtain ⟨st3, h0, hlen0, hb0⟩ := ih (nodes.length + 0) st2 c0 (by omega) (by omega)
        refine ⟨st3, fun fuel hf => ?_, by simp only at hidx ⊢; omega, ?_⟩
        · obtain ⟨f, rfl⟩ : ∃ f, fuel = f + 1 := ⟨fuel - 1, by omega⟩
          rw [build_top_down_impl_split_eq builder data m f index nodes idx b tr leaf c0 c1 b1
            hsp hidx, h1 f (by omega)]
          exact h0 f (by omega)
        · have : 2 ^ (k + 1 + 1) = 2 * 2 ^ (k + 1) := by rw [Nat.pow_succ, Nat.mul_comm]
          simp only at hidx ⊢
          omega

/-- C23: the driver bounds neither depth nor size, but for a Builder with a primitive count
`size` on leaf infos such that `split` returns `false` for every leaf with at most
`max_leaf_size` primitives and otherwise hands out children with strictly fewer primitives
than their parent, `build_top_down` on `n` primitives terminates: with
`d = n - max_leaf_size` (at least 0), every bound above `d` on the depth of the recursion
is enough and gives the same outcome, which is a tree of fewer than `2 ^ (d + 1)` nodes
(or, in soup-mode only, the failure of the post-construction check). -/
theorem build_top_down_terminates {S LI Prim Bnd : Type} (is_index_bvh : Bool)
    (tree : Tree Bnd Prim) (builder : Builder S LI Prim Bnd) (b : BuilderState S)
    (first : List Prim) (m : Int) (size : LI → Nat)
    (hstop : ∀ bs leaf, (size leaf : Int) ≤ detail.normalized_leaf_size m →
      (builder.split bs leaf first (detail.normalized_leaf_size m)).1 = none)
    (hless : ∀ bs leaf c0 c1 b1,
      builder.split bs leaf first (detail.normalized_leaf_size m) = (some (c0, c1), b1) →
      size c0 < size leaf ∧ size c1 < size leaf)
    (hroot : size (builder.init b first).1 ≤ first.length) :
    ∃ outcome,
      (∀ fuel, first.length - (detail.normalized_leaf_size m).toNat < fuel →
        detail.build_top_down fuel is_index_bvh tree builder b first m = outcome) ∧
      outcome ≠ Except.error BuildError.out_of_fuel ∧
      outcome ≠ Except.error BuildError.out_of_range ∧
      (is_index_bvh = true → ∃ r, outcome = Except.ok r) ∧
      ∀ r, outcome = Except.ok r →
        r.tree.nodes.length < 2 ^ (first.length - (detail.normalized_leaf_size m).toNat + 1) := by
  have hm : 0 < detail.normalized_leaf_size m := by
    unfold detail.normalized_leaf_size
    split <;> omega
  obtain ⟨st', hst, _, hb⟩ := build_top_down_impl_terminates builder first
    (detail.normalized_leaf_size m) hm size hstop hless
    (first.length - (detail.normalized_leaf_size m).toNat) 0
    (start_state builder b first m is_index_bvh) (builder.init b first).1 (by omega)
    (by simp [start_state])
  have hb1 : st'.nodes.length <
      2 ^ (first.length - (detail.normalized_leaf_size m).toNat + 1) := by
    simp only [start_state, List.length_singleton] at hb
    omega
  cases is_index_bvh with
  | true =>
    refine ⟨_, fun fuel hf =>
      build_top_down_index_eq fuel tree builder b first m st' (hst fuel hf), ?_, ?_,
      fun _ => ⟨_, rfl⟩, ?_⟩
    · intro h; cases h
    · intro h; cases h
    · intro r hr
      cases hr
      exact hb1
  | false =>
    refine ⟨_, fun fuel hf =>
      build_top_down_soup_eq fuel tree builder b first m st' (hst fuel hf), ?_, ?_,
      fun h => Bool.noConfusion h, ?_⟩
    · split
      · intro h; cases h
      · intro h; cases h
    · split
      · intro h; cases h
      · intro h; cases h
    · intro r hr
      split at hr
      · cases hr
        exact hb1
      · cases hr

theorem build_top_down_terminates_witness :
    ∃ outcome,
      (∀ fuel, (List.range 8).length - (detail.normalized_leaf_size 4).toNat < fuel →
        detail.build_top_down fuel true (⟨[], [], []⟩ : Tree (Nat × Nat) Nat) median_builder
          ⟨true, ()⟩ (List.range 8) 4 = outcome) ∧
      outcome ≠ Except.error BuildError.out_of_fuel ∧
      outcome ≠ Except.error BuildError.out_of_range ∧
      (true = true → ∃ r, outcome = Except.ok r) ∧
      ∀ r, outcome = Except.ok r →
        r.tree.nodes.length < 2 ^ ((List.range 8).length - (detail.normalized_leaf_size 4).toNat + 1) :=
  build_top_down_terminates true ⟨[], [], []⟩ median_builder ⟨true, ()⟩ (List.range 8) 4
    (fun leaf => leaf.last - leaf.first)
    (by
      intro bs leaf hle
      simp only [median_builder]
      rw [if_pos hle])
    (by
      intro bs leaf c0 c1 b1 hsp
      have hm : detail.normalized_leaf_size 4 = 4 := rfl
      simp only [median_builder, hm] at hsp
      split at hsp
      · cases hsp
      · cases hsp
        simp only
        omega)
    (by simp [median_builder])

/-! ## The order of the two recursive calls -/

theorem ATree.size_pos {Bnd : Type} (t : ATree Bnd) : 0 < t.size := by
  cases t <;> simp [ATree.size]

theorem TreeOf_unique {LI Bnd : Type} {f : LI → Option (LI × LI)} {g : LI → List Nat}
    {prim_bounds : LI → Bnd} {leaf : LI} {t : ATree Bnd}
    (h : TreeOf f g prim_bounds leaf t) :
    ∀ t1, TreeOf f g prim_bounds leaf t1 → t1 = t := by
  induction h with
  | leaf leaf hf =>
    intro t1 h1
    cases h1 with
    | leaf _ _ => rfl
    | node _ c0 c1 t0 t1 hf1 _ _ => rw [hf] at hf1; cases hf1
  | node leaf c0 c1 t0 t1 hf _ _ ih0 ih1 =>
    intro t2 h2
    cases h2 with
    | leaf _ hf1 => rw [hf] at hf1; cases hf1
    | node _ d0 d1 u0 u1 hf1 hu0 hu1 =>
      rw [hf] at hf1
      cases hf1
      rw [ih0 u0 hu0, ih1 u1 hu1]

theorem Built_leaf {S Bnd : Type} (nodes : List (Node Bnd)) (idx : List Nat)
    (b b2 : BuilderState S) (tr tr2 : List Event) (index : Nat) (bnd : Bnd)
    (new : List Nat) (hidx : index < nodes.length) :
    Built ⟨nodes, idx, b, tr⟩
      ⟨nodes.set index (Node.leaf bnd idx.length new.length), idx ++ new, b2, tr2⟩
      index (ATree.leaf bnd new) := by
  refine ⟨hidx, by simp [ATree.size], ?_, ⟨new, rfl⟩, ?_, ?_⟩
  · intro j _ hne
    exact List.getElem?_set_ne (fun h => hne h.symm)
  · simp only [root_node]
    rw [List.getElem?_set_self hidx]
  · intro F I hF hI fu hfu
    obtain ⟨rest, rfl⟩ := hI
    obtain ⟨fu1, rfl⟩ : ∃ fu1, fu = fu1 + 1 :=
      ⟨fu - 1, by simp only [ATree.depth] at hfu; omega⟩
    have h0 := hF index (Or.inl rfl)
    simp only at h0
    rw [List.getElem?_set_self hidx] at h0
    simp only [abstract_tree, h0]
    rw [List.append_assoc, List.drop_left, List.take_left]

theorem Built_split {S Bnd : Type} (st st1 st2 st3 : BuildState S Bnd) (index : Nat)
    (bnd : Bnd) (iA iB : Nat) (tA tB t0 t1 : ATree Bnd)
    (hidx : index < st.nodes.length)
    (h1n : st1.nodes = st.nodes.set index (Node.inner bnd st.nodes.length)
      ++ [Node.empty] ++ [Node.empty])
    (h1i : st1.indices = st.indices)
    (hA : Built st1 st2 iA tA) (hB : Built st2 st3 iB tB)
    (hAB : (iA = st.nodes.length + 1 ∧ iB = st.nodes.length ∧ t0 = tB ∧ t1 = tA) ∨
      (iA = st.nodes.length ∧ iB = st.nodes.length + 1 ∧ t0 = tA ∧ t1 = tB)) :
    Built st st3 index (ATree.node bnd t0 t1) := by
  obtain ⟨_, hAsize, hAold, ⟨newA, hAidx⟩, _, hAread⟩ := hA
  obtain ⟨hBi, hBsize, hBold, ⟨newB, hBidx⟩, _, hBread⟩ := hB
  have hlen1 : st1.nodes.length = st.nodes.length + 2 := by
    rw [h1n]
    simp
  have hposA := ATree.size_pos tA
  have hposB := ATree.size_pos tB
  have hiA : st.nodes.length ≤ iA ∧ iA < st.nodes.length + 2 := by
    rcases hAB with ⟨h, _⟩ | ⟨h, _⟩ <;> omega
  have hiB : st.nodes.length ≤ iB ∧ iB < st.nodes.length + 2 := by
    rcases hAB with ⟨_, h, _⟩ | ⟨_, h, _⟩ <;> omega
  have hne : iA ≠ iB := by
    rcases hAB with ⟨h, h', _⟩ | ⟨h, h', _⟩ <;> omega
  have hsize : t0.size + t1.size = tA.size + tB.size := by
    rcases hAB with ⟨_, _, rfl, rfl⟩ | ⟨_, _, rfl, rfl⟩ <;> omega
  have h1old : ∀ j : Nat, j < st.nodes.length →
      st1.nodes[j]? = (st.nodes.set index (Node.inner bnd st.nodes.length))[j]? := by
    intro j hj
    rw [h1n, List.append_assoc, List.getElem?_append_left (by rw [List.length_set]; exact hj)]
  have hroot : st3.nodes[index]? = some (Node.inner bnd st.nodes.length) := by
    rw [hBold index (by omega) (by omega), hAold index (by omega) (by omega),
      h1old index hidx, List.getElem?_set_self hidx]
  refine ⟨hidx, ?_, ?_, ⟨newA ++ newB, ?_⟩, ?_, ?_⟩
  · simp only [ATree.size]
    omega
  · intro j hj hji
    rw [hBold j (by omega) (by omega), hAold j (by omega) (by omega), h1old j hj]
    exact List.getElem?_set_ne (fun h => hji h.symm)
  · rw [hBidx, hAidx, h1i, List.append_assoc]
  · exact hroot
  · intro F I hF hI fu hfu
    obtain ⟨rest, hI⟩ := hI
    obtain ⟨fu1, rfl⟩ : ∃ fu1, fu = fu1 + 1 :=
      ⟨fu - 1, by simp only [ATree.depth] at hfu; omega⟩
    have hF0 : F[index]? = some (Node.inner bnd st.nodes.length) := by
      rw [hF index (Or.inl rfl)]
      exact hroot
    have hrB : ∀ fu, tB.depth ≤ fu → abstract_tree F I fu iB = some tB := by
      apply hBread F I
      · intro j hj
        apply hF
        right
        omega
      · exact ⟨rest, hI⟩
    have hrA : ∀ fu, tA.depth ≤ fu → abstract_tree F I fu iA = some tA := by
      apply hAread F I
      · intro j hj
        rw [hF j (Or.inr (by omega))]
        exact hBold j (by omega) (by omega)
      · exact ⟨newB ++ rest, by rw [hI, hBidx, List.append_assoc]⟩
    have hr0 : abstract_tree F I fu1 st.nodes.length = some t0 := by
      simp only [ATree.depth] at hfu
      rcases hAB with ⟨_, h, rfl, rfl⟩ | ⟨h, _, rfl, rfl⟩
      · rw [← h]
        exact hrB fu1 (by omega)
      · rw [← h]
        exact hrA fu1 (by omega)
    have hr1 : abstract_tree F I fu1 (st.nodes.length + 1) = some t1 := by
      simp only [ATree.depth] at hfu
      rcases hAB with ⟨h, _, rfl, rfl⟩ | ⟨_, h, rfl, rfl⟩
      · rw [← h]
        exact hrA fu1 (by omega)
      · rw [← h]
        exact hrB fu1 (by omega)
    simp only [abstract_tree, hF0, hr0, hr1]

theorem build_top_down_impl_built {S LI Prim Bnd : Type} (builder : Builder S LI Prim Bnd)
    (data : List Prim) (m : Int) (f : LI → Option (LI × LI)) (g : LI → List Nat)
    (hsplit : ∀ bs leaf, (builder.split bs leaf data m).1 = f leaf)
    (hins : ∀ bs idx leaf,
      (builder.insert_indices bs idx leaf).1 = (idx ++ g leaf, (g leaf).length)) :
    ∀ (fuel index : Nat) (st : BuildState S Bnd) (leaf : LI) (st1 : BuildState S Bnd),
      detail.build_top_down_impl builder data m fuel index st leaf = Except.ok st1 →
      ∃ t, TreeOf f g builder.prim_bounds leaf t ∧ Built st st1 index t := by
  intro fuel
  induction fuel with
  | zero =>
    intro index st leaf st1 h
    simp only [detail.build_top_down_impl] at h
    cases h
  | succ fuel ih =>
    intro index st leaf st1 h
    have hidx := (build_top_down_impl_run builder data m (fuel + 1) index st leaf st1 h).1
    obtain ⟨nodes, idx, b, tr⟩ := st
    have hf := hsplit b leaf
    cases hsp : builder.split b leaf data m with
    | mk o b1 =>
      rw [hsp] at hf
      simp only at hf
      cases o with
      | none =>
        have hi := hins b1 idx leaf
        cases hins1 : builder.insert_indices b1 idx leaf with
        | mk p b2 =>
          rw [hins1] at hi
          simp only at hi
          subst hi
          rw [build_top_down_impl_leaf_eq builder data m fuel index nodes idx b tr leaf b1 _ _
            b2 hsp hins1 hidx] at h
          cases h
          exact ⟨_, TreeOf.leaf leaf hf.symm, Built_leaf nodes idx b b2 tr _ index _ _ hidx⟩
      | some c =>
        obtain ⟨c0, c1⟩ := c
        rw [build_top_down_impl_split_eq builder data m fuel index nodes idx b tr leaf c0 c1 b1
          hsp hidx] at h
        cases h1 : detail.build_top_down_impl builder data m fuel (nodes.length + 1)
            ⟨nodes.set index (Node.inner (builder.prim_bounds leaf) nodes.length)
                ++ [Node.empty] ++ [Node.empty], idx, b1,
              tr ++ [Event.split index b.use_spatial_splits m true,
                Event.set_inner index nodes.length, Event.emplace_back, Event.emplace_back]⟩
            c1 with
        | error e =>
          rw [h1] at h
          cases h
        | ok st2 =>
          rw [h1] at h
          obtain ⟨tA, hTA, hBA⟩ := ih _ _ _ _ h1
          obtain ⟨tB, hTB, hBB⟩ := ih _ _ _ _ h
          have hb := fun h1n h1i =>
            Built_split ⟨nodes, idx, b, tr⟩ _ st2 st1 index (builder.prim_bounds leaf) _ _
              tA tB tB tA hidx h1n h1i hBA hBB (Or.inl ⟨rfl, rfl, rfl, rfl⟩)
          exact ⟨_, TreeOf.node leaf c0 c1 tB tA hf.symm hTB hTA, hb rfl rfl⟩

theorem build_top_down_impl_first_child_first_built {S LI Prim Bnd : Type}
    (builder : Builder S LI Prim Bnd)
    (data : List Prim) (m : Int) (f : LI → Option (LI × LI)) (g : LI → List Nat)
    (hsplit : ∀ bs leaf, (builder.split bs leaf data m).1 = f leaf)
    (hins : ∀ bs idx leaf,
      (builder.insert_indices bs idx leaf).1 = (idx ++ g leaf, (g leaf).length)) :
    ∀ (fuel index : Nat) (st : BuildState S Bnd) (leaf : LI) (st1 : BuildState S Bnd),
      detail.build_top_down_impl_first_child_first builder data m fuel index st leaf =
        Except.ok st1 →
      ∃ t, TreeOf f g builder.prim_bounds leaf t ∧ Built st st1 index t := by
  intro fuel
  induction fuel with
  | zero =>
    intro index st leaf st1 h
    simp only [detail.build_top_down_impl_first_child_first] at h
    cases h
  | succ fuel ih =>
    intro index st leaf st1 h
    obtain ⟨nodes, idx, b, tr⟩ := st
    have hf := hsplit b leaf
    cases hsp : builder.split b leaf data m with
    | mk o b1 =>
      rw [hsp] at hf
      simp only at hf
      cases o with
      | none =>
        have hi := hins b1 idx leaf
        cases hins1 : builder.insert_indices b1 idx leaf with
        | mk p b2 =>
          rw [hins1] at hi
          simp only at hi
          subst hi
          simp only [detail.build_top_down_impl_first_child_first, hsp, hins1] at h
          by_cases hidx : index < nodes.length
          · rw [if_pos hidx] at h
            cases h
            exact ⟨_, TreeOf.leaf leaf hf.symm, Built_leaf nodes idx b b2 tr _ index _ _ hidx⟩
          · rw [if_neg hidx] at h
            cases h
      | some c =>
        obtain ⟨c0, c1⟩ := c
        simp only [detail.build_top_down_impl_first_child_first, hsp] at h
        by_cases hidx : index < nodes.length
        · rw [if_pos hidx] at h
          cases h1 : detail.build_top_down_impl_first_child_first builder data m fuel
              (nodes.length + 0)
              ⟨nodes.set index (Node.inner (builder.prim_bounds leaf) nodes.length)
                  ++ [Node.empty] ++ [Node.empty], idx, b1,
                tr ++ [Event.split index b.use_spatial_splits m true,
                  Event.set_inner index nodes.length, Event.emplace_back,
                  Event.emplace_back]⟩
              c0 with
          | error e =>
            rw [h1] at h
            cases h
          | ok st2 =>
            rw [h1] at h
            obtain ⟨tA, hTA, hBA⟩ := ih _ _ _ _ h1
            obtain ⟨tB, hTB, hBB⟩ := ih _ _ _ _ h
            have hb := fun h1n h1i =>
              Built_split ⟨nodes, idx, b, tr⟩ _ st2 st1 index (builder.prim_bounds leaf) _ _
                tA tB tA tB hidx h1n h1i hBA hBB (Or.inr ⟨rfl, rfl, rfl, rfl⟩)
            exact ⟨_, TreeOf.node leaf c0 c1 tA tB hf.symm hTA hTB, hb rfl rfl⟩
        · rw [if_neg hidx] at h
          cases h

/-- C27: for a Builder whose answers depend on the leaf info only (`split` answers `f` and
`insert_indices` appends `g`), the driver as written, which builds the second child first,
and the variant that builds the first child first, started in the same state and both
returning, leave stores of the same size that represent the same tree at `index`: the same
bounds at every node, the same first and second child, and the same list of primitive
indices in every leaf.  The node stored at `index` itself is the same in both; positions
further down and the offsets of the leaves are not compared. -/
theorem build_top_down_impl_child_order {S LI Prim Bnd : Type}
    (builder : Builder S LI Prim Bnd)
    (data : List Prim) (m : Int) (f : LI → Option (LI × LI)) (g : LI → List Nat)
    (hsplit : ∀ bs leaf, (builder.split bs leaf data m).1 = f leaf)
    (hins : ∀ bs idx leaf,
      (builder.insert_indices bs idx leaf).1 = (idx ++ g leaf, (g leaf).length))
    (fuel fuel1 index : Nat) (st : BuildState S Bnd) (leaf : LI) (st1 st2 : BuildState S Bnd)
    (h1 : detail.build_top_down_impl builder data m fuel index st leaf = Except.ok st1)
    (h2 : detail.build_top_down_impl_first_child_first builder data m fuel1 index st leaf =
      Except.ok st2) :
    st1.nodes.length = st2.nodes.length ∧
    st1.nodes[index]? = st2.nodes[index]? ∧
    ∃ t, TreeOf f g builder.prim_bounds leaf t ∧
      st1.nodes.length + 1 = st.nodes.length + t.size ∧
      ∀ fu, t.depth ≤ fu →
        abstract_tree st1.nodes st1.indices fu index = some t ∧
        abstract_tree st2.nodes st2.indices fu index = some t := by
  obtain ⟨t, hT, hB1⟩ :=
    build_top_down_impl_built builder data m f g hsplit hins fuel index st leaf st1 h1
  obtain ⟨t2, hT2, hB2⟩ :=
    build_top_down_impl_first_child_first_built builder data m f g hsplit hins fuel1 index st
      leaf st2 h2
  have ht := TreeOf_unique hT t2 hT2
  subst ht
  obtain ⟨_, hs1, _, _, hr1, hread1⟩ := hB1
  obtain ⟨_, hs2, _, _, hr2, hread2⟩ := hB2
  exact ⟨by omega, by rw [hr1, hr2], t2, hT, hs1, fun fu hfu =>
    ⟨hread1 _ _ (fun _ _ => rfl) ⟨[], (List.append_nil _).symm⟩ fu hfu,
      hread2 _ _ (fun _ _ => rfl) ⟨[], (List.append_nil _).symm⟩ fu hfu⟩⟩

theorem build_top_down_impl_child_order_witness :
    ∃ st1 st2,
      detail.build_top_down_impl median_builder (List.range 8) 2 10 0
        ⟨[Node.empty], [], ⟨true, ()⟩, []⟩ ⟨0, 8⟩ = Except.ok st1 ∧
      detail.build_top_down_impl_first_child_first median_builder (List.range 8) 2 10 0
        ⟨[Node.empty], [], ⟨true, ()⟩, []⟩ ⟨0, 8⟩ = Except.ok st2 ∧
      st1.nodes.length = st2.nodes.length ∧
      st1.nodes[0]? = st2.nodes[0]? ∧
      ∃ t, TreeOf (fun leaf => (median_builder.split ⟨true, ()⟩ leaf (List.range 8) 2).1)
          (fun leaf => List.range' leaf.first (leaf.last - leaf.first))
          median_builder.prim_bounds ⟨0, 8⟩ t ∧
        st1.nodes.length + 1 = [(Node.empty : Node (Nat × Nat))].length + t.size ∧
        ∀ fu, t.depth ≤ fu →
          abstract_tree st1.nodes st1.indices fu 0 = some t ∧
          abstract_tree st2.nodes st2.indices fu 0 = some t :=
  ⟨_, _, rfl, rfl,
    build_top_down_impl_child_order median_builder (List.range 8) 2
      (fun leaf => (median_builder.split ⟨true, ()⟩ leaf (List.range 8) 2).1)
      (fun leaf => List.range' leaf.first (leaf.last - leaf.first))
      (fun _ _ => by simp only [median_builder]; split <;> rfl)
      (fun _ _ _ => by simp [median_builder])
      10 10 0 ⟨[Node.empty], [], ⟨true, ()⟩, []⟩ ⟨0, 8⟩ _ _ rfl rfl⟩

/-! ## The data type of an included data file -/

/-- C36, the code at the failing input: for the data type string `vec2f` the parser returns
meta data with the data type `Vec2u8`, the same as for the string `vec2u8`, and not the
enumerator `Vec2f` of the same name; likewise `vec3f` gives `Vec3u8` and `vec4f` gives
`Vec4u8`. -/
theorem parse_file_meta_data_vec2f :
    (parse_file_meta_data (meta_data_object "vec2f")).map (fun md => md.data_type) =
      Except.ok data_file.data_type_t.Vec2u8 ∧
    (parse_file_meta_data (meta_data_object "vec2u8")).map (fun md => md.data_type) =
      Except.ok data_file.data_type_t.Vec2u8 ∧
    (parse_file_meta_data (meta_data_object "vec3f")).map (fun md => md.data_type) =
      Except.ok data_file.data_type_t.Vec3u8 ∧
    (parse_file_meta_data (meta_data_object "vec4f")).map (fun md => md.data_type) =
      Except.ok data_file.data_type_t.Vec4u8 := by
  refine ⟨?_, ?_, ?_, ?_⟩ <;> rfl

/-! ## The lanes of `simd::atan` -/

/-- C37, the code at the failing input: lane 3 of `atan(float4)` is `asinf` of lane 3 of the
argument, whatever the argument, while lanes 0 to 2 are `atanf` of their lanes; for the arc
tangent and arc sine of the reals and the argument `(0, 0, 0, 1)` lane 3 is `pi / 2`, not
`atanf 1 = pi / 4`, whereas every lane of `atan(float8)` is `atanf` of that lane. -/
theorem atan_float4_last_lane :
    (∀ (F : Type) (atanf asinf : F → F) (x : Packet 4 F),
      simd.atan_float4 atanf asinf x 3 = asinf (x 3) ∧
      simd.atan_float4 atanf asinf x 0 = atanf (x 0) ∧
      simd.atan_float4 atanf asinf x 1 = atanf (x 1) ∧
      simd.atan_float4 atanf asinf x 2 = atanf (x 2)) ∧
    simd.atan_float4 Real.arctan Real.arcsin (simd.float4 0 0 0 1) 3 = Real.pi / 2 ∧
    Real.arctan (simd.float4 (0 : Real) 0 0 1 3) = Real.pi / 4 ∧
    simd.atan_float4 Real.arctan Real.arcsin (simd.float4 0 0 0 1) 3 ≠
      Real.arctan (simd.float4 (0 : Real) 0 0 1 3) ∧
    ∀ (F : Type) (atanf : F → F) (x : Packet 8 F) (i : Fin 8),
      simd.atan_float8 atanf x i = atanf (x i) := by
  have h3 : simd.float4 (0 : Real) 0 0 1 3 = 1 := by
    simp [simd.float4]
  have ha : simd.atan_float4 Real.arctan Real.arcsin (simd.float4 0 0 0 1) 3 =
      Real.pi / 2 := by
    simp [simd.atan_float4, simd.float4]
  refine ⟨?_, ha, ?_, ?_, ?_⟩
  · intro F atanf asinf x
    refine ⟨?_, ?_, ?_, ?_⟩ <;> simp [simd.atan_float4, simd.float4]
  · rw [h3, Real.arctan_one]
  · rw [ha, h3, Real.arctan_one]
    have := Real.pi_pos
    intro h
    linarith
  · intro F atanf x i
    fin_cases i <;> simp [simd.atan_float8, simd.float8]

/-! ## The accesses of `insert_sorted` -/

theorem insert_sorted_search_traced_spec {W : Nat} {HR : Type}
    (cond : Packet W HR → Packet W HR → Mask W)
    (item : Packet W HR) (first : List (Packet W HR)) :
    ∀ (n i : Nat) (pos : Packet W Nat) (active : Mask W),
      (algo.insert_sorted_search_traced cond item first n i pos active).1 =
        algo.insert_sorted_search cond item first n i pos active ∧
      (∀ a ∈ (algo.insert_sorted_search_traced cond item first n i pos active).2.1,
        ∃ j, a = Access.read j ∧ i ≤ j ∧ j < i + n) ∧
      (algo.insert_sorted_search_traced cond item first n i pos active).2.2 ≤ n := by
  intro n
  induction n with
  | zero =>
    intro i pos active
    simp [algo.insert_sorted_search_traced, algo.insert_sorted_search]
  | succ n ih =>
    intro i pos active
    cases he : first[i]? with
    | none =>
      simp only [algo.insert_sorted_search_traced, algo.insert_sorted_search, he]
      refine ⟨trivial, ?_, by omega⟩
      intro a ha
      simp only [List.mem_singleton] at ha
      exact ⟨i, ha, by omega, by omega⟩
    | some e =>
      simp only [algo.insert_sorted_search_traced, algo.insert_sorted_search, he]
      split
      · refine ⟨rfl, ?_, by dsimp only; omega⟩
        intro a ha
        simp only [List.mem_singleton] at ha
        exact ⟨i, ha, by omega, by omega⟩
      · obtain ⟨h1, h2, h3⟩ := ih (i + 1)
          (simd.select (fun l => cond item e l && active l) (simd.splat i) pos)
          (simd.select (fun l => cond item e l && active l) (simd.splat false) active)
        refine ⟨h1, ?_, by dsimp only; omega⟩
        intro a ha
        simp only [List.mem_cons] at ha
        rcases ha with ha | ha
        · exact ⟨i, ha, by omega, by omega⟩
        · obtain ⟨j, hj, hj1, hj2⟩ := h2 a ha
          exact ⟨j, hj, by omega, by omega⟩

theorem insert_sorted_update_traced_spec {W : Nat} {HR : Type}
    (first : List (Packet W HR)) (i : Nat) (condition : Mask W)
    (src : Option (Packet W HR)) (predecessor : Bool) :
    (algo.insert_sorted_update_traced first i condition src predecessor).1 =
      algo.insert_sorted_update first i condition src ∧
    ∀ a ∈ (algo.insert_sorted_update_traced first i condition src predecessor).2,
      (a = Access.read i ∨ a = Access.write i ∨
        (a = Access.read_predecessor i ∧ predecessor = true)) ∧
      (simd.all condition = true ∨ simd.any condition = true) := by
  unfold algo.insert_sorted_update_traced algo.insert_sorted_update
  have hlog : ∀ a : Access,
      a ∈ (if predecessor = true then [Access.read_predecessor i] else []) →
      a = Access.read_predecessor i ∧ predecessor = true := by
    intro a ha
    cases predecessor
    · simp at ha
    · simp only [if_true, List.mem_singleton] at ha
      exact ⟨ha, rfl⟩
  by_cases hall : simd.all condition = true
  · simp only [hall, if_true]
    cases src with
    | none =>
      refine ⟨rfl, fun a ha => ⟨Or.inr (Or.inr (hlog a ha)), Or.inl trivial⟩⟩
    | some it =>
      by_cases hi : i < first.length
      · simp only [if_pos hi]
        refine ⟨trivial, fun a ha => ⟨?_, Or.inl trivial⟩⟩
        rcases List.mem_append.1 ha with ha | ha
        · exact Or.inr (Or.inr (hlog a ha))
        · exact Or.inr (Or.inl (List.mem_singleton.1 ha))
      · simp only [if_neg hi]
        refine ⟨trivial, fun a ha => ⟨?_, Or.inl trivial⟩⟩
        rcases List.mem_append.1 ha with ha | ha
        · exact Or.inr (Or.inr (hlog a ha))
        · exact Or.inr (Or.inl (List.mem_singleton.1 ha))
  · by_cases hany : simd.any condition = true
    · simp only [hall, hany, if_true, Bool.false_eq_true, if_false]
      cases hd : first[i]? with
      | none =>
        cases src <;>
          exact ⟨rfl, fun a ha => ⟨Or.inl (List.mem_singleton.1 ha), Or.inr trivial⟩⟩
      | some dst =>
        cases src with
        | none =>
          refine ⟨rfl, fun a ha => ⟨?_, Or.inr trivial⟩⟩
          rcases List.mem_cons.1 ha with ha | ha
          · exact Or.inl ha
          · exact Or.inr (Or.inr (hlog a ha))
        | some it =>
          refine ⟨rfl, fun a ha => ⟨?_, Or.inr trivial⟩⟩
          rcases List.mem_cons.1 ha with ha | ha
          · exact Or.inl ha
          · rcases List.mem_append.1 ha with ha | ha
            · exact Or.inr (Or.inr (hlog a ha))
            · exact Or.inr (Or.inl (List.mem_singleton.1 ha))
    · simp only [hall, hany, Bool.false_eq_true, if_false]
      exact ⟨trivial, fun a ha => absurd ha (List.not_mem_nil a)⟩

theorem insert_sorted_shift_traced_spec {W : Nat} {HR : Type} (hW : 0 < W)
    (item : Packet W HR) (pos : Packet W Nat) :
    ∀ (n : Nat) (first : List (Packet W HR)),
      (algo.insert_sorted_shift_traced item pos n first).1 =
        algo.insert_sorted_shift item pos n first ∧
      (∀ a ∈ (algo.insert_sorted_shift_traced item pos n first).2.1,
        ∃ j, j < n ∧ (a = Access.read j ∨ a = Access.write j ∨
          (a = Access.read_predecessor j ∧ ∃ l, pos l < j))) ∧
      (algo.insert_sorted_shift_traced item pos n first).2.2 ≤ n := by
  intro n
  induction n with
  | zero =>
    intro first
    simp [algo.insert_sorted_shift_traced, algo.insert_sorted_shift]
  | succ i ih =>
    intro first
    obtain ⟨hr1, hl1⟩ := insert_sorted_update_traced_spec first i
      (fun l => decide (i > pos l)) (if i = 0 then none else first[i - 1]?) true
    have hacc1 : ∀ a ∈ (algo.insert_sorted_update_traced first i
        (fun l => decide (i > pos l)) (if i = 0 then none else first[i - 1]?) true).2,
        ∃ j, j < i + 1 ∧ (a = Access.read j ∨ a = Access.write j ∨
          (a = Access.read_predecessor j ∧ ∃ l, pos l < j)) := by
      intro a ha
      obtain ⟨hk, hc⟩ := hl1 a ha
      have hlane : ∃ l, pos l < i := by
        rcases hc with hc | hc
        · have := (simd_all_eq_true _).1 hc ⟨0, hW⟩
          exact ⟨⟨0, hW⟩, by simpa using this⟩
        · obtain ⟨l, hl⟩ := (simd_any_eq_true _).1 hc
          exact ⟨l, by simpa using hl⟩
      refine ⟨i, by omega, ?_⟩
      rcases hk with hk | hk | ⟨hk, _⟩
      · exact Or.inl hk
      · exact Or.inr (Or.inl hk)
      · exact Or.inr (Or.inr ⟨hk, hlane⟩)
    simp only [algo.insert_sorted_shift_traced, algo.insert_sorted_shift]
    rw [hr1]
    cases h1 : algo.insert_sorted_update first i (fun l => decide (i > pos l))
        (if i = 0 then none else first[i - 1]?) with
    | none =>
      dsimp only
      exact ⟨rfl, hacc1, by omega⟩
    | some first1 =>
      dsimp only
      obtain ⟨hr2, hl2⟩ := insert_sorted_update_traced_spec first1 i
        (fun l => decide (i = pos l)) (some item) false
      have hacc2 : ∀ a ∈ (algo.insert_sorted_update_traced first1 i
          (fun l => decide (i = pos l)) (some item) false).2,
          ∃ j, j < i + 1 ∧ (a = Access.read j ∨ a = Access.write j ∨
            (a = Access.read_predecessor j ∧ ∃ l, pos l < j)) := by
        intro a ha
        obtain ⟨hk, _⟩ := hl2 a ha
        refine ⟨i, by omega, ?_⟩
        rcases hk with hk | hk | ⟨_, hk⟩
        · exact Or.inl hk
        · exact Or.inr (Or.inl hk)
        · exact Bool.noConfusion hk
      rw [hr2]
      cases h2 : algo.insert_sorted_update first1 i (fun l => decide (i = pos l))
          (some item) with
      | none =>
        dsimp only
        refine ⟨rfl, ?_, by omega⟩
        intro a ha
        rcases List.mem_append.1 ha with ha | ha
        · exact hacc1 a ha
        · exact hacc2 a ha
      | some first2 =>
        dsimp only
        split
        · refine ⟨rfl, ?_, by dsimp only; omega⟩
          intro a ha
          rcases List.mem_append.1 ha with ha | ha
          · exact hacc1 a ha
          · exact hacc2 a ha
        · obtain ⟨h3, h4, h5⟩ := ih first2
          refine ⟨h3, ?_, by dsimp only; omega⟩
          intro a ha
          dsimp only at ha
          rcases List.mem_append.1 ha with ha | ha
          · rcases List.mem_append.1 ha with ha | ha
            · exact hacc1 a ha
            · exact hacc2 a ha
          · obtain ⟨j, hj, hk⟩ := h4 a ha
            exact ⟨j, by omega, hk⟩

/-- C33: for at least one lane and a range of length at least one, a call of
`insert_sorted` returns (its result is that of the model without the log, in which every
access outside of the range fails), every entry it reads or writes has its index in
`[0, length)`, the predecessor `first[i - 1]` is read in an iteration `i` of the shift loop
only if some lane has its insertion position below `i`, hence never for `i = 0`, and each
of the two loops makes at most `length` iterations. -/
theorem insert_sorted_accesses_in_range {W : Nat} {HR : Type} (hW : 0 < W)
    (cond : Packet W HR → Packet W HR → Mask W)
    (item : Packet W HR) (first : List (Packet W HR)) (hK : 1 ≤ first.length) :
    (algo.insert_sorted_traced item first cond).result = algo.insert_sorted item first cond ∧
    (∃ r, (algo.insert_sorted_traced item first cond).result = some r ∧
      r.length = first.length) ∧
    (∀ a ∈ (algo.insert_sorted_traced item first cond).accesses,
      0 ≤ a.index ∧ a.index < first.length) ∧
    (∃ (pos : Packet W Nat) (active : Mask W),
      algo.insert_sorted_search cond item first first.length 0 (simd.splat first.length)
        (simd.splat true) = some (pos, active) ∧
      ∀ i, Access.read_predecessor i ∈ (algo.insert_sorted_traced item first cond).accesses →
        0 < i ∧ ∃ l, pos l < i) ∧
    (algo.insert_sorted_traced item first cond).search_iterations ≤ first.length ∧
    (algo.insert_sorted_traced item first cond).shift_iterations ≤ first.length := by
  obtain ⟨r, _, hr, hlen, _, _⟩ := insert_sorted_spec hW cond item first hK
  obtain ⟨pos, active, hsearch, _⟩ :=
    insert_sorted_search_spec cond item first first.length 0
      (simd.splat first.length) (simd.splat true) (by omega)
      (fun l => ⟨fun _ => ⟨rfl, fun j e hj _ => absurd hj (Nat.not_lt_zero j)⟩,
        fun h => Bool.noConfusion h⟩)
  obtain ⟨hs1, hs2, hs3⟩ := insert_sorted_search_traced_spec cond item first first.length 0
    (simd.splat first.length) (simd.splat true)
  rw [hsearch] at hs1
  obtain ⟨ht1, ht2, ht3⟩ := insert_sorted_shift_traced_spec hW item pos
    (if simd.any (fun l => !active l) then first.length else 1) first
  have hstart : (if simd.any (fun l => !active l) then first.length else 1) ≤ first.length := by
    split <;> omega
  have hres : (algo.insert_sorted_traced item first cond).result =
      algo.insert_sorted item first cond := by
    simp only [algo.insert_sorted_traced, algo.insert_sorted, hs1, hsearch]
    exact ht1
  have hacc : (algo.insert_sorted_traced item first cond).accesses =
      (algo.insert_sorted_search_traced cond item first first.length 0
        (simd.splat first.length) (simd.splat true)).2.1 ++
      (algo.insert_sorted_shift_traced item pos
        (if simd.any (fun l => !active l) then first.length else 1) first).2.1 := by
    simp only [algo.insert_sorted_traced, hs1]
  have hit1 : (algo.insert_sorted_traced item first cond).search_iterations =
      (algo.insert_sorted_search_traced cond item first first.length 0
        (simd.splat first.length) (simd.splat true)).2.2 := by
    simp only [algo.insert_sorted_traced, hs1]
  have hit2 : (algo.insert_sorted_traced item first cond).shift_iterations =
      (algo.insert_sorted_shift_traced item pos
        (if simd.any (fun l => !active l) then first.length else 1) first).2.2 := by
    simp only [algo.insert_sorted_traced, hs1]
  refine ⟨hres, ⟨r, by rw [hres]; exact hr, hlen⟩, ?_, ⟨pos, active, hsearch, ?_⟩,
    by rw [hit1]; exact hs3, by rw [hit2]; omega⟩
  · intro a ha
    rw [hacc] at ha
    rcases List.mem_append.1 ha with ha | ha
    · obtain ⟨j, rfl, _, hj⟩ := hs2 a ha
      simp only [Access.index]
      omega
    · obtain ⟨j, hj, hk⟩ := ht2 a ha
      rcases hk with rfl | rfl | ⟨rfl, l, hl⟩
      · simp only [Access.index]
        omega
      · simp only [Access.index]
        omega
      · simp only [Access.index]
        omega
  · intro i hi
    rw [hacc] at hi
    rcases List.mem_append.1 hi with hi | hi
    · obtain ⟨j, hj, _⟩ := hs2 _ hi
      cases hj
    · obtain ⟨j, hj, hk⟩ := ht2 _ hi
      rcases hk with hk | hk | ⟨hk, l, hl⟩
      · cases hk
      · cases hk
      · cases hk
        exact ⟨by omega, l, hl⟩

theorem insert_sorted_accesses_in_range_witness :
    (algo.insert_sorted_traced (hit1 4) [hit1 3, hit1 5] is_closer_t).result =
      algo.insert_sorted (hit1 4) [hit1 3, hit1 5] is_closer_t ∧
    (∃ r, (algo.insert_sorted_traced (hit1 4) [hit1 3, hit1 5] is_closer_t).result = some r ∧
      r.length = [hit1 3, hit1 5].length) ∧
    (∀ a ∈ (algo.insert_sorted_traced (hit1 4) [hit1 3, hit1 5] is_closer_t).accesses,
      0 ≤ a.index ∧ a.index < [hit1 3, hit1 5].length) ∧
    (∃ (pos : Packet 1 Nat) (active : Mask 1),
      algo.insert_sorted_search is_closer_t (hit1 4) [hit1 3, hit1 5]
        [hit1 3, hit1 5].length 0 (simd.splat [hit1 3, hit1 5].length)
        (simd.splat true) = some (pos, active) ∧
      ∀ i, Access.read_predecessor i ∈
          (algo.insert_sorted_traced (hit1 4) [hit1 3, hit1 5] is_closer_t).accesses →
        0 < i ∧ ∃ l, pos l < i) ∧
    (algo.insert_sorted_traced (hit1 4) [hit1 3, hit1 5] is_closer_t).search_iterations ≤
      [hit1 3, hit1 5].length ∧
    (algo.insert_sorted_traced (hit1 4) [hit1 3, hit1 5] is_closer_t).shift_iterations ≤
      [hit1 3, hit1 5].length :=
  insert_sorted_accesses_in_range (by decide) is_closer_t (hit1 4) [hit1 3, hit1 5]
    (by decide)

/-- C38, the code at the failing input: for the empty range the search loop is not
entered, `pos` is 0 in every lane and the shift loop starts at `i = 0`, where
`must_insert` holds in every lane, so that the candidate is written to `first[0]`, an entry
outside of the range: the log of the call on one lane is the single write of index 0, and
for every lane count, candidate and comparator the model reports the access outside of the
range. -/
theorem insert_sorted_empty_range :
    (algo.insert_sorted_traced (hit1 5) [] is_closer_t).accesses = [Access.write 0] ∧
    (algo.insert_sorted_traced (hit1 5) [] is_closer_t).result = none ∧
    ∀ (W : Nat) (HR : Type) (item : Packet W HR)
      (cond : Packet W HR → Packet W HR → Mask W),
      algo.insert_sorted item [] cond = none := by
  refine ⟨by decide, by decide, ?_⟩
  intro W HR item cond
  have hany : simd.any (fun l : Fin W => !(simd.splat true : Mask W) l) = false := by
    rw [simd_any_eq_false]
    intro l
    rfl
  have hall : simd.all (fun l : Fin W => decide (0 = (simd.splat 0 : Packet W Nat) l)) =
      true := (simd_all_eq_true _).2 (fun l => by simp [simd.splat])
  simp only [algo.insert_sorted, List.length_nil, algo.insert_sorted_search, hany,
    Bool.false_eq_true, if_false, algo.insert_sorted_shift]
  have h1 : algo.insert_sorted_update ([] : List (Packet W HR)) 0
      (fun l => decide (0 > (simd.splat 0 : Packet W Nat) l)) none = none ∨
      algo.insert_sorted_update ([] : List (Packet W HR)) 0
      (fun l => decide (0 > (simd.splat 0 : Packet W Nat) l)) none = some [] := by
    unfold algo.insert_sorted_update
    split
    · exact Or.inl rfl
    · split
      · exact Or.inl rfl
      · exact Or.inr rfl
  rcases h1 with h1 | h1
  · simp only [if_true, h1]
  · simp only [if_true, h1]
    simp [algo.insert_sorted_update, hall]

/-! ## Ties -/

theorem count_not_farther_cons {T P : Type} [LinearOrder T] (x e : HitRecord T P)
    (rest : List (HitRecord T P)) :
    count_not_farther x (e :: rest) =
      (if e.hit = true ∧ e.t ≤ x.t then 1 else 0) + count_not_farther x rest := by
  unfold count_not_farther
  by_cases h : e.hit = true ∧ e.t ≤ x.t
  · rw [List.filter_cons_of_pos (by simp [h.1, h.2]), if_pos h, List.length_cons]
    omega
  · rw [List.filter_cons_of_neg (by simpa using h), if_neg h]
    omega

theorem count_not_farther_le {T P : Type} [LinearOrder T] (x : HitRecord T P)
    (lane : List (HitRecord T P)) : count_not_farther x lane ≤ lane.length :=
  List.length_filter_le _ _

theorem count_not_farther_eq_zero {T P : Type} [LinearOrder T] (x : HitRecord T P)
    (lane : List (HitRecord T P)) (h : ∀ e ∈ lane, ¬ (e.hit = true ∧ e.t ≤ x.t)) :
    count_not_farther x lane = 0 := by
  unfold count_not_farther
  rw [List.length_eq_zero, List.filter_eq_nil_iff]
  intro e he
  simpa using h e he

theorem lt_count_not_farther {T P : Type} [LinearOrder T] (x : HitRecord T P) :
    ∀ (lane : List (HitRecord T P)), LaneInv lane →
      ∀ (j : Nat) (e : HitRecord T P), lane[j]? = some e → e.hit = true → e.t ≤ x.t →
        j < count_not_farther x lane := by
  intro lane
  induction lane with
  | nil =>
    intro _ j e he
    simp at he
  | cons a rest ih =>
    intro hinv j e he hhit hle
    rw [count_not_farther_cons]
    have hinv1 := List.pairwise_cons.1 hinv
    cases j with
    | zero =>
      rw [List.getElem?_cons_zero] at he
      cases he
      rw [if_pos ⟨hhit, hle⟩]
      omega
    | succ j =>
      rw [List.getElem?_cons_succ] at he
      have hmem : e ∈ rest := List.getElem?_mem he
      obtain ⟨ha, hat⟩ := hinv1.1 e hmem hhit
      rw [if_pos ⟨ha, le_trans hat hle⟩]
      have := ih hinv1.2 j e he hhit hle
      omega

theorem scalar_insert_closer_eq {T P : Type} [LinearOrder T] (x : HitRecord T P)
    (hx : x.hit = true) :
    ∀ (lane : List (HitRecord T P)), LaneInv lane →
      scalar_insert closer x lane = insert_at (count_not_farther x lane) x lane := by
  intro lane
  induction lane with
  | nil =>
    intro _
    rfl
  | cons e rest ih =>
    intro hinv
    have hinv1 := List.pairwise_cons.1 hinv
    rw [count_not_farther_cons]
    by_cases hc : e.hit = true ∧ e.t ≤ x.t
    · have hnc : closer x e = false := by
        simp [closer, hx, hc.1, not_lt.2 hc.2]
      rw [if_pos hc]
      simp only [scalar_insert, hnc, Bool.false_eq_true, if_false]
      rw [ih hinv1.2]
      unfold insert_at
      rw [Nat.add_comm 1, List.take_succ_cons, List.drop_succ_cons, List.cons_append,
        List.length_cons, List.take_succ_cons]
    · have hcl : closer x e = true := by
        simp only [closer, hx, Bool.true_and, Bool.or_eq_true, Bool.not_eq_true',
          decide_eq_true_eq]
        by_cases he : e.hit = true
        · exact Or.inr (not_le.1 (fun h => hc ⟨he, h⟩))
        · exact Or.inl (by simpa using he)
      have hzero : count_not_farther x rest = 0 := by
        apply count_not_farther_eq_zero
        rintro b hb ⟨hbh, hbt⟩
        obtain ⟨he, het⟩ := hinv1.1 b hb hbh
        exact hc ⟨he, le_trans het hbt⟩
      rw [if_neg hc, hzero]
      simp only [scalar_insert, hcl, if_true]
      unfold insert_at
      rw [List.take_zero, List.nil_append, List.drop_zero, List.length_cons,
        List.take_succ_cons, List.dropLast_eq_take, List.length_cons, Nat.add_sub_cancel]

/-- C34: with the strict comparator `is_closer_t`, a valid candidate is placed, in every
lane that satisfies the invariant, behind all valid entries that are not farther, ties
included: with `p` the number of these entries, the lane after the call is the lane before
it with the candidate inserted at index `p` and cut to the capacity, every such entry has
an index below `p` and stays where it is, and when the lane is full and the candidate ties
with its last entry the lane is unchanged. -/
theorem insert_sorted_ties {W : Nat} {T P : Type} [LinearOrder T] (hW : 0 < W)
    (dst : List (Packet W (HitRecord T P))) (src : Packet W (HitRecord T P))
    (hK : 1 ≤ dst.length) (l : Fin W) (hinv : SortedPrefix (laneOf l dst))
    (hx : (src l).hit = true) :
    ∃ r, algo.insert_sorted src dst is_closer_t = some r ∧ r.length = dst.length ∧
      laneOf l r =
        insert_at (count_not_farther (src l) (laneOf l dst)) (src l) (laneOf l dst) ∧
      (∀ (j : Nat) (e : HitRecord T P), (laneOf l dst)[j]? = some e → e.hit = true →
        e.t ≤ (src l).t →
        j < count_not_farther (src l) (laneOf l dst) ∧ (laneOf l r)[j]? = some e) ∧
      (count_not_farther (src l) (laneOf l dst) < dst.length →
        (laneOf l r)[count_not_farther (src l) (laneOf l dst)]? = some (src l)) ∧
      ((∀ e ∈ laneOf l dst, e.hit = true) →
        (∃ last, (laneOf l dst).getLast? = some last ∧ (src l).t = last.t) →
        laneOf l r = laneOf l dst) := by
  have hL := LaneInv_of_SortedPrefix _ hinv
  obtain ⟨r, hr, hlen, hlane⟩ :=
    insert_sorted_lane hW is_closer_t closer is_closer_t_lane src dst hK
  have heq := (hlane l).trans (scalar_insert_closer_eq (src l) hx _ hL)
  refine ⟨r, hr, hlen, heq, ?_, ?_, ?_⟩
  · intro j e he hhit hle
    have hj := lt_count_not_farther (src l) _ hL j e he hhit hle
    refine ⟨hj, ?_⟩
    rw [heq, insert_at_getElem?, if_pos (lt_length_of_getElem? he), if_pos hj, he]
  · intro hp
    rw [heq, insert_at_getElem?, laneOf_length, if_pos hp, if_neg (Nat.lt_irrefl _),
      if_pos rfl]
  · intro hfull hlast
    obtain ⟨last, hlast, ht⟩ := hlast
    have hp : count_not_farther (src l) (laneOf l dst) = (laneOf l dst).length := by
      apply le_antisymm (count_not_farther_le _ _)
      have hne : (laneOf l dst).length - 1 < (laneOf l dst).length := by
        rw [laneOf_length]
        omega
      have hget : (laneOf l dst)[(laneOf l dst).length - 1]? = some last := by
        rw [← hlast, List.getLast?_eq_getElem?]
      have := lt_count_not_farther (src l) _ hL _ last hget
        (hfull last (List.getElem?_mem hget)) (le_of_eq ht.symm)
      omega
    rw [heq, hp, insert_at_length_self]

theorem insert_sorted_ties_witness :
    ∃ r, algo.insert_sorted (hit1 5) [hit1 3, hit1 5, hit1 5] is_closer_t = some r ∧
      r.length = [hit1 3, hit1 5, hit1 5].length ∧
      laneOf 0 r =
        insert_at (count_not_farther (hit1 5 0) (laneOf 0 [hit1 3, hit1 5, hit1 5]))
          (hit1 5 0) (laneOf 0 [hit1 3, hit1 5, hit1 5]) ∧
      (∀ (j : Nat) (e : HitRecord Nat Unit),
        (laneOf 0 [hit1 3, hit1 5, hit1 5])[j]? = some e → e.hit = true →
        e.t ≤ (hit1 5 0).t →
        j < count_not_farther (hit1 5 0) (laneOf 0 [hit1 3, hit1 5, hit1 5]) ∧
          (laneOf 0 r)[j]? = some e) ∧
      (count_not_farther (hit1 5 0) (laneOf 0 [hit1 3, hit1 5, hit1 5]) <
          [hit1 3, hit1 5, hit1 5].length →
        (laneOf 0 r)[count_not_farther (hit1 5 0) (laneOf 0 [hit1 3, hit1 5, hit1 5])]? =
          some (hit1 5 0)) ∧
      ((∀ e ∈ laneOf 0 [hit1 3, hit1 5, hit1 5], e.hit = true) →
        (∃ last, (laneOf 0 [hit1 3, hit1 5, hit1 5]).getLast? = some last ∧
          (hit1 5 0).t = last.t) →
        laneOf 0 r = laneOf 0 [hit1 3, hit1 5, hit1 5]) :=
  insert_sorted_ties (by decide) [hit1 3, hit1 5, hit1 5] (hit1 5) (by decide) 0
    (SortedPrefix_of_LaneInv _ (by
      simp [LaneInv, laneOf, hit1]))
    rfl

/-! ## Merging two accumulators -/

theorem apply_updates_single_lane {W : Nat} {T P : Type} [LinearOrder T] (hW : 0 < W)
    (cond : Packet W (HitRecord T P) → Packet W (HitRecord T P) → Mask W) :
    ∀ (hits dst : List (Packet W (HitRecord T P))), 0 < dst.length →
      ∃ r, apply_updates dst (hits.map (fun h => Update.single h cond)) = some r ∧
        r.length = dst.length ∧
        ∀ l, laneOf l r =
          (hits.map (fun h => h l)).foldl (fun lane x => scalar_insert closer x lane)
            (laneOf l dst) := by
  intro hits
  induction hits with
  | nil =>
    intro dst _
    exact ⟨dst, rfl, rfl, fun l => rfl⟩
  | cons h hs ih =>
    intro dst hK
    obtain ⟨r1, hr1, hlen1, hlane1⟩ :=
      insert_sorted_lane hW is_closer_t closer is_closer_t_lane h dst hK
    obtain ⟨r, hr, hlen, hv⟩ := ih r1 (by omega)
    refine ⟨r, ?_, by omega, fun l => ?_⟩
    · simp only [List.map_cons, apply_updates, apply_update, update_if, hr1]
      exact hr
    · rw [hv l, hlane1 l]
      rfl

theorem update_if_multi_loop_lane {W : Nat} {T P : Type} [LinearOrder T] (hW : 0 < W)
    (dst src : List (Packet W (HitRecord T P))) (hK : 0 < dst.length) :
    ∃ r, update_if_multi_loop dst src = some r ∧ r.length = dst.length ∧
      ∀ l, laneOf l r =
        (laneOf l (src.takeWhile (fun hr => simd.any (fun l => (hr l).hit)))).foldl
          (fun lane x => scalar_insert closer x lane) (laneOf l dst) := by
  rw [update_if_multi_loop_eq is_closer_t]
  exact apply_updates_single_lane hW is_closer_t _ dst hK

theorem validDists_length_le {T P : Type} (lane : List (HitRecord T P)) :
    (validDists lane).length ≤ lane.length := by
  simp only [validDists, List.length_map]
  exact (List.takeWhile_sublist _).length_le

theorem foldl_scalar_insert_length {T P : Type} [LinearOrder T] :
    ∀ (xs cur : List (HitRecord T P)),
      (xs.foldl (fun lane x => scalar_insert closer x lane) cur).length = cur.length := by
  intro xs
  induction xs with
  | nil => intro cur; rfl
  | cons x xs ih =>
    intro cur
    rw [List.foldl_cons, ih, scalar_insert_length]

theorem validDists_foldl_scalar_insert {T P : Type} [LinearOrder T] :
    ∀ (xs cur : List (HitRecord T P)),
      validDists (xs.foldl (fun lane x => scalar_insert closer x lane) cur) =
        (((xs.filter (fun e => e.hit)).map (fun e => e.t)).foldl
          (fun acc d => insert_dist d acc) (validDists cur)).take cur.length := by
  intro xs
  induction xs with
  | nil =>
    intro cur
    simp only [List.filter_nil, List.map_nil, List.foldl_nil]
    rw [List.take_of_length_le (validDists_length_le cur)]
  | cons x xs ih =>
    intro cur
    rw [List.foldl_cons, ih, scalar_insert_length]
    by_cases hx : x.hit = true
    · rw [validDists_scalar_insert x hx, foldl_insert_dist_take,
        List.filter_cons_of_pos (by simpa using hx), List.map_cons, List.foldl_cons]
    · have hx1 : x.hit = false := by simpa using hx
      rw [scalar_insert_invalid x hx1, List.filter_cons_of_neg (by simpa using hx)]

theorem filter_takeWhile_lane {W : Nat} {T P : Type} [LinearOrder T] (l : Fin W) :
    ∀ (src : List (Packet W (HitRecord T P))), LaneInv (laneOf l src) →
      (laneOf l (src.takeWhile (fun hr => simd.any (fun l => (hr l).hit)))).filter
          (fun e => e.hit) =
        (laneOf l src).filter (fun e => e.hit) := by
  intro src
  induction src with
  | nil => intro _; rfl
  | cons h rest ih =>
    intro hinv
    have hinv1 : (∀ b ∈ laneOf l rest, b.hit = true → (h l).hit = true ∧ (h l).t ≤ b.t) ∧
        LaneInv (laneOf l rest) := List.pairwise_cons.1 hinv
    by_cases hany : simd.any (fun l => (h l).hit) = true
    · simp only [List.takeWhile_cons, hany, if_true]
      simp only [laneOf, List.map_cons, List.filter_cons]
      have := ih hinv1.2
      simp only [laneOf] at this
      rw [this]
    · simp only [List.takeWhile_cons, hany, Bool.false_eq_true, if_false]
      have hh : (h l).hit = false := by
        by_contra hcon
        exact hany ((simd_any_eq_true _).2 ⟨l, by simpa using hcon⟩)
      symm
      rw [show laneOf l ([] : List (Packet W (HitRecord T P))) = [] from rfl, List.filter_nil,
        List.filter_eq_nil_iff]
      intro e he
      simp only [laneOf, List.map_cons, List.mem_cons] at he
      rcases he with rfl | he
      · simp [hh]
      · intro hcon
        have := (hinv1.1 e he hcon).1
        rw [hh] at this
        exact Bool.noConfusion this

theorem validDists_eq_validEntryDists {T P : Type} [LinearOrder T]
    (lane : List (HitRecord T P)) (h : LaneInv lane) :
    validDists lane = validEntryDists lane := by
  unfold validDists validEntryDists
  rw [filter_eq_takeWhile_of_LaneInv lane h]

theorem validDists_sorted {T P : Type} [LinearOrder T] :
    ∀ lane : List (HitRecord T P), LaneInv lane → (validDists lane).Sorted (· ≤ ·) := by
  intro lane
  induction lane with
  | nil => intro _; simp [validDists]
  | cons a rest ih =>
    intro h
    rw [LaneInv, List.pairwise_cons] at h
    by_cases ha : a.hit = true
    · have hv : validDists (a :: rest) = a.t :: validDists rest := by simp [validDists, ha]
      rw [hv, List.sorted_cons]
      refine ⟨?_, ih h.2⟩
      intro d hd
      simp only [validDists, List.mem_map] at hd
      obtain ⟨e, he, rfl⟩ := hd
      have hmem : e ∈ rest := (List.takeWhile_sublist _).subset he
      have hhit : e.hit = true := by
        have := List.mem_takeWhile_imp he
        simpa using this
      exact (h.1 e hmem hhit).2
    · have hv : validDists (a :: rest) = [] := by simp [validDists, ha]
      rw [hv]
      exact List.sorted_nil

theorem foldl_insert_dist_eq_sort_append {T : Type} [LinearOrder T] (ds s : List T)
    (hs : s.Sorted (· ≤ ·)) :
    ds.foldl (fun acc d => insert_dist d acc) s = (s ++ ds).insertionSort (· ≤ ·) := by
  obtain ⟨h1, h2⟩ := foldl_insert_dist_sorted_perm ds s hs
  exact List.eq_of_perm_of_sorted (h2.trans (List.perm_insertionSort _ _).symm) h1
    (List.sorted_insertionSort _ _)

/-- C31: merging two accumulators of the same capacity `K >= 1` that satisfy the invariant
in every lane: the multi-vs-multi `update_if` returns an accumulator of `K` entries that
satisfies the invariant again, and in every lane the distances of its valid entries are the
first `K` of the ascending sort of the distances of the valid entries of both inputs, so
that it holds `min(K, a + b)` valid entries. -/
theorem update_if_multi_merge {W : Nat} {T P : Type} [LinearOrder T] (hW : 0 < W)
    (dst src : List (Packet W (HitRecord T P)))
    (cond : Packet W (HitRecord T P) → Packet W (HitRecord T P) → Mask W)
    (hK : 1 ≤ dst.length) (hlen : src.length = dst.length)
    (hdst : ∀ l, SortedPrefix (laneOf l dst)) (hsrc : ∀ l, SortedPrefix (laneOf l src)) :
    ∃ r, update_if_multi dst src cond = some r ∧ r.length = dst.length ∧
      ∀ l, SortedPrefix (laneOf l r) ∧
        validEntryDists (laneOf l r) =
          ((validEntryDists (laneOf l dst) ++ validEntryDists (laneOf l src)).insertionSort
            (· ≤ ·)).take dst.length ∧
        validCount (laneOf l r) =
          min dst.length (validCount (laneOf l dst) + validCount (laneOf l src)) := by
  have hLd := fun l => LaneInv_of_SortedPrefix _ (hdst l)
  have hLs := fun l => LaneInv_of_SortedPrefix _ (hsrc l)
  obtain ⟨r, hr, hrlen, hrinv⟩ := update_if_multi_inv hW dst src cond hK hLd hlen hLs
  have hcount : ∀ lane : List (HitRecord T P),
      validCount lane = (validEntryDists lane).length := by
    intro lane
    simp [validCount, validEntryDists]
  have hdists : ∀ l, validEntryDists (laneOf l r) =
      ((validEntryDists (laneOf l dst) ++ validEntryDists (laneOf l src)).insertionSort
        (· ≤ ·)).take dst.length := by
    intro l
    have h0 : dst[0]? = some dst[0] := List.getElem?_eq_getElem hK
    by_cases hany : simd.any (fun l => (dst[0] l).hit) = true
    · obtain ⟨r1, hr1, _, hlane⟩ := update_if_multi_loop_lane hW dst src hK
      have hrr : r = r1 := by
        simp only [update_if_multi, h0, hany, Bool.not_true, Bool.false_eq_true,
          if_false] at hr
        rw [hr1] at hr
        exact (Option.some.inj hr).symm
      subst hrr
      rw [← validDists_eq_validEntryDists _ (hrinv l), hlane l,
        validDists_foldl_scalar_insert, laneOf_length, filter_takeWhile_lane l src (hLs l),
        foldl_insert_dist_eq_sort_append _ _ (validDists_sorted _ (hLd l)),
        validDists_eq_validEntryDists _ (hLd l)]
      rfl
    · have hrr : r = src := by
        simp only [update_if_multi, h0, hany, Bool.not_false, if_true] at hr
        exact (Option.some.inj hr).symm
      subst hrr
      have hd0 : validEntryDists (laneOf l dst) = [] := by
        have hh : (dst[0] l).hit = false := by
          by_contra hcon
          exact hany ((simd_any_eq_true _).2 ⟨l, by simpa using hcon⟩)
        have hget : (laneOf l dst)[0]? = some (dst[0] l) := by
          rw [laneOf_getElem?, h0]
          rfl
        have hz := (LaneInv_hit_iff _ (hLd l) 0 _ hget).not.1 (by simp [hh])
        rw [← validDists_eq_validEntryDists _ (hLd l)]
        exact List.length_eq_zero.1 (by omega)
      rw [hd0, List.nil_append, ← validDists_eq_validEntryDists _ (hLs l),
        List.Sorted.insertionSort_eq (validDists_sorted _ (hLs l)),
        List.take_of_length_le]
      have := validDists_length_le (laneOf l r)
      rw [laneOf_length] at this
      omega
  refine ⟨r, hr, hrlen, fun l => ⟨SortedPrefix_of_LaneInv _ (hrinv l), hdists l, ?_⟩⟩
  rw [hcount, hcount, hcount, hdists l, List.length_take, List.length_insertionSort,
    List.length_append]

theorem update_if_multi_merge_witness :
    ∃ r, update_if_multi [hit2 (some 2) (some 7), hit2 (some 6) none]
        [hit2 (some 1) (some 7), hit2 (some 3) (some 9)] is_closer_t = some r ∧
      r.length = [hit2 (some 2) (some 7), hit2 (some 6) none].length ∧
      ∀ l, SortedPrefix (laneOf l r) ∧
        validEntryDists (laneOf l r) =
          ((validEntryDists (laneOf l [hit2 (some 2) (some 7), hit2 (some 6) none]) ++
            validEntryDists (laneOf l [hit2 (some 1) (some 7), hit2 (some 3) (some 9)])
            ).insertionSort (· ≤ ·)).take
              [hit2 (some 2) (some 7), hit2 (some 6) none].length ∧
        validCount (laneOf l r) =
          min [hit2 (some 2) (some 7), hit2 (some 6) none].length
            (validCount (laneOf l [hit2 (some 2) (some 7), hit2 (some 6) none]) +
              validCount (laneOf l [hit2 (some 1) (some 7), hit2 (some 3) (some 9)])) :=
  update_if_multi_merge (by decide) [hit2 (some 2) (some 7), hit2 (some 6) none]
    [hit2 (some 1) (some 7), hit2 (some 3) (some 9)] is_closer_t (by decide) rfl
    (fun l => SortedPrefix_of_LaneInv _ (by
      revert l
      unfold LaneInv
      decide))
    (fun l => SortedPrefix_of_LaneInv _ (by
      revert l
      unfold LaneInv
      decide))

/-! ## The two paths of the multi-vs-multi `update_if` -/

theorem scalar_insert_append {T P : Type} [LinearOrder T] (x : HitRecord T P)
    (hx : x.hit = true) (B : List (HitRecord T P)) (hB : ∀ b ∈ B, b.hit = false) :
    ∀ A : List (HitRecord T P), (∀ a ∈ A, a.hit = true ∧ a.t ≤ x.t) →
      scalar_insert closer x (A ++ B) = (A ++ x :: B).take (A.length + B.length) := by
  intro A
  induction A with
  | nil =>
    intro _
    cases B with
    | nil => rfl
    | cons b B1 =>
      have hb := hB b (List.mem_cons_self _ _)
      have hc : closer x b = true := by simp [closer, hx, hb]
      simp only [List.nil_append, scalar_insert, hc, if_true, List.length_nil, Nat.zero_add,
        List.length_cons, List.take_succ_cons, List.dropLast_eq_take, Nat.add_sub_cancel]
  | cons a A1 ih =>
    intro hA
    obtain ⟨ha, hat⟩ := hA a (List.mem_cons_self _ _)
    have hc : closer x a = false := by simp [closer, hx, ha, not_lt.2 hat]
    have e : scalar_insert closer x (a :: A1 ++ B) =
        a :: scalar_insert closer x (A1 ++ B) := by
      rw [List.cons_append]
      simp only [scalar_insert, hc, Bool.false_eq_true, if_false]
    rw [e, ih (fun a1 h1 => hA a1 (List.mem_cons_of_mem _ h1)), List.length_cons,
      show A1.length + 1 + B.length = (A1.length + B.length) + 1 by omega,
      List.cons_append, List.take_succ_cons]

theorem foldl_scalar_insert_prefix {T P : Type} [LinearOrder T] :
    ∀ (xs A B : List (HitRecord T P)), (∀ a ∈ A, a.hit = true) →
      (∀ b ∈ B, b.hit = false) → LaneInv (A ++ xs) →
      xs.foldl (fun lane x => scalar_insert closer x lane) (A ++ B) =
        (A ++ xs.filter (fun e => e.hit) ++ B).take (A.length + B.length) := by
  intro xs
  induction xs with
  | nil =>
    intro A B _ _ _
    simp only [List.foldl_nil, List.filter_nil, List.append_nil]
    rw [← List.length_append, List.take_length]
  | cons x xs ih =>
    intro A B hA hB hinv
    rw [List.foldl_cons]
    have hsub : LaneInv (A ++ xs) :=
      List.Pairwise.sublist
        (List.Sublist.append_left (List.sublist_cons_self x xs) A) hinv
    by_cases hx : x.hit = true
    · have hAx : ∀ a ∈ A, a.hit = true ∧ a.t ≤ x.t := by
        intro a ha
        exact (List.pairwise_append.1 hinv).2.2 a ha x (List.mem_cons_self _ _) hx
      rw [scalar_insert_append x hx B hB A hAx, List.filter_cons_of_pos (by simpa using hx)]
      cases hBe : B.getLast? with
      | none =>
        have hBnil : B = [] := List.getLast?_eq_none_iff.1 hBe
        subst hBnil
        have h1 : (A ++ [x]).take (A.length + ([] : List (HitRecord T P)).length) = A ++ [] := by
          rw [List.length_nil, Nat.add_zero, List.take_left', List.append_nil]
          rfl
        rw [h1, ih A [] hA hB hsub]
        simp only [List.append_nil, List.length_nil, Nat.add_zero]
        rw [List.take_left' rfl, List.take_left' rfl]
      | some b =>
        obtain ⟨B1, hB1⟩ : ∃ B1, B = B1 ++ [b] := by
          obtain ⟨ys, hys⟩ := List.getLast?_eq_some_iff.1 hBe
          exact ⟨ys, hys⟩
        subst hB1
        have h1 : (A ++ x :: (B1 ++ [b])).take (A.length + (B1 ++ [b]).length) =
            (A ++ [x]) ++ B1 := by
          have : A ++ x :: (B1 ++ [b]) = ((A ++ [x]) ++ B1) ++ [b] := by simp
          rw [this, List.take_left']
          simp only [List.length_append, List.length_singleton]
          omega
        rw [h1, ih (A ++ [x]) B1
          (fun a ha => by
            rcases List.mem_append.1 ha with ha | ha
            · exact hA a ha
            · rw [List.mem_singleton.1 ha]; exact hx)
          (fun b1 hb1 => hB b1 (List.mem_append_left _ hb1))
          (by rw [List.append_assoc]; exact hinv)]
        have h2 : A ++ x :: xs.filter (fun e => e.hit) ++ (B1 ++ [b]) =
            ((A ++ [x]) ++ xs.filter (fun e => e.hit) ++ B1) ++ [b] := by simp
        have hn : A.length + (B1 ++ [b]).length = (A ++ [x]).length + B1.length := by
          simp only [List.length_append, List.length_singleton]
          omega
        have hR : (A ++ x :: xs.filter (fun e => e.hit) ++ (B1 ++ [b])).take
            (A.length + (B1 ++ [b]).length) =
            ((A ++ [x]) ++ xs.filter (fun e => e.hit) ++ B1).take
              ((A ++ [x]).length + B1.length) := by
          rw [h2, hn, List.take_append_of_le_length
            (by simp only [List.length_append, List.length_singleton]; omega)]
        rw [hR]
    · have hx1 : x.hit = false := by simpa using hx
      rw [scalar_insert_invalid x hx1, List.filter_cons_of_neg (by simpa using hx)]
      exact ih A B hA hB hsub

/-- C32: for an existing accumulator of at least one entry that is invalid in every lane
and a candidate of the same capacity that satisfies the invariant in every lane, the fast
path (the call itself, which copies the candidate) and the slow path (the loop that inserts
the entries of the candidate one by one) agree on the valid entries: at every position of
every lane either both results hold the same valid entry or both hold an invalid one. -/
theorem update_if_multi_paths_agree {W : Nat} {T P : Type} [LinearOrder T] (hW : 0 < W)
    (dst src : List (Packet W (HitRecord T P)))
    (cond : Packet W (HitRecord T P) → Packet W (HitRecord T P) → Mask W)
    (hK : 1 ≤ dst.length) (hlen : src.length = dst.length)
    (hdst : ∀ e ∈ dst, ∀ l, (e l).hit = false)
    (hsrc : ∀ l, SortedPrefix (laneOf l src)) :
    update_if_multi dst src cond = some src ∧
    ∃ slow, update_if_multi_loop dst src = some slow ∧ slow.length = src.length ∧
      ∀ (l : Fin W) (j : Nat) (a b : HitRecord T P),
        (laneOf l src)[j]? = some a → (laneOf l slow)[j]? = some b →
        a.hit = b.hit ∧ (a.hit = true → b = a) := by
  have hfast : update_if_multi dst src cond = some src := by
    have h0 : dst[0]? = some dst[0] := List.getElem?_eq_getElem hK
    have hany : simd.any (fun l => (dst[0] l).hit) = false := by
      rw [simd_any_eq_false]
      intro l
      exact hdst _ (List.getElem_mem hK) l
    simp [update_if_multi, h0, hany]
  obtain ⟨slow, hslow, hslen, hlane⟩ := update_if_multi_loop_lane hW dst src hK
  refine ⟨hfast, slow, hslow, by omega, ?_⟩
  intro l j a b ha hb
  have hLs := LaneInv_of_SortedPrefix _ (hsrc l)
  have hB : ∀ e ∈ laneOf l dst, e.hit = false := by
    intro e he
    obtain ⟨p, hp, rfl⟩ := List.mem_map.1 he
    exact hdst p hp l
  have hpre : LaneInv (laneOf l (src.takeWhile (fun hr => simd.any (fun l => (hr l).hit)))) :=
    List.Pairwise.sublist ((List.takeWhile_sublist _).map _) hLs
  have hfold := foldl_scalar_insert_prefix
    (laneOf l (src.takeWhile (fun hr => simd.any (fun l => (hr l).hit)))) [] (laneOf l dst)
    (fun a ha => absurd ha (List.not_mem_nil a)) hB hpre
  simp only [List.nil_append, List.length_nil, Nat.zero_add] at hfold
  rw [hlane l, hfold, filter_takeWhile_lane l src hLs,
    filter_eq_takeWhile_of_LaneInv _ hLs, List.getElem?_take] at hb
  have hv : (validDists (laneOf l src)).length =
      ((laneOf l src).takeWhile (fun e => e.hit)).length := by
    simp [validDists]
  have hiff := LaneInv_hit_iff _ hLs j a ha
  rw [hv] at hiff
  by_cases hj : j < ((laneOf l src).takeWhile (fun e => e.hit)).length
  · have hjK : j < (laneOf l dst).length := by
      rw [laneOf_length, ← hlen, ← laneOf_length l src]
      exact lt_length_of_getElem? ha
    rw [if_pos hjK, List.getElem?_append_left hj] at hb
    have hsplit := List.takeWhile_append_dropWhile (fun e : HitRecord T P => e.hit)
      (laneOf l src)
    rw [← hsplit, List.getElem?_append_left hj, hb] at ha
    cases ha
    exact ⟨rfl, fun _ => rfl⟩
  · have hah : a.hit = false := by
      cases h : a.hit with
      | true => exact absurd (hiff.1 h) hj
      | false => rfl
    split at hb
    · rw [List.getElem?_append_right (by omega)] at hb
      have hbh := hB b (List.getElem?_mem hb)
      rw [hah, hbh]
      exact ⟨rfl, fun h => Bool.noConfusion h⟩
    · cases hb

theorem update_if_multi_paths_agree_witness :
    update_if_multi [hit2 none none, hit2 none none]
      [hit2 (some 1) (some 4), hit2 (some 3) none] is_closer_t =
      some [hit2 (some 1) (some 4), hit2 (some 3) none] ∧
    ∃ slow, update_if_multi_loop [hit2 none none, hit2 none none]
        [hit2 (some 1) (some 4), hit2 (some 3) none] = some slow ∧
      slow.length = [hit2 (some 1) (some 4), hit2 (some 3) none].length ∧
      ∀ (l : Fin 2) (j : Nat) (a b : HitRecord Nat Unit),
        (laneOf l [hit2 (some 1) (some 4), hit2 (some 3) none])[j]? = some a →
        (laneOf l slow)[j]? = some b →
        a.hit = b.hit ∧ (a.hit = true → b = a) :=
  update_if_multi_paths_agree (by decide) [hit2 none none, hit2 none none]
    [hit2 (some 1) (some 4), hit2 (some 3) none] is_closer_t (by decide) rfl
    (by
      intro e he l
      simp only [List.mem_cons, List.mem_singleton, List.not_mem_nil, or_false, or_self] at he
      subst he
      revert l
      decide)
    (fun l => SortedPrefix_of_LaneInv _ (by
      revert l
      unfold LaneInv
      decide))

/-! ## The order of the leaves in the index sequence -/

theorem lookup_of_mem_block {Bnd : Type} (i s : Nat) (X : Node Bnd) (N : List (Node Bnd))
    (k : Nat) (hk : k = i ∨ (s ≤ k ∧ k < s + N.length)) :
    ∃ n, lookup i s X N k = some n := by
  unfold lookup
  by_cases hki : k = i
  · exact ⟨X, by rw [if_pos hki]⟩
  · rcases hk with hk | hk
    · exact absurd hk hki
    · rw [if_neg hki, if_pos hk.1]
      exact ⟨N[k - s], List.getElem?_eq_getElem (by omega)⟩

theorem Run_block_ranges {S LI Prim Bnd : Type} {builder : Builder S LI Prim Bnd}
    {data : List Prim} {m : Int}
    (hins : ∀ b idx leaf idx1 count b1,
      builder.insert_indices b idx leaf = ((idx1, count), b1) →
      ∃ new, idx1 = idx ++ new ∧ new.length = count)
    {index s : Nat} {b : BuilderState S} {idx : List Nat} {leaf : LI}
    {X : Node Bnd} {N : List (Node Bnd)} {b' : BuilderState S} {idx' : List Nat}
    {T : List Event}
    (h : Run builder data m index s b idx leaf X N b' idx' T) (hi : index < s) :
    idx.length ≤ idx'.length ∧
    ∀ (j : Nat) (bnd : Bnd) (f c : Nat), lookup index s X N j = some (Node.leaf bnd f c) →
      idx.length ≤ f ∧ f + c ≤ idx'.length := by
  induction h with
  | leaf index s b idx leaf b1 idx1 count b2 hsp hins1 =>
    obtain ⟨new, rfl, hnew⟩ := hins _ _ _ _ _ _ hins1
    refine ⟨by simp, ?_⟩
    intro j bnd f c hl
    unfold lookup at hl
    split at hl
    · cases hl
      simp only [List.length_append]
      omega
    · split at hl <;> simp at hl
  | inner index s b idx leaf c0 c1 b1 X1 N1 b2 idx2 T1 X0 N0 b3 idx3 T0 hsp h1 h0 ih1 ih0 =>
    obtain ⟨hl1, hr1⟩ := ih1 (by omega)
    obtain ⟨hl0, hr0⟩ := ih0 (by omega)
    refine ⟨by omega, ?_⟩
    intro j bnd f c hl
    rcases (lookup_inner index s hi _ X0 X1 N0 N1 j _).1 hl with ⟨_, hX⟩ | hl | hl
    · cases hX
    · have := hr1 j bnd f c hl
      omega
    · have := hr0 j bnd f c hl
      omega

theorem Run_subtree {S LI Prim Bnd : Type} {builder : Builder S LI Prim Bnd}
    {data : List Prim} {m : Int}
    {index s : Nat} {b : BuilderState S} {idx : List Nat} {leaf : LI}
    {X : Node Bnd} {N : List (Node Bnd)} {b' : BuilderState S} {idx' : List Nat}
    {T : List Event}
    (h : Run builder data m index s b idx leaf X N b' idx' T) (hi : index < s) :
    ∀ (F : List (Node Bnd)), (∀ j n, lookup index s X N j = some n → F[j]? = some n) →
      ∀ k, InSubtree F index k → k = index ∨ (s ≤ k ∧ k < s + N.length) := by
  induction h with
  | leaf index s b idx leaf b1 idx1 count b2 hsp hins1 =>
    intro F hF k hk
    have hroot : F[index]? = some (Node.leaf (builder.prim_bounds leaf) idx.length count) :=
      hF index _ (by simp [lookup])
    cases hk with
    | root => exact Or.inl rfl
    | first _ c _ bnd hn _ => rw [hroot] at hn; cases hn
    | second _ c _ bnd hn _ => rw [hroot] at hn; cases hn
  | inner index s b idx leaf c0 c1 b1 X1 N1 b2 idx2 T1 X0 N0 b3 idx3 T0 hsp h1 h0 ih1 ih0 =>
    intro F hF k hk
    have hroot : F[index]? = some (Node.inner (builder.prim_bounds leaf) s) :=
      hF index _ ((lookup_inner index s hi _ X0 X1 N0 N1 index _).2 (Or.inl ⟨rfl, rfl⟩))
    have hF1 : ∀ j n, lookup (s + 1) (s + 2) X1 N1 j = some n → F[j]? = some n :=
      fun j n hl => hF j n ((lookup_inner index s hi _ X0 X1 N0 N1 j n).2 (Or.inr (Or.inl hl)))
    have hF0 : ∀ j n, lookup s (s + 2 + N1.length) X0 N0 j = some n → F[j]? = some n :=
      fun j n hl => hF j n ((lookup_inner index s hi _ X0 X1 N0 N1 j n).2 (Or.inr (Or.inr hl)))
    simp only [List.length_cons, List.length_append]
    cases hk with
    | root => exact Or.inl rfl
    | first _ c _ bnd hn hc =>
      rw [hroot] at hn
      cases hn
      have := ih0 (by omega) F hF0 k hc
      omega
    | second _ c _ bnd hn hc =>
      rw [hroot] at hn
      cases hn
      have := ih1 (by omega) F hF1 k hc
      omega

theorem Run_second_child_first {S LI Prim Bnd : Type} {builder : Builder S LI Prim Bnd}
    {data : List Prim} {m : Int}
    (hins : ∀ b idx leaf idx1 count b1,
      builder.insert_indices b idx leaf = ((idx1, count), b1) →
      ∃ new, idx1 = idx ++ new ∧ new.length = count)
    {index s : Nat} {b : BuilderState S} {idx : List Nat} {leaf : LI}
    {X : Node Bnd} {N : List (Node Bnd)} {b' : BuilderState S} {idx' : List Nat}
    {T : List Event}
    (h : Run builder data m index s b idx leaf X N b' idx' T) (hi : index < s) :
    ∀ (F : List (Node Bnd)), (∀ j n, lookup index s X N j = some n → F[j]? = some n) →
      ∀ (p : Nat) (bnd : Bnd) (c : Nat), lookup index s X N p = some (Node.inner bnd c) →
      ∀ k1 k0, InSubtree F (c + 1) k1 → InSubtree F c k0 →
        (k1 ≠ c + 1 → k0 ≠ c → k1 < k0) ∧
        ∀ (b1 : Bnd) (f1 n1 : Nat) (b0 : Bnd) (f0 n0 : Nat),
          F[k1]? = some (Node.leaf b1 f1 n1) → F[k0]? = some (Node.leaf b0 f0 n0) →
          f1 + n1 ≤ f0 := by
  induction h with
  | leaf index s b idx leaf b1 idx1 count b2 hsp hins1 =>
    intro F hF p bnd c hl
    unfold lookup at hl
    split at hl
    · cases hl
    · split at hl <;> simp at hl
  | inner index s b idx leaf c0 c1 b1 X1 N1 b2 idx2 T1 X0 N0 b3 idx3 T0 hsp h1 h0 ih1 ih0 =>
    intro F hF p bnd c hl k1 k0 hk1 hk0
    have hF1 : ∀ j n, lookup (s + 1) (s + 2) X1 N1 j = some n → F[j]? = some n :=
      fun j n hl => hF j n ((lookup_inner index s hi _ X0 X1 N0 N1 j n).2 (Or.inr (Or.inl hl)))
    have hF0 : ∀ j n, lookup s (s + 2 + N1.length) X0 N0 j = some n → F[j]? = some n :=
      fun j n hl => hF j n ((lookup_inner index s hi _ X0 X1 N0 N1 j n).2 (Or.inr (Or.inr hl)))
    rcases (lookup_inner index s hi _ X0 X1 N0 N1 p _).1 hl with ⟨_, hX⟩ | hl | hl
    · cases hX
      have hb1 := Run_subtree h1 (by omega) F hF1 k1 hk1
      have hb0 := Run_subtree h0 (by omega) F hF0 k0 hk0
      refine ⟨fun _ _ => by omega, ?_⟩
      intro b1' f1 n1 b0' f0 n0 hn1 hn0
      obtain ⟨x1, hx1⟩ := lookup_of_mem_block (s + 1) (s + 2) X1 N1 k1 hb1
      obtain ⟨x0, hx0⟩ := lookup_of_mem_block s (s + 2 + N1.length) X0 N0 k0 hb0
      have e1 := hF1 k1 x1 hx1
      have e0 := hF0 k0 x0 hx0
      rw [hn1] at e1
      rw [hn0] at e0
      cases e1
      cases e0
      have r1 := (Run_block_ranges hins h1 (by omega)).2 k1 b1' f1 n1 hx1
      have r0 := (Run_block_ranges hins h0 (by omega)).2 k0 b0' f0 n0 hx0
      omega
    · exact ih1 (by omega) F hF1 p bnd c hl k1 k0 hk1 hk0
    · exact ih0 (by omega) F hF0 p bnd c hl k1 k0 hk1 hk0

/-- C35: for a Builder whose `insert_indices` appends as many indices as it returns,
whenever `build_top_down` returns, for every inner node with first child `c`: every node of
the subtree of the second child `c + 1` other than `c + 1` itself has a smaller index than
every node of the subtree of the first child `c` other than `c` itself, and the range of
every leaf of the subtree of `c + 1` ends before the range of every leaf of the subtree of
`c` starts. -/
theorem build_top_down_second_child_first {S LI Prim Bnd : Type}
    (builder : Builder S LI Prim Bnd)
    (hins : ∀ b idx leaf idx1 count b1,
      builder.insert_indices b idx leaf = ((idx1, count), b1) →
      ∃ new, idx1 = idx ++ new ∧ new.length = count)
    (fuel : Nat) (is_index_bvh : Bool) (tree : Tree Bnd Prim) (b : BuilderState S)
    (first : List Prim) (m : Int) (r : detail.BuildResult S Bnd Prim)
    (h : detail.build_top_down fuel is_index_bvh tree builder b first m = Except.ok r) :
    ∀ (p : Nat) (bnd : Bnd) (c : Nat), r.tree.nodes[p]? = some (Node.inner bnd c) →
      ∀ k1 k0, InSubtree r.tree.nodes (c + 1) k1 → InSubtree r.tree.nodes c k0 →
        (k1 ≠ c + 1 → k0 ≠ c → k1 < k0) ∧
        ∀ (b1 : Bnd) (f1 n1 : Nat) (b0 : Bnd) (f0 n0 : Nat),
          r.tree.nodes[k1]? = some (Node.leaf b1 f1 n1) →
          r.tree.nodes[k0]? = some (Node.leaf b0 f0 n0) →
          f1 + n1 ≤ f0 := by
  obtain ⟨X, N, T, b', idx', hrun, hn, _, _, _⟩ :=
    build_top_down_run fuel is_index_bvh tree builder b first m r h
  rw [hn]
  intro p bnd c hp
  exact Run_second_child_first hins hrun (by omega) (X :: N)
    (fun j n hl => by rw [← lookup_root]; exact hl) p bnd c
    (by rw [lookup_root]; exact hp)

theorem build_top_down_second_child_first_witness :
    ∃ r, detail.build_top_down 10 true (⟨[], [], []⟩ : Tree (Nat × Nat) Nat)
        median_builder ⟨true, ()⟩ (List.range 8) 2 = Except.ok r ∧
      ∀ (p : Nat) (bnd : Nat × Nat) (c : Nat), r.tree.nodes[p]? = some (Node.inner bnd c) →
        ∀ k1 k0, InSubtree r.tree.nodes (c + 1) k1 → InSubtree r.tree.nodes c k0 →
          (k1 ≠ c + 1 → k0 ≠ c → k1 < k0) ∧
          ∀ (b1 : Nat × Nat) (f1 n1 : Nat) (b0 : Nat × Nat) (f0 n0 : Nat),
            r.tree.nodes[k1]? = some (Node.leaf b1 f1 n1) →
            r.tree.nodes[k0]? = some (Node.leaf b0 f0 n0) →
            f1 + n1 ≤ f0 :=
  ⟨_, rfl, build_top_down_second_child_first median_builder
    (by
      intro b idx leaf idx1 count b1 h
      simp only [median_builder, Prod.mk.injEq] at h
      obtain ⟨⟨rfl, rfl⟩, _⟩ := h
      exact ⟨_, rfl, by simp⟩)
    10 true ⟨[], [], []⟩ ⟨true, ()⟩ (List.range 8) 2 _ rfl⟩

end visionaray
